import Mathlib

/-!
# Quantized triangle cache and binned-SAH BVH builder

A shallow embedding of `src/src/SurfaceAreaHeuristic.cpp` (`get_surface_area`,
`grow_bounds`, `split_bvh_node`, `build_bvh`) and of the bounds and cache routines of
`src/src/LoadModel.cpp` (`load_bounds`, `load_cache`), followed by the properties proved
about them.

## Conventions of the embedding

* `uint16_t` components are `Fin 65536`; every comparison and subtraction is done on the
  promoted value (`.val`, as `Nat` or `Int`), exactly as C++ integer promotion does.
* `uint`, `int` and `size_t` indices and counts are natural numbers or integers without
  wrap-around.  Every such value the builder computes is an index into, or a length of,
  the index array or the node array (at most `2 n` for a mesh of `n` triangles), so the
  embedding describes the code on meshes of fewer than `2 ^ 31` triangles.
* `float` values are rationals.  Every floating-point operation of the source is written
  as the exact operation followed by `Platform.rnd`, the rounding of the platform.  The
  general theorems hold for every rounding function, unless they name a hypothesis on
  it; `exactPlatform` rounds nothing and `f32Platform` rounds to binary32.
* `std::vector` is `List`; a reference `nodes[i]` held across statements is re-read with
  `nodeAt` and written back with `List.set`.  An out-of-range read, which the theorems
  show does not occur, yields a fixed default.
* `std::partition` is specified by the C++ standard only up to the order inside the two
  groups; it is the field `Platform.partition`, any function meeting that contract.
* `split_bvh_node` recurses on an explicit fuel and returns `none` when it runs out;
  `build_bvh` supplies `MAX_DEPTH + 1`, and the theorems show that this is enough.
* Module `Types` (the vector types, `quantize_position`, `sub`, `add`, `div`, the normal
  encoding) is not among the sources; its types and functions are modelled from the
  specification and marked so.
-/

namespace Core

/-! ## Types (module `Types`, whose source file is not part of `src/`) -/

/-- Modelled from the spec: the 16-bit unsigned component type of `u16vec3`
("three unsigned 16-bit integers"); module `Types` is missing from `src/`. -/
abbrev u16 := Fin 65536

/-- Modelled from the spec: `QuantizedVec3`, three unsigned 16-bit integers. -/
structure u16vec3 where
  x : u16
  y : u16
  z : u16
deriving DecidableEq, Repr

/-- Modelled from the spec: `Vec3`, three floats (here rationals). -/
structure vec3 where
  x : ℚ
  y : ℚ
  z : ℚ
deriving DecidableEq, Repr

/-- Modelled from the spec: `Triangle`, three `Vec3` vertices. -/
structure Triangle where
  v1 : vec3
  v2 : vec3
  v3 : vec3
deriving DecidableEq, Repr

/-- Modelled from the spec: `MeshBounds`, the corners `minPos` and `maxPos`. -/
structure MeshBounds where
  minPos : vec3
  maxPos : vec3
deriving DecidableEq, Repr

/-- Modelled from the spec: `CachedTriangle`, quantized vertices, centroid, local box
and an encoded normal. -/
structure CachedTriangle where
  v1 : u16vec3
  v2 : u16vec3
  v3 : u16vec3
  centroid : u16vec3
  min : u16vec3
  max : u16vec3
  normal : Nat
deriving DecidableEq, Repr

/-- Modelled from the spec: `Object`, the cached mesh and the bounds it was built with. -/
structure Object where
  mesh : List CachedTriangle
  bounds : MeshBounds
deriving DecidableEq, Repr

/-- Modelled from the spec: `BVHNode`, a box, `leftFirst`, `triCount` and two padding
fields. -/
structure BVHNode where
  aabbMin : u16vec3
  aabbMax : u16vec3
  leftFirst : Nat
  triCount : Nat
  pad1 : Nat
  pad2 : Nat
deriving DecidableEq, Repr

/-- The all-zero vector. -/
def u16vec3.zero : u16vec3 := ⟨0, 0, 0⟩

/-- The initial "empty" lower corner `{65535, 65535, 65535}`. -/
def u16vec3.top : u16vec3 := ⟨65535, 65535, 65535⟩

/-- Modelled from the spec: the node produced by `nodes.emplace_back()`
(value-initialised); each of its fields is overwritten before `build_bvh` returns. -/
def BVHNode.fresh : BVHNode := ⟨u16vec3.zero, u16vec3.zero, 0, 0, 0, 0⟩

/-- The triangle read by an out-of-range `obj.mesh[idx]` in the model. -/
def CachedTriangle.zero : CachedTriangle :=
  ⟨u16vec3.zero, u16vec3.zero, u16vec3.zero, u16vec3.zero, u16vec3.zero, u16vec3.zero, 0⟩

/-! ## Platform parameters -/

/-- The contract of `std::partition` on a range of indices: the first component holds
the elements satisfying the predicate, the second the others, each in some order. -/
structure StdPartition where
  run : (Nat → Bool) → List Nat → List Nat × List Nat
  front : ∀ p l, (run p l).1.Perm (l.filter p)
  back : ∀ p l, (run p l).2.Perm (l.filter (fun a => !p a))

/-- What the C++ text leaves to the platform or to the missing module `Types`: the
rounding of float results, the order produced by `std::partition`, and the value
`encode_normal(normalize(cross(edge1, edge2)))` computed from the two edges. -/
structure Platform where
  rnd : ℚ → ℚ
  partition : StdPartition
  encodedNormal : vec3 → vec3 → Nat

/-- The order-preserving partition, one admissible `std::partition`. -/
def stablePartition : StdPartition where
  run := fun p l => (l.filter p, l.filter (fun a => !p a))
  front := fun _ _ => List.Perm.refl _
  back := fun _ _ => List.Perm.refl _

/-- Exact arithmetic (no rounding) with the order-preserving partition. -/
def exactPlatform : Platform := ⟨fun q => q, stablePartition, fun _ _ => 0⟩

/-! ## Constants of `SurfaceAreaHeuristic.cpp` and float literals -/

/-- Number of bins, `BVH_BINS`. -/
def BVH_BINS : Nat := 16

/-- Recursion ceiling, `MAX_DEPTH`. -/
def MAX_DEPTH : Nat := 32

/-- Leaf threshold, `MIN_TRIANGLES_PER_LEAF`. -/
def MIN_TRIANGLES_PER_LEAF : Nat := 2

/-- The value `std::numeric_limits<float>::max()`. -/
def FLT_MAX : ℚ := (2 ^ 24 - 1) * 2 ^ 104

/-- The float literal `1e-4f` (nearest binary32 value). -/
def lit_1em4 : ℚ := 13743895 / 2 ^ 37

/-- The float literal `1e-6f` (nearest binary32 value). -/
def lit_1em6 : ℚ := 8796093 / 2 ^ 43

/-- The float literal `0.1f` (nearest binary32 value). -/
def lit_0p1 : ℚ := 13421773 / 2 ^ 27

/-- The struct `Bin`: a box and a count. -/
structure Bin where
  min : u16vec3
  max : u16vec3
  count : Nat
deriving DecidableEq, Repr

/-- The default member initialisers of `Bin`. -/
def Bin.init : Bin := ⟨u16vec3.top, u16vec3.zero, 0⟩

/-! ## Binary32 rounding -/

/-- Floor of the binary logarithm of a positive natural number, by repeated halving;
the first argument bounds the number of halvings. -/
def log2_nat : Nat → Nat → Nat
  | 0, _ => 0
  | fuel + 1, n => if n < 2 then 0 else log2_nat fuel (n / 2) + 1

/-- Floor of the binary logarithm of a positive rational. -/
def log2_rat (q : ℚ) : Int :=
  let e0 : Int := (log2_nat q.num.toNat q.num.toNat : Int) - (log2_nat q.den q.den : Int)
  if (2 : ℚ) ^ e0 ≤ q then e0 else e0 - 1

/-- Rounding to the nearest integer, ties to even. -/
def round_half_even (q : ℚ) : Int :=
  let f := ⌊q⌋
  let d := q - f
  if d < 1 / 2 then f else if 1 / 2 < d then f + 1 else if f % 2 = 0 then f else f + 1

/-- The spacing of binary32 values around a positive rational `a`: 24 significant bits,
exponents from -126 up (below `2 ^ -126` the spacing is that of the subnormals). -/
def f32_ulp (a : ℚ) : ℚ := (2 : ℚ) ^ (max (log2_rat a) (-126) - 23)

/-- The binary32 value nearest to a positive rational `a`, ties to even. -/
def f32_mag (a : ℚ) : ℚ := (round_half_even (a / f32_ulp a) : ℚ) * f32_ulp a

/-- IEEE 754 binary32 rounding (round to nearest, ties to even) of a real result; the
exponent range is not bounded above, so it agrees with binary32 on results of magnitude
at most `FLT_MAX`. -/
def f32_round (q : ℚ) : ℚ :=
  if q = 0 then 0 else if q < 0 then -f32_mag (-q) else f32_mag q

/-- The x86-64 platform model: binary32 rounding with the order-preserving partition. -/
def f32Platform : Platform := ⟨f32_round, stablePartition, fun _ _ => 0⟩

/-! ## `get_surface_area` and `grow_bounds` -/

/-- Embedding of `get_surface_area` (lines 24-30): the `uint16_t` operands are promoted to
`int` before the subtraction, the difference is converted to float exactly. -/
def get_surface_area (P : Platform) (bmin bmax : u16vec3) : ℚ :=
  let w : ℚ := (((bmax.x.val : Int) - (bmin.x.val : Int) : Int) : ℚ)
  let h : ℚ := (((bmax.y.val : Int) - (bmin.y.val : Int) : Int) : ℚ)
  let d : ℚ := (((bmax.z.val : Int) - (bmin.z.val : Int) : Int) : ℚ)
  P.rnd (2 * P.rnd (P.rnd (P.rnd (w * h) + P.rnd (w * d)) + P.rnd (h * d)))

/-- Embedding of `grow_bounds` (lines 32-40) called with two distinct corner objects
`bmin` and `bmax`; returns the updated pair. -/
def grow_bounds (bmin bmax p : u16vec3) : u16vec3 × u16vec3 :=
  let bmin := if p.x.val < bmin.x.val then { bmin with x := p.x } else bmin
  let bmin := if p.y.val < bmin.y.val then { bmin with y := p.y } else bmin
  let bmin := if p.z.val < bmin.z.val then { bmin with z := p.z } else bmin
  let bmax := if p.x.val > bmax.x.val then { bmax with x := p.x } else bmax
  let bmax := if p.y.val > bmax.y.val then { bmax with y := p.y } else bmax
  let bmax := if p.z.val > bmax.z.val then { bmax with z := p.z } else bmax
  (bmin, bmax)

/-- Embedding of `grow_bounds` when both reference parameters are bound to the same
object `m` (the call on line 90): the six assignments act on one vector. -/
def grow_bounds_same (m p : u16vec3) : u16vec3 :=
  let m := if p.x.val < m.x.val then { m with x := p.x } else m
  let m := if p.y.val < m.y.val then { m with y := p.y } else m
  let m := if p.z.val < m.z.val then { m with z := p.z } else m
  let m := if p.x.val > m.x.val then { m with x := p.x } else m
  let m := if p.y.val > m.y.val then { m with y := p.y } else m
  let m := if p.z.val > m.z.val then { m with z := p.z } else m
  m

/-! ## `split_bvh_node` and `build_bvh` -/

/-- The arrays `split_bvh_node` works on, and the global `max_depth`. -/
structure BuildState where
  indices : List Nat
  nodes : List BVHNode
  max_depth : Nat
deriving DecidableEq, Repr

/-- The node `nodes[i]`. -/
def nodeAt (nodes : List BVHNode) (i : Nat) : BVHNode := nodes.getD i BVHNode.fresh

/-- The triangle `obj.mesh[indices[pos]]`. -/
def triAt (obj : Object) (indices : List Nat) (pos : Nat) : CachedTriangle :=
  obj.mesh.getD (indices.getD pos 0) CachedTriangle.zero

/-- Lines 49-55: the box grown over the local min/max of the triangles of the range. -/
def node_bounds (obj : Object) (indices : List Nat) (leftFirst triCount : Nat) :
    u16vec3 × u16vec3 :=
  (List.range triCount).foldl (fun b i =>
    let tri := triAt obj indices (leftFirst + i)
    let b := grow_bounds b.1 b.2 tri.min
    grow_bounds b.1 b.2 tri.max) (u16vec3.top, u16vec3.zero)

/-- Lines 62-67: the box grown over the centroids of the triangles of the range. -/
def centroid_bounds (obj : Object) (indices : List Nat) (leftFirst triCount : Nat) :
    u16vec3 × u16vec3 :=
  (List.range triCount).foldl (fun b i =>
    let tri := triAt obj indices (leftFirst + i)
    grow_bounds b.1 b.2 tri.centroid) (u16vec3.top, u16vec3.zero)

/-- The component selected by `(axis == 0) ? v.x : (axis == 1) ? v.y : v.z`. -/
def axis_val (axis : Nat) (v : u16vec3) : Int :=
  if axis = 0 then (v.x.val : Int) else if axis = 1 then (v.y.val : Int) else (v.z.val : Int)

/-- Lines 69-74: the split axis. -/
def choose_axis (cMin cMax : u16vec3) : Nat :=
  let extentX : Int := (cMax.x.val : Int) - (cMin.x.val : Int)
  let extentY : Int := (cMax.y.val : Int) - (cMin.y.val : Int)
  let extentZ : Int := (cMax.z.val : Int) - (cMin.z.val : Int)
  let axis := 0
  let axis := if extentY > extentX then 1 else axis
  let axis := if extentZ > extentX ∧ extentZ > extentY then 2 else axis
  axis

/-- Line 76: the extent on the chosen axis, converted to float (exact below 2^24). -/
def axis_extent (axis : Nat) (cMin cMax : u16vec3) : ℚ :=
  ((axis_val axis cMax - axis_val axis cMin : Int) : ℚ)

/-- The conversion `static_cast<int>(float)`: truncation toward zero. -/
def truncToInt (q : ℚ) : Int := if 0 ≤ q then ⌊q⌋ else ⌈q⌉

/-- Line 80: `scale = BVH_BINS / (axisExtent + 0.1f)`. -/
def bin_scale (P : Platform) (axisExtent : ℚ) : ℚ :=
  P.rnd ((BVH_BINS : ℚ) / P.rnd (axisExtent + lit_0p1))

/-- The expression `static_cast<int>((val - cMin[axis]) * scale)` of lines 86 and 140. -/
def bin_raw (P : Platform) (axis : Nat) (cMin : u16vec3) (scale : ℚ)
    (tri : CachedTriangle) : Int :=
  let val : Int := axis_val axis tri.centroid
  truncToInt (P.rnd (((val - axis_val axis cMin : Int) : ℚ) * scale))

/-- Line 86: the bin index used by the binning loop (clamped above only). -/
def bin_index (P : Platform) (axis : Nat) (cMin : u16vec3) (scale : ℚ)
    (tri : CachedTriangle) : Int :=
  min ((BVH_BINS : Int) - 1) (bin_raw P axis cMin scale tri)

/-- Lines 88-90: the update of `bins[binIdx]` for one triangle.  The second call of
`grow_bounds` passes `bins[binIdx].max` for both corners. -/
def bin_add (b : Bin) (tri : CachedTriangle) : Bin :=
  let count := b.count + 1
  let g := grow_bounds b.min b.max tri.min
  let mx := grow_bounds_same g.2 tri.max
  ⟨g.1, mx, count⟩

/-- Lines 79-91: the binning loop.  An index outside the array (never produced for a
rounding that keeps signs) leaves the bins as they are. -/
def fill_bins (P : Platform) (obj : Object) (indices : List Nat) (leftFirst triCount : Nat)
    (axis : Nat) (cMin : u16vec3) (scale : ℚ) : List Bin :=
  (List.range triCount).foldl (fun bins i =>
    let tri := triAt obj indices (leftFirst + i)
    let binIdx := bin_index P axis cMin scale tri
    if 0 ≤ binIdx then
      bins.set binIdx.toNat (bin_add (bins.getD binIdx.toNat Bin.init) tri)
    else bins) (List.replicate BVH_BINS Bin.init)

/-- The running state of the two sweeps: box corners and count. -/
structure Sweep where
  currentMin : u16vec3
  currentMax : u16vec3
  currentCount : Nat
  area : List ℚ
  count : List Nat
deriving DecidableEq, Repr

/-- One iteration of the sweeps of lines 98-106 and 110-118: fold bin `b` in, then
store area and count at slot `i`. -/
def sweep_step (P : Platform) (s : Sweep) (b : Bin) (i : Nat) : Sweep :=
  let currentCount := s.currentCount + b.count
  let g :=
    if b.count > 0 then
      let g1 := grow_bounds s.currentMin s.currentMax b.min
      grow_bounds g1.1 g1.2 b.max
    else (s.currentMin, s.currentMax)
  { currentMin := g.1, currentMax := g.2, currentCount := currentCount,
    area := s.area.set i (get_surface_area P g.1 g.2),
    count := s.count.set i currentCount }

/-- The state before a sweep: empty box, zero count, arrays of `BVH_BINS - 1` slots. -/
def Sweep.init : Sweep :=
  ⟨u16vec3.top, u16vec3.zero, 0, List.replicate (BVH_BINS - 1) 0,
    List.replicate (BVH_BINS - 1) 0⟩

/-- Lines 96-106: left-to-right sweep, giving `leftArea` and `leftCount`. -/
def left_sweep (P : Platform) (bins : List Bin) : Sweep :=
  (List.range (BVH_BINS - 1)).foldl
    (fun s i => sweep_step P s (bins.getD i Bin.init) i) Sweep.init

/-- Lines 108-118: right-to-left sweep (`i = BVH_BINS - 2` down to `0`, bin `i + 1`),
giving `rightArea` and `rightCount`. -/
def right_sweep (P : Platform) (bins : List Bin) : Sweep :=
  ((List.range (BVH_BINS - 1)).reverse).foldl
    (fun s i => sweep_step P s (bins.getD (i + 1) Bin.init) i) Sweep.init

/-- Line 125: the cost of boundary `i`; the `int` counts are converted to float. -/
def split_cost (P : Platform) (l r : Sweep) (i : Nat) : ℚ :=
  P.rnd (P.rnd (P.rnd ((l.count.getD i 0 : ℚ)) * l.area.getD i 0)
    + P.rnd (P.rnd ((r.count.getD i 0 : ℚ)) * r.area.getD i 0))

/-- Lines 120-130: the search for the cheapest boundary, `(minCost, splitIdx)`. -/
def best_split (P : Platform) (l r : Sweep) : ℚ × Int :=
  (List.range (BVH_BINS - 1)).foldl (fun (best : ℚ × Int) i =>
    let cost := split_cost P l r i
    if cost < best.1 then (cost, (i : Int)) else best) (FLT_MAX, -1)

/-- Lines 137-143: the predicate handed to `std::partition`. -/
def partition_pred (P : Platform) (obj : Object) (axis : Nat) (cMin : u16vec3) (scale : ℚ)
    (splitIdx : Int) (idx : Nat) : Bool :=
  let tri := obj.mesh.getD idx CachedTriangle.zero
  let binIdx := bin_raw P axis cMin scale tri
  let binIdx := min ((BVH_BINS : Int) - 1) (max 0 binIdx)
  decide (binIdx ≤ splitIdx)

/-- The sub-range `[lo, lo + len)` of an array. -/
def slice (l : List Nat) (lo len : Nat) : List Nat := (l.drop lo).take len

/-- Lines 136-145: `std::partition` applied to the sub-range
`[leftFirst, leftFirst + triCount)` of `indices`; returns the array and the length of
the first group (`std::distance(begin + leftFirst, it)`). -/
def partition_range (P : Platform) (pred : Nat → Bool) (indices : List Nat)
    (leftFirst triCount : Nat) : List Nat × Nat :=
  let r := P.partition.run pred (slice indices leftFirst triCount)
  (indices.take leftFirst ++ (r.1 ++ r.2) ++ indices.drop (leftFirst + triCount), r.1.length)

/-- Lines 62-134 of `split_bvh_node`: axis choice, binning and cost evaluation.  Returns
`none` when the function returns on line 77 or line 134, and otherwise the predicate
that line 136 hands to `std::partition`. -/
def split_candidate (P : Platform) (obj : Object) (indices : List Nat) (node : BVHNode) :
    Option (Nat → Bool) :=
  let c := centroid_bounds obj indices node.leftFirst node.triCount
  let cMin := c.1
  let cMax := c.2
  let axis := choose_axis cMin cMax
  let axisExtent := axis_extent axis cMin cMax
  if axisExtent < lit_1em4 then none
  else
    let scale := bin_scale P axisExtent
    let bins := fill_bins P obj indices node.leftFirst node.triCount axis cMin scale
    let l := left_sweep P bins
    let r := right_sweep P bins
    let best := best_split P l r
    let minCost := best.1
    let splitIdx := best.2
    let parentArea := get_surface_area P node.aabbMin node.aabbMax
    let leafCost := P.rnd (P.rnd (node.triCount : ℚ) * parentArea)
    if minCost ≥ leafCost then none
    else some (partition_pred P obj axis cMin scale splitIdx)

/-- Lines 57-147 of `split_bvh_node`, everything between the node box and the creation of
the children: returns the index array (reordered if the partition ran), the new
`max_depth`, and `some leftCountFinal` exactly when the node is to be split. -/
def split_decide (P : Platform) (obj : Object) (indices : List Nat) (max_depth : Nat)
    (node : BVHNode) (depth : Nat) : List Nat × Nat × Option Nat :=
  if depth ≥ MAX_DEPTH ∨ node.triCount ≤ MIN_TRIANGLES_PER_LEAF then
    (indices, max_depth, none)
  else
    let max_depth := if depth > max_depth then depth else max_depth
    match split_candidate P obj indices node with
    | none => (indices, max_depth, none)
    | some pred =>
      let pr := partition_range P pred indices node.leftFirst node.triCount
      let leftCountFinal := pr.2
      if leftCountFinal = 0 ∨ leftCountFinal = node.triCount then (pr.1, max_depth, none)
      else (pr.1, max_depth, some leftCountFinal)

/-- Lines 45-55: the node with its padding cleared and its box recomputed. -/
def refit_node (obj : Object) (indices : List Nat) (node : BVHNode) : BVHNode :=
  let b := node_bounds obj indices node.leftFirst node.triCount
  { node with pad1 := 0, pad2 := 0, aabbMin := b.1, aabbMax := b.2 }

/-- Lines 149-165: the two children are appended and the three nodes are filled in. -/
def make_children (nodes : List BVHNode) (nodeIdx : Nat) (leftCountFinal : Nat) :
    List BVHNode :=
  let cur := nodeAt nodes nodeIdx
  let currentLeftFirst := cur.leftFirst
  let currentTriCount := cur.triCount
  let leftChildIdx := nodes.length
  let nodes := nodes ++ [BVHNode.fresh]
  let rightChildIdx := nodes.length
  let nodes := nodes ++ [BVHNode.fresh]
  let nodes := nodes.set nodeIdx
    { nodeAt nodes nodeIdx with leftFirst := leftChildIdx, triCount := 0 }
  let nodes := nodes.set leftChildIdx
    { nodeAt nodes leftChildIdx with
      leftFirst := currentLeftFirst, triCount := leftCountFinal }
  let nodes := nodes.set rightChildIdx
    { nodeAt nodes rightChildIdx with
      leftFirst := currentLeftFirst + leftCountFinal,
      triCount := currentTriCount - leftCountFinal }
  nodes

/-- Embedding of `split_bvh_node` (lines 43-169).  The first argument is the fuel of the
recursion; `none` is returned only when it runs out. -/
def split_bvh_node (P : Platform) (obj : Object) :
    Nat → Nat → BuildState → Nat → Option BuildState
  | 0, _, _, _ => none
  | fuel + 1, nodeIdx, st, depth =>
    let node := refit_node obj st.indices (nodeAt st.nodes nodeIdx)
    let nodes := st.nodes.set nodeIdx node
    match split_decide P obj st.indices st.max_depth node depth with
    | (indices, max_depth, none) => some ⟨indices, nodes, max_depth⟩
    | (indices, max_depth, some leftCountFinal) =>
      let leftChildIdx := nodes.length
      let rightChildIdx := nodes.length + 1
      let nodes := make_children nodes nodeIdx leftCountFinal
      match split_bvh_node P obj fuel leftChildIdx ⟨indices, nodes, max_depth⟩ (depth + 1) with
      | none => none
      | some st1 => split_bvh_node P obj fuel rightChildIdx st1 (depth + 1)

/-- What `build_bvh` leaves behind: the object and the two output arrays. -/
structure BuildResult where
  obj : Object
  out_indices : List Nat
  out_nodes : List BVHNode
  max_depth : Nat
deriving DecidableEq, Repr

/-- Embedding of `build_bvh` (lines 171-192) with an explicit recursion fuel.
`out_indices.resize(n)` followed by the identity loop is `List.range n`; the root is
node 0 with `leftFirst = 0` and `triCount = n`. -/
def build_bvh_fuel (P : Platform) (fuel : Nat) (obj : Object) (out_indices : List Nat)
    (out_nodes : List BVHNode) : Option BuildResult :=
  if obj.mesh.isEmpty then some ⟨obj, out_indices, out_nodes, 0⟩
  else
    let out_indices := List.range obj.mesh.length
    let out_nodes := [BVHNode.fresh]
    let out_nodes := out_nodes.set 0
      { nodeAt out_nodes 0 with leftFirst := 0, triCount := obj.mesh.length }
    match split_bvh_node P obj fuel 0 ⟨out_indices, out_nodes, 0⟩ 0 with
    | none => none
    | some st => some ⟨obj, st.indices, st.nodes, st.max_depth⟩

/-- Embedding of `build_bvh`: the recursion depth never exceeds `MAX_DEPTH`, so
`MAX_DEPTH + 1` nested calls suffice. -/
def build_bvh (P : Platform) (obj : Object) (out_indices : List Nat)
    (out_nodes : List BVHNode) : Option BuildResult :=
  build_bvh_fuel P (MAX_DEPTH + 1) obj out_indices out_nodes

/-! ## `load_bounds` (`LoadModel.cpp`, lines 74-96) -/

/-- Lines 86-92: the six comparisons done for one vertex. -/
def load_bounds_vertex (bounds : MeshBounds) (v : vec3) : MeshBounds :=
  let mn := bounds.minPos
  let mx := bounds.maxPos
  let mn := if v.x < mn.x then { mn with x := v.x } else mn
  let mn := if v.y < mn.y then { mn with y := v.y } else mn
  let mn := if v.z < mn.z then { mn with z := v.z } else mn
  let mx := if v.x > mx.x then { mx with x := v.x } else mx
  let mx := if v.y > mx.y then { mx with y := v.y } else mx
  let mx := if v.z > mx.z then { mx with z := v.z } else mx
  ⟨mn, mx⟩

/-- The array `verts` of line 83. -/
def Triangle.verts (tri : Triangle) : List vec3 := [tri.v1, tri.v2, tri.v3]

/-- Embedding of `load_bounds`: the returned flag and the value of `bounds` after the
call.  `lowest()` is `-FLT_MAX`. -/
def load_bounds (triangles : List Triangle) (bounds : MeshBounds) : Bool × MeshBounds :=
  if triangles.isEmpty then (false, bounds)
  else
    let bounds : MeshBounds :=
      ⟨⟨FLT_MAX, FLT_MAX, FLT_MAX⟩, ⟨-FLT_MAX, -FLT_MAX, -FLT_MAX⟩⟩
    (true, triangles.foldl (fun b tri => tri.verts.foldl load_bounds_vertex b) bounds)

/-! ## `load_cache` (`LoadModel.cpp`, lines 16-72) -/

/-- Modelled from the spec: `sub` of module `Types` (missing from `src/`), the
componentwise float difference ("extent = bounds.max − bounds.min"). -/
def sub (P : Platform) (a b : vec3) : vec3 :=
  ⟨P.rnd (a.x - b.x), P.rnd (a.y - b.y), P.rnd (a.z - b.z)⟩

/-- Modelled from the spec: `add` of module `Types` (missing from `src/`), the
componentwise float sum used for the centroid ("arithmetic mean of the three vertices"). -/
def add (P : Platform) (a b : vec3) : vec3 :=
  ⟨P.rnd (a.x + b.x), P.rnd (a.y + b.y), P.rnd (a.z + b.z)⟩

/-- Modelled from the spec: `div` of module `Types` (missing from `src/`), the division
of each component by a float scalar. -/
def div (P : Platform) (a : vec3) (s : ℚ) : vec3 :=
  ⟨P.rnd (a.x / s), P.rnd (a.y / s), P.rnd (a.z / s)⟩

/-- The conversion `static_cast<uint16_t>` of an integer. -/
def toU16 (n : Int) : u16 := ⟨n.toNat % 65536, Nat.mod_lt _ (by decide)⟩

/-- Modelled from the spec: one axis of `quantize_position` (module `Types`, missing from
`src/`), `q = round(clamp((v − min) / extent, 0, 1) × 65535)`, with rounding to the
nearest integer, halves upward. -/
def quantize_axis (P : Platform) (v mn ext : ℚ) : u16 :=
  let t := P.rnd (P.rnd (v - mn) / ext)
  let c := max 0 (min t 1)
  toU16 ⌊P.rnd (c * 65535) + 1 / 2⌋

/-- Modelled from the spec: `quantize_position` of module `Types` (missing from `src/`),
the per-axis quantization of a point relative to `minPos` and the extent. -/
def quantize_position (P : Platform) (v mn ext : vec3) : u16vec3 :=
  ⟨quantize_axis P v.x mn.x ext.x, quantize_axis P v.y mn.y ext.y,
    quantize_axis P v.z mn.z ext.z⟩

/-- Lines 46-53: the lambda `update_min_max`, acting on `(local_min, local_max)`. -/
def update_min_max (b : vec3 × vec3) (v : vec3) : vec3 × vec3 :=
  let mn := b.1
  let mx := b.2
  let mn := if v.x < mn.x then { mn with x := v.x } else mn
  let mn := if v.y < mn.y then { mn with y := v.y } else mn
  let mn := if v.z < mn.z then { mn with z := v.z } else mn
  let mx := if v.x > mx.x then { mx with x := v.x } else mx
  let mx := if v.y > mx.y then { mx with y := v.y } else mx
  let mx := if v.z > mx.z then { mx with z := v.z } else mx
  (mn, mx)

/-- Lines 23-27: the extent handed to `quantize_position`, clamped to 1 on thin axes. -/
def cache_extent (P : Platform) (bounds : MeshBounds) : vec3 :=
  let extent := sub P bounds.maxPos bounds.minPos
  let extent := if extent.x < lit_1em6 then { extent with x := 1 } else extent
  let extent := if extent.y < lit_1em6 then { extent with y := 1 } else extent
  let extent := if extent.z < lit_1em6 then { extent with z := 1 } else extent
  extent

/-- Lines 31-67: the record built for one triangle. -/
def cache_triangle (P : Platform) (minPos extent : vec3) (tri : Triangle) : CachedTriangle :=
  let v1 := quantize_position P tri.v1 minPos extent
  let v2 := quantize_position P tri.v2 minPos extent
  let v3 := quantize_position P tri.v3 minPos extent
  let center := div P (add P (add P tri.v1 tri.v2) tri.v3) 3
  let centroid := quantize_position P center minPos extent
  let b := update_min_max (update_min_max (tri.v1, tri.v1) tri.v2) tri.v3
  let edge1 := sub P tri.v2 tri.v1
  let edge2 := sub P tri.v3 tri.v1
  { v1 := v1, v2 := v2, v3 := v3, centroid := centroid,
    min := quantize_position P b.1 minPos extent,
    max := quantize_position P b.2 minPos extent,
    normal := P.encodedNormal edge1 edge2 }

/-- Embedding of `load_cache`: the returned flag and the object after the call. -/
def load_cache (P : Platform) (triangles : List Triangle) (cache : Object) : Bool × Object :=
  if triangles.isEmpty then (false, cache)
  else
    let extent := cache_extent P cache.bounds
    (true, { cache with mesh := triangles.map (cache_triangle P cache.bounds.minPos extent) })

/-- The cache produced by `load_bounds` followed by `load_cache`, starting from an empty
object. -/
def cache_of (P : Platform) (triangles : List Triangle) : Object :=
  (load_cache P triangles ⟨[], (load_bounds triangles ⟨⟨0, 0, 0⟩, ⟨0, 0, 0⟩⟩).2⟩).2

/-- The loader pipeline of the claims: `load_bounds`, `load_cache`, then `build_bvh` on
empty output arrays. -/
def load_and_build (P : Platform) (triangles : List Triangle) : Option BuildResult :=
  build_bvh P (cache_of P triangles) [] []

/-! ## Vocabulary of the properties -/

/-- Componentwise order on quantized vectors. -/
def u16vec3.le (a b : u16vec3) : Prop :=
  a.x.val ≤ b.x.val ∧ a.y.val ≤ b.y.val ∧ a.z.val ≤ b.z.val

instance (a b : u16vec3) : Decidable (u16vec3.le a b) := by
  unfold u16vec3.le; infer_instance

/-- Componentwise order on float vectors. -/
def vec3.le (a b : vec3) : Prop := a.x ≤ b.x ∧ a.y ≤ b.y ∧ a.z ≤ b.z

/-- The local corners `tri.min`, `tri.max` of the triangles named by a list of indices. -/
def tri_points (obj : Object) (s : List Nat) : List u16vec3 :=
  s.flatMap (fun idx =>
    [(obj.mesh.getD idx CachedTriangle.zero).min, (obj.mesh.getD idx CachedTriangle.zero).max])

/-- The mesh points `t.min`, `t.max` of all triangles of an object. -/
def mesh_points (obj : Object) : List u16vec3 := obj.mesh.flatMap (fun t => [t.min, t.max])

/-- The box grown from `init` over a list of points. -/
def hull_pts (pts : List u16vec3) (init : u16vec3 × u16vec3) : u16vec3 × u16vec3 :=
  pts.foldl (fun b p => grow_bounds b.1 b.2 p) init

/-- The box `(bmin, bmax)` is the hull of the points `pts`: it contains each of them and
each of its six faces touches one of them. -/
def IsHull (pts : List u16vec3) (bmin bmax : u16vec3) : Prop :=
  (∀ p ∈ pts, u16vec3.le bmin p ∧ u16vec3.le p bmax) ∧
  (∃ p ∈ pts, bmin.x = p.x) ∧ (∃ p ∈ pts, bmin.y = p.y) ∧ (∃ p ∈ pts, bmin.z = p.z) ∧
  (∃ p ∈ pts, bmax.x = p.x) ∧ (∃ p ∈ pts, bmax.y = p.y) ∧ (∃ p ∈ pts, bmax.z = p.z)

/-- `Subtree obj nodes indices i lo len d n n'`: in the final arrays, node `i` sits at
depth `d`, covers the positions `[lo, lo + len)` of the index array, stores the hull of
the triangles found there, and its proper descendants are exactly the nodes
`[n, n')`: the two children at `n` and `n + 1`, then the descendants of the left child,
then those of the right child. -/
inductive Subtree (obj : Object) (nodes : List BVHNode) (indices : List Nat) :
    Nat → Nat → Nat → Nat → Nat → Nat → Prop
  | leaf (i lo len d n : Nat) :
      i < nodes.length → n ≤ nodes.length →
      (nodeAt nodes i).leftFirst = lo → (nodeAt nodes i).triCount = len →
      1 ≤ len → lo + len ≤ indices.length → d ≤ MAX_DEPTH →
      IsHull (tri_points obj (slice indices lo len))
        (nodeAt nodes i).aabbMin (nodeAt nodes i).aabbMax →
      Subtree obj nodes indices i lo len d n n
  | inner (i lo len d n m n' k : Nat) :
      i < n → n' ≤ nodes.length →
      (nodeAt nodes i).leftFirst = n → (nodeAt nodes i).triCount = 0 →
      0 < k → k < len → lo + len ≤ indices.length → d < MAX_DEPTH →
      IsHull (tri_points obj (slice indices lo len))
        (nodeAt nodes i).aabbMin (nodeAt nodes i).aabbMax →
      Subtree obj nodes indices n lo k (d + 1) (n + 2) m →
      Subtree obj nodes indices (n + 1) (lo + k) (len - k) (d + 1) m n' →
      Subtree obj nodes indices i lo len d n n'

/-- The span of a node as the claims define it: the positions
`[leftFirst, leftFirst + triCount)` for a leaf (`triCount > 0`), the union of the spans
of the children `leftFirst` and `leftFirst + 1` for an interior node. -/
inductive HasSpan (nodes : List BVHNode) : Nat → Finset Nat → Prop
  | leaf (i : Nat) :
      i < nodes.length → 0 < (nodeAt nodes i).triCount →
      HasSpan nodes i
        (Finset.Ico (nodeAt nodes i).leftFirst
          ((nodeAt nodes i).leftFirst + (nodeAt nodes i).triCount))
  | inner (i : Nat) (s t : Finset Nat) :
      i < nodes.length → (nodeAt nodes i).triCount = 0 →
      HasSpan nodes (nodeAt nodes i).leftFirst s →
      HasSpan nodes ((nodeAt nodes i).leftFirst + 1) t →
      HasSpan nodes i (s ∪ t)

/-- Node `i` lies `d` levels below the root (node 0). -/
inductive AtDepth (nodes : List BVHNode) : Nat → Nat → Prop
  | root : AtDepth nodes 0 0
  | left (i d : Nat) :
      AtDepth nodes i d → i < nodes.length → (nodeAt nodes i).triCount = 0 →
      AtDepth nodes (nodeAt nodes i).leftFirst (d + 1)
  | right (i d : Nat) :
      AtDepth nodes i d → i < nodes.length → (nodeAt nodes i).triCount = 0 →
      AtDepth nodes ((nodeAt nodes i).leftFirst + 1) (d + 1)

/-- The contract of one call of `split_bvh_node` on a node covering `[lo, lo + len)`. -/
structure SplitPost (obj : Object) (st st' : BuildState) (nodeIdx lo len depth : Nat) :
    Prop where
  ilen : st'.indices.length = st.indices.length
  itake : st'.indices.take lo = st.indices.take lo
  idrop : st'.indices.drop (lo + len) = st.indices.drop (lo + len)
  iperm : (slice st'.indices lo len).Perm (slice st.indices lo len)
  nlen : st.nodes.length ≤ st'.nodes.length
  nkeep : ∀ j, j < st.nodes.length → j ≠ nodeIdx → nodeAt st'.nodes j = nodeAt st.nodes j
  tree : Subtree obj st'.nodes st'.indices nodeIdx lo len depth st.nodes.length
    st'.nodes.length

/-- What one call of `split_bvh_node` leaves behind when lines 57-147 decided to split
with a left group of `k` indices: the node is interior, its children are the two nodes
appended first, and they cover the two groups produced by the partition. -/
def SplitHook (P : Platform) (obj : Object) (st st' : BuildState)
    (nodeIdx lo len depth : Nat) : Prop :=
  ∀ ind md k,
    split_decide P obj st.indices st.max_depth
      (refit_node obj st.indices (nodeAt st.nodes nodeIdx)) depth = (ind, md, some k) →
    (nodeAt st'.nodes nodeIdx).triCount = 0 ∧
    (nodeAt st'.nodes nodeIdx).leftFirst = st.nodes.length ∧
    (slice st'.indices lo k).Perm (slice ind lo k) ∧
    (slice st'.indices (lo + k) (len - k)).Perm (slice ind (lo + k) (len - k)) ∧
    ∃ m, Subtree obj st'.nodes st'.indices st.nodes.length lo k (depth + 1)
        (st.nodes.length + 2) m ∧
      Subtree obj st'.nodes st'.indices (st.nodes.length + 1) (lo + k) (len - k) (depth + 1)
        m st'.nodes.length

/-- The shape of a build result: the index array and `(leftFirst, triCount)` of each
node. -/
def BuildResult.shape (r : BuildResult) : List Nat × List (Nat × Nat) :=
  (r.out_indices, r.out_nodes.map (fun n => (n.leftFirst, n.triCount)))

/-- A rational that binary32 rounding leaves unchanged: a binary32 value. -/
def is_f32 (q : ℚ) : Prop := f32_round q = q

instance (q : ℚ) : Decidable (is_f32 q) := by
  unfold is_f32; infer_instance

/-- Modelled from the spec: the integer `round(clamp((v − min) / extent, 0, 1) × 65535)`
of one axis of `quantize_position` (module `Types`, missing from `src/`), before its
conversion to `uint16_t`. -/
def quantize_round (P : Platform) (v mn ext : ℚ) : Int :=
  let t := P.rnd (P.rnd (v - mn) / ext)
  let c := max 0 (min t 1)
  ⌊P.rnd (c * 65535) + 1 / 2⌋

/-- A float vector with finite components: each lies in `[-FLT_MAX, FLT_MAX]`. -/
def vec3.finite (v : vec3) : Prop :=
  (-FLT_MAX ≤ v.x ∧ v.x ≤ FLT_MAX) ∧ (-FLT_MAX ≤ v.y ∧ v.y ≤ FLT_MAX) ∧
    (-FLT_MAX ≤ v.z ∧ v.z ≤ FLT_MAX)

instance (v : vec3) : Decidable (vec3.finite v) := by
  unfold vec3.finite; infer_instance

/-- Componentwise minimum of two float vectors. -/
def vec3.cmin (a b : vec3) : vec3 := ⟨min a.x b.x, min a.y b.y, min a.z b.z⟩

/-- Componentwise maximum of two float vectors. -/
def vec3.cmax (a b : vec3) : vec3 := ⟨max a.x b.x, max a.y b.y, max a.z b.z⟩

/-- The centroid extent on axis `axis`, as the integer the code computes on line 69-71. -/
def centroid_extent (axis : Nat) (cMin cMax : u16vec3) : Int :=
  axis_val axis cMax - axis_val axis cMin

/-- Node `j` is node `i` or lies below it: it is reached from `i` by following child
links (`leftFirst` and `leftFirst + 1` of interior nodes). -/
inductive Below (nodes : List BVHNode) (i : Nat) : Nat → Prop
  | self : Below nodes i i
  | left (j : Nat) :
      Below nodes i j → j < nodes.length → (nodeAt nodes j).triCount = 0 →
      Below nodes i (nodeAt nodes j).leftFirst
  | right (j : Nat) :
      Below nodes i j → j < nodes.length → (nodeAt nodes j).triCount = 0 →
      Below nodes i ((nodeAt nodes j).leftFirst + 1)

/-- The number of leaves (`triCount > 0`) of a node array. -/
def leaf_count (nodes : List BVHNode) : Nat :=
  nodes.countP (fun nd => decide (0 < nd.triCount))

/-- The number of leaves among the nodes `[a, b)` of a node array. -/
def leaves_in (nodes : List BVHNode) (a b : Nat) : Nat :=
  (List.range' a (b - a)).countP (fun j => decide (0 < (nodeAt nodes j).triCount))

/-- The exact surface area `2 (w h + w d + h d)` of a box. -/
def box_area (bmin bmax : u16vec3) : Int :=
  2 * (((bmax.x.val : Int) - (bmin.x.val : Int)) * ((bmax.y.val : Int) - (bmin.y.val : Int))
    + ((bmax.x.val : Int) - (bmin.x.val : Int)) * ((bmax.z.val : Int) - (bmin.z.val : Int))
    + ((bmax.y.val : Int) - (bmin.y.val : Int)) * ((bmax.z.val : Int) - (bmin.z.val : Int)))

/-- The box of the quantized centroids of all triangles of an object. -/
def centroid_hull (obj : Object) : u16vec3 × u16vec3 :=
  hull_pts (obj.mesh.map (fun t => t.centroid)) (u16vec3.top, u16vec3.zero)

/-- The box of the local corners of the triangles named by a list of indices. -/
def group_hull (obj : Object) (s : List Nat) : u16vec3 × u16vec3 :=
  hull_pts (tri_points obj s) (u16vec3.top, u16vec3.zero)

/-- The box of the local corners of all triangles of an object. -/
def mesh_hull (obj : Object) : u16vec3 × u16vec3 :=
  hull_pts (mesh_points obj) (u16vec3.top, u16vec3.zero)

/-- Two well-separated clusters with low internal spread, read on the quantized cache:
the triangles of `obj` are the non-empty index lists `A` and `B` together; `a` is the axis
on which the quantized centroids extend furthest (the lowest such axis), with an extent
of at least 32 units; on that axis every centroid of `A` lies in the lowest and every
centroid of `B` in the highest thirty-second of the centroid range; the box of each group
has at most half the surface area of the box of all triangles, which is positive. -/
structure TwoClusters (obj : Object) (A B : List Nat) (a : Nat) : Prop where
  left_nonempty : A ≠ []
  right_nonempty : B ≠ []
  groups_cover : (A ++ B).Perm (List.range obj.mesh.length)
  axis_valid : a ≤ 2
  axis_largest : ∀ a2, a2 ≤ 2 →
    centroid_extent a2 (centroid_hull obj).1 (centroid_hull obj).2
      ≤ centroid_extent a (centroid_hull obj).1 (centroid_hull obj).2
  axis_lowest : ∀ a2, a2 < a →
    centroid_extent a2 (centroid_hull obj).1 (centroid_hull obj).2
      < centroid_extent a (centroid_hull obj).1 (centroid_hull obj).2
  axis_extent : 32 ≤ centroid_extent a (centroid_hull obj).1 (centroid_hull obj).2
  left_low : ∀ i ∈ A,
    32 * (axis_val a (obj.mesh.getD i CachedTriangle.zero).centroid
        - axis_val a (centroid_hull obj).1)
      ≤ centroid_extent a (centroid_hull obj).1 (centroid_hull obj).2
  right_high : ∀ i ∈ B,
    32 * (axis_val a (centroid_hull obj).2
        - axis_val a (obj.mesh.getD i CachedTriangle.zero).centroid)
      ≤ centroid_extent a (centroid_hull obj).1 (centroid_hull obj).2
  left_spread : 2 * box_area (group_hull obj A).1 (group_hull obj A).2
    ≤ box_area (mesh_hull obj).1 (mesh_hull obj).2
  right_spread : 2 * box_area (group_hull obj B).1 (group_hull obj B).2
    ≤ box_area (mesh_hull obj).1 (mesh_hull obj).2
  area_positive : 0 < box_area (mesh_hull obj).1 (mesh_hull obj).2

/-! ## The quantities of the root call -/

/-- The root node as `build_bvh` hands it to `split_bvh_node`. -/
def root_init (obj : Object) : BVHNode :=
  { BVHNode.fresh with leftFirst := 0, triCount := obj.mesh.length }

/-- The centroid box `(cMin, cMax)` of the root call (lines 62-67). -/
def root_centroids (obj : Object) : u16vec3 × u16vec3 :=
  centroid_bounds obj (List.range obj.mesh.length) 0 obj.mesh.length

/-- The split axis of the root call (lines 69-74). -/
def root_axis (obj : Object) : Nat :=
  choose_axis (root_centroids obj).1 (root_centroids obj).2

/-- The value `axisExtent` of the root call (line 76). -/
def root_extent (obj : Object) : ℚ :=
  axis_extent (root_axis obj) (root_centroids obj).1 (root_centroids obj).2

/-- The value `static_cast<int>((val - cMin) * scale)` of the root call for the triangle
`obj.mesh[idx]` (lines 86 and 140, before clamping). -/
def root_bin (P : Platform) (obj : Object) (idx : Nat) : Int :=
  bin_raw P (root_axis obj) (root_centroids obj).1 (bin_scale P (root_extent obj))
    (obj.mesh.getD idx CachedTriangle.zero)

/-- The bins of the root call (lines 79-91). -/
def root_bins (P : Platform) (obj : Object) : List Bin :=
  fill_bins P obj (List.range obj.mesh.length) 0 obj.mesh.length (root_axis obj)
    (root_centroids obj).1 (bin_scale P (root_extent obj))

/-- The pair `(minCost, splitIdx)` of the root call (lines 120-130). -/
def root_best (P : Platform) (obj : Object) : ℚ × Int :=
  best_split P (left_sweep P (root_bins P obj)) (right_sweep P (root_bins P obj))

/-- The value `leafCost` of the root call (line 132). -/
def root_leaf_cost (P : Platform) (obj : Object) : ℚ :=
  P.rnd (P.rnd (obj.mesh.length : ℚ) *
    get_surface_area P (node_bounds obj (List.range obj.mesh.length) 0 obj.mesh.length).1
      (node_bounds obj (List.range obj.mesh.length) 0 obj.mesh.length).2)

/-- The bin `bins[binIdx]` chosen on line 86-88 of the root call for the triangle
`obj.mesh[idx]`. -/
def root_bin_index (P : Platform) (obj : Object) (idx : Nat) : Int :=
  bin_index P (root_axis obj) (root_centroids obj).1 (bin_scale P (root_extent obj))
    (obj.mesh.getD idx CachedTriangle.zero)

/-! ## The quantities of one call of `split_bvh_node` -/

/-- The centroid box `(cMin, cMax)` of a call on `node` (lines 62-67). -/
def node_centroids (obj : Object) (indices : List Nat) (node : BVHNode) :
    u16vec3 × u16vec3 :=
  centroid_bounds obj indices node.leftFirst node.triCount

/-- The split axis of a call on `node` (lines 69-74). -/
def node_axis (obj : Object) (indices : List Nat) (node : BVHNode) : Nat :=
  choose_axis (node_centroids obj indices node).1 (node_centroids obj indices node).2

/-- The value `axisExtent` of a call on `node` (line 76). -/
def node_extent (obj : Object) (indices : List Nat) (node : BVHNode) : ℚ :=
  axis_extent (node_axis obj indices node) (node_centroids obj indices node).1
    (node_centroids obj indices node).2

/-- The value `scale` of a call on `node` (line 80). -/
def node_scale (P : Platform) (obj : Object) (indices : List Nat) (node : BVHNode) : ℚ :=
  bin_scale P (node_extent obj indices node)

/-- The value `binIdx` of line 86 for the `i`-th triangle of the node. -/
def node_bin (P : Platform) (obj : Object) (indices : List Nat) (node : BVHNode)
    (i : Nat) : Int :=
  bin_index P (node_axis obj indices node) (node_centroids obj indices node).1
    (node_scale P obj indices node) (triAt obj indices (node.leftFirst + i))

/-- The value `binIdx` of lines 140-141, computed by the partition predicate for the
triangle `obj.mesh[idx]`. -/
def node_pred_bin (P : Platform) (obj : Object) (indices : List Nat) (node : BVHNode)
    (idx : Nat) : Int :=
  min ((BVH_BINS : Int) - 1)
    (max 0 (bin_raw P (node_axis obj indices node) (node_centroids obj indices node).1
      (node_scale P obj indices node) (obj.mesh.getD idx CachedTriangle.zero)))

/-- The bins of a call on `node` after the loop of lines 83-91. -/
def node_bins (P : Platform) (obj : Object) (indices : List Nat) (node : BVHNode) :
    List Bin :=
  fill_bins P obj indices node.leftFirst node.triCount (node_axis obj indices node)
    (node_centroids obj indices node).1 (node_scale P obj indices node)

/-- The array `leftCount` of a call on `node` (lines 96-106). -/
def node_left_count (P : Platform) (obj : Object) (indices : List Nat) (node : BVHNode) :
    List Nat :=
  (left_sweep P (node_bins P obj indices node)).count

/-- The array `rightCount` of a call on `node` (lines 108-118). -/
def node_right_count (P : Platform) (obj : Object) (indices : List Nat) (node : BVHNode) :
    List Nat :=
  (right_sweep P (node_bins P obj indices node)).count

/-- The pair `(minCost, splitIdx)` of a call on `node` (lines 120-130). -/
def node_best (P : Platform) (obj : Object) (indices : List Nat) (node : BVHNode) : ℚ × Int :=
  best_split P (left_sweep P (node_bins P obj indices node))
    (right_sweep P (node_bins P obj indices node))

/-- The value `leafCost` of a call on `node` (line 132). -/
def node_leaf_cost (P : Platform) (node : BVHNode) : ℚ :=
  P.rnd (P.rnd (node.triCount : ℚ) * get_surface_area P node.aabbMin node.aabbMax)

/-- The box a sweep holds after folding one bin into the empty box (lines 100-103). -/
def bin_box (b : Bin) : u16vec3 × u16vec3 :=
  grow_bounds (grow_bounds u16vec3.top u16vec3.zero b.min).1
    (grow_bounds u16vec3.top u16vec3.zero b.min).2 b.max

/-! ## Sample inputs -/

/-- Two clusters of two triangles each, one near the origin and one near `x = 125`,
whose centroids spread most along `x` after quantization. -/
def demoClusters : List Triangle :=
  [⟨⟨0, 0, 0⟩, ⟨3, 0, 0⟩, ⟨0, 3, 0⟩⟩, ⟨⟨0, 0, 0⟩, ⟨0, 3, 0⟩, ⟨0, 0, 3⟩⟩,
   ⟨⟨125, 0, 0⟩, ⟨128, 0, 0⟩, ⟨125, 3, 0⟩⟩, ⟨⟨125, 0, 0⟩, ⟨125, 3, 0⟩, ⟨125, 0, 3⟩⟩]

/-- The quantized cache of `demoClusters`. -/
def demoObj : Object := cache_of exactPlatform demoClusters

/-- Two clusters of two unit triangles each, one near `(0,0,0)` (triangles 0 and 1) and
one near `(100,0,0)` (triangles 2 and 3); in each cluster one triangle lies in the plane
`z = 0` and the other in the plane `z = 1`. -/
def mixedClusters : List Triangle :=
  [⟨⟨0, 0, 0⟩, ⟨1, 0, 0⟩, ⟨0, 1, 0⟩⟩, ⟨⟨0, 0, 1⟩, ⟨1, 0, 1⟩, ⟨0, 1, 1⟩⟩,
   ⟨⟨100, 0, 0⟩, ⟨101, 0, 0⟩, ⟨100, 1, 0⟩⟩, ⟨⟨100, 0, 1⟩, ⟨101, 0, 1⟩, ⟨100, 1, 1⟩⟩]

/-- A large triangle at the origin, a small triangle inside its box, and a far triangle
near `x = 1000`; the centroids of the first two fall into the same bin of the root
call. -/
def staleBinTriangles : List Triangle :=
  [⟨⟨0, 0, 0⟩, ⟨30, 0, 0⟩, ⟨0, 30, 0⟩⟩, ⟨⟨9, 9, 0⟩, ⟨11, 9, 0⟩, ⟨9, 11, 0⟩⟩,
   ⟨⟨1000, 0, 0⟩, ⟨1001, 0, 0⟩, ⟨1000, 1, 0⟩⟩]

/-- The quantized cache of `staleBinTriangles` under binary32 arithmetic. -/
def staleBinObj : Object := cache_of f32Platform staleBinTriangles

/-- An object whose mesh still holds one record from an earlier load. -/
def usedObj : Object := ⟨[CachedTriangle.zero], ⟨⟨0, 0, 0⟩, ⟨1, 1, 1⟩⟩⟩

/-- Three different triangles with the same centroid `(1, 1, 0)`. -/
def sameCentroidTriangles : List Triangle :=
  [⟨⟨0, 0, 0⟩, ⟨3, 0, 0⟩, ⟨0, 3, 0⟩⟩, ⟨⟨1 / 2, 1 / 2, 0⟩, ⟨2, 1 / 2, 0⟩, ⟨1 / 2, 2, 0⟩⟩,
   ⟨⟨-1, 1, 0⟩, ⟨2, -1, 0⟩, ⟨2, 3, 0⟩⟩]

/-- The quantized cache of `sameCentroidTriangles`. -/
def sameCentroidObj : Object := cache_of f32Platform sameCentroidTriangles

/-- The root node of `staleBinObj` as the root call of `split_bvh_node` sees it after
lines 45-55. -/
def staleBinRoot : BVHNode :=
  refit_node staleBinObj (List.range 3) (root_init staleBinObj)

/-- Three degenerate triangles on the `x` axis, two near the origin and one near
`x = 100`. -/
def collinearClusters : List Triangle :=
  [⟨⟨0, 0, 0⟩, ⟨1, 0, 0⟩, ⟨2, 0, 0⟩⟩, ⟨⟨1, 0, 0⟩, ⟨2, 0, 0⟩, ⟨3, 0, 0⟩⟩,
   ⟨⟨100, 0, 0⟩, ⟨101, 0, 0⟩, ⟨102, 0, 0⟩⟩]

/-! ## Lemmas -/

/-! ### Binary32 rounding is monotone -/

theorem log2_nat_spec : ∀ (fuel n : Nat), 1 ≤ n → n ≤ fuel →
    2 ^ log2_nat fuel n ≤ n ∧ n < 2 ^ (log2_nat fuel n + 1) := by
  intro fuel
  induction fuel with
  | zero => intro n h1 h2; omega
  | succ fuel ih =>
    intro n h1 h2
    rw [log2_nat]
    by_cases h : n < 2
    · rw [if_pos h]
      have : n = 1 := by omega
      subst this
      simp
    · rw [if_neg h]
      obtain ⟨i1, i2⟩ := ih (n / 2) (by omega) (by omega)
      rw [pow_succ, pow_succ, pow_succ]
      rw [pow_succ] at i2
      generalize 2 ^ log2_nat fuel (n / 2) = a at i1 i2 ⊢
      omega

theorem two_zpow_pos (e : Int) : (0 : ℚ) < (2 : ℚ) ^ e := zpow_pos (by norm_num) e

theorem two_zpow_le {m n : Int} (h : m ≤ n) : (2 : ℚ) ^ m ≤ (2 : ℚ) ^ n :=
  zpow_le_zpow_right₀ (by norm_num) h

theorem log2_rat_spec (q : ℚ) (hq : 0 < q) :
    (2 : ℚ) ^ log2_rat q ≤ q ∧ q < (2 : ℚ) ^ (log2_rat q + 1) := by
  have hnum : 0 < q.num := Rat.num_pos.2 hq
  have hden : 0 < q.den := q.den_pos
  obtain ⟨a1, a2⟩ := log2_nat_spec q.num.toNat q.num.toNat (by omega) (Nat.le_refl _)
  obtain ⟨b1, b2⟩ := log2_nat_spec q.den q.den (by omega) (Nat.le_refl _)
  generalize ha : log2_nat q.num.toNat q.num.toNat = a at a1 a2
  generalize hb : log2_nat q.den q.den = b at b1 b2
  have hn : ((q.num.toNat : ℕ) : ℚ) = (q.num : ℚ) := by
    have : ((q.num.toNat : ℕ) : ℤ) = q.num := Int.toNat_of_nonneg (le_of_lt hnum)
    exact_mod_cast this
  have a1' : (2 : ℚ) ^ (a : ℤ) ≤ (q.num : ℚ) := by
    rw [← hn, zpow_natCast]; exact_mod_cast a1
  have a2' : (q.num : ℚ) < (2 : ℚ) ^ ((a : ℤ) + 1) := by
    rw [← hn]
    have : ((a : ℤ) + 1) = ((a + 1 : ℕ) : ℤ) := by push_cast; ring
    rw [this, zpow_natCast]; exact_mod_cast a2
  have b1' : (2 : ℚ) ^ (b : ℤ) ≤ (q.den : ℚ) := by
    rw [zpow_natCast]; exact_mod_cast b1
  have b2' : (q.den : ℚ) < (2 : ℚ) ^ ((b : ℤ) + 1) := by
    have : ((b : ℤ) + 1) = ((b + 1 : ℕ) : ℤ) := by push_cast; ring
    rw [this, zpow_natCast]; exact_mod_cast b2
  have hdq : (0 : ℚ) < (q.den : ℚ) := by exact_mod_cast hden
  have hqe : q = (q.num : ℚ) / (q.den : ℚ) := (Rat.num_div_den q).symm
  -- the two outer bounds
  have up : q < (2 : ℚ) ^ ((a : ℤ) - b + 1) := by
    have e : (2 : ℚ) ^ ((a : ℤ) - b + 1) = (2 : ℚ) ^ ((a : ℤ) + 1) / (2 : ℚ) ^ (b : ℤ) := by
      rw [← zpow_sub₀ (by norm_num)]; congr 1; ring
    rw [e, hqe, div_lt_div_iff₀ hdq (two_zpow_pos _)]
    calc (q.num : ℚ) * (2 : ℚ) ^ (b : ℤ) ≤ (q.num : ℚ) * (q.den : ℚ) :=
          mul_le_mul_of_nonneg_left b1' (by exact_mod_cast le_of_lt hnum)
      _ < (2 : ℚ) ^ ((a : ℤ) + 1) * (q.den : ℚ) := mul_lt_mul_of_pos_right a2' hdq
  have lo : (2 : ℚ) ^ ((a : ℤ) - b - 1) ≤ q := by
    have e : (2 : ℚ) ^ ((a : ℤ) - b - 1) = (2 : ℚ) ^ (a : ℤ) / (2 : ℚ) ^ ((b : ℤ) + 1) := by
      rw [← zpow_sub₀ (by norm_num)]; congr 1; ring
    rw [e, hqe, div_le_div_iff₀ (two_zpow_pos _) hdq]
    calc (2 : ℚ) ^ (a : ℤ) * (q.den : ℚ) ≤ (q.num : ℚ) * (q.den : ℚ) :=
          mul_le_mul_of_nonneg_right a1' (le_of_lt hdq)
      _ ≤ (q.num : ℚ) * (2 : ℚ) ^ ((b : ℤ) + 1) :=
          mul_le_mul_of_nonneg_left (le_of_lt b2') (by exact_mod_cast le_of_lt hnum)
  unfold log2_rat
  simp only [ha, hb]
  by_cases h : (2 : ℚ) ^ ((a : ℤ) - (b : ℤ)) ≤ q
  · rw [if_pos h]
    exact ⟨h, up⟩
  · rw [if_neg h]
    refine ⟨lo, ?_⟩
    have : (a : ℤ) - b - 1 + 1 = (a : ℤ) - b := by ring
    rw [this]
    exact not_le.1 h

theorem log2_rat_mono (a b : ℚ) (ha : 0 < a) (hab : a ≤ b) : log2_rat a ≤ log2_rat b := by
  by_contra h
  have h' : log2_rat b + 1 ≤ log2_rat a := by omega
  have s1 := (log2_rat_spec a ha).1
  have s2 := (log2_rat_spec b (lt_of_lt_of_le ha hab)).2
  have := two_zpow_le h'
  linarith

theorem round_half_even_bounds (x : ℚ) :
    ⌊x⌋ ≤ round_half_even x ∧ round_half_even x ≤ ⌊x⌋ + 1 := by
  unfold round_half_even
  simp only []
  split_ifs <;> omega

theorem round_half_even_int (n : Int) : round_half_even (n : ℚ) = n := by
  unfold round_half_even
  simp

theorem round_half_even_mono (x y : ℚ) (h : x ≤ y) :
    round_half_even x ≤ round_half_even y := by
  have fm : ⌊x⌋ ≤ ⌊y⌋ := Int.floor_mono h
  rcases lt_or_eq_of_le fm with hlt | heq
  · have := (round_half_even_bounds x).2
    have := (round_half_even_bounds y).1
    omega
  · have hd : x - (⌊x⌋ : ℚ) ≤ y - (⌊y⌋ : ℚ) := by rw [heq]; linarith
    unfold round_half_even
    simp only []
    rw [heq] at hd ⊢
    split_ifs <;> first | omega | linarith

theorem f32_ulp_pos (a : ℚ) : 0 < f32_ulp a := two_zpow_pos _

theorem f32_mag_nonneg (a : ℚ) (ha : 0 < a) : 0 ≤ f32_mag a := by
  unfold f32_mag
  apply mul_nonneg _ (le_of_lt (f32_ulp_pos a))
  have h1 : (0 : ℚ) ≤ a / f32_ulp a := div_nonneg (le_of_lt ha) (le_of_lt (f32_ulp_pos a))
  have h2 : 0 ≤ ⌊a / f32_ulp a⌋ := Int.floor_nonneg.2 h1
  have h3 := (round_half_even_bounds (a / f32_ulp a)).1
  exact_mod_cast le_trans h2 h3

/-- The rounded magnitude is at most the next power of two above the exponent used. -/
theorem f32_mag_le (a : ℚ) (ha : 0 < a) :
    f32_mag a ≤ (2 : ℚ) ^ (max (log2_rat a) (-126) + 1) := by
  have hu := f32_ulp_pos a
  have s2 := (log2_rat_spec a ha).2
  have hle : a ≤ (2 : ℚ) ^ (max (log2_rat a) (-126) + 1) :=
    le_trans (le_of_lt s2) (two_zpow_le (by omega))
  have e : (2 : ℚ) ^ (max (log2_rat a) (-126) + 1) = ((2 ^ 24 : ℤ) : ℚ) * f32_ulp a := by
    unfold f32_ulp
    have : ((2 ^ 24 : ℤ) : ℚ) = (2 : ℚ) ^ (24 : ℤ) := by norm_num
    rw [this, ← zpow_add₀ (by norm_num)]
    congr 1; ring
  rw [e]
  unfold f32_mag
  apply mul_le_mul_of_nonneg_right _ (le_of_lt hu)
  have h1 : a / f32_ulp a ≤ ((2 ^ 24 : ℤ) : ℚ) := by
    rw [div_le_iff₀ hu, ← e]; exact hle
  have h2 := round_half_even_mono _ _ h1
  rw [round_half_even_int] at h2
  exact_mod_cast h2

/-- A value in the normal range rounds to at least the power of two below it. -/
theorem f32_mag_ge (a : ℚ) (ha : 0 < a) (hn : -126 ≤ log2_rat a) :
    (2 : ℚ) ^ (log2_rat a) ≤ f32_mag a := by
  have hu := f32_ulp_pos a
  have s1 := (log2_rat_spec a ha).1
  have hm : max (log2_rat a) (-126) = log2_rat a := max_eq_left hn
  have e : (2 : ℚ) ^ (log2_rat a) = ((2 ^ 23 : ℤ) : ℚ) * f32_ulp a := by
    unfold f32_ulp
    have : ((2 ^ 23 : ℤ) : ℚ) = (2 : ℚ) ^ (23 : ℤ) := by norm_num
    rw [this, ← zpow_add₀ (by norm_num), hm]
    congr 1; ring
  rw [e]
  unfold f32_mag
  apply mul_le_mul_of_nonneg_right _ (le_of_lt hu)
  have h1 : ((2 ^ 23 : ℤ) : ℚ) ≤ a / f32_ulp a := by
    rw [le_div_iff₀ hu, ← e]; exact s1
  have h2 := round_half_even_mono _ _ h1
  rw [round_half_even_int] at h2
  exact_mod_cast h2

theorem f32_mag_mono (a b : ℚ) (ha : 0 < a) (hab : a ≤ b) : f32_mag a ≤ f32_mag b := by
  have hb : 0 < b := lt_of_lt_of_le ha hab
  have hl := log2_rat_mono a b ha hab
  rcases lt_or_eq_of_le (max_le_max hl (le_refl (-126 : ℤ))) with hlt | heq
  · -- different exponents
    have hbn : -126 ≤ log2_rat b := by
      by_contra hc
      have : max (log2_rat b) (-126) = -126 := max_eq_right (by omega)
      rw [this] at hlt
      have := le_max_right (log2_rat a) (-126)
      omega
    have hm : max (log2_rat b) (-126) = log2_rat b := max_eq_left hbn
    rw [hm] at hlt
    calc f32_mag a ≤ (2 : ℚ) ^ (max (log2_rat a) (-126) + 1) := f32_mag_le a ha
      _ ≤ (2 : ℚ) ^ (log2_rat b) := two_zpow_le (by omega)
      _ ≤ f32_mag b := f32_mag_ge b hb hbn
  · -- same exponent
    have hu : f32_ulp a = f32_ulp b := by unfold f32_ulp; rw [heq]
    unfold f32_mag
    rw [hu]
    apply mul_le_mul_of_nonneg_right _ (le_of_lt (f32_ulp_pos b))
    have h1 : a / f32_ulp b ≤ b / f32_ulp b :=
      div_le_div_of_nonneg_right hab (le_of_lt (f32_ulp_pos b))
    exact_mod_cast round_half_even_mono _ _ h1

/-- Binary32 rounding is monotone. -/
theorem f32_round_mono : Monotone f32_round := by
  intro a b hab
  unfold f32_round
  by_cases ha0 : a = 0
  · subst ha0
    rw [if_pos rfl]
    by_cases hb0 : b = 0
    · rw [if_pos hb0]
    · rw [if_neg hb0, if_neg (not_lt.2 hab)]
      exact f32_mag_nonneg b (lt_of_le_of_ne hab (Ne.symm hb0))
  · rw [if_neg ha0]
    by_cases han : a < 0
    · rw [if_pos han]
      have h1 := f32_mag_nonneg (-a) (by linarith)
      by_cases hb0 : b = 0
      · rw [if_pos hb0]; linarith
      · rw [if_neg hb0]
        by_cases hbn : b < 0
        · rw [if_pos hbn]
          have := f32_mag_mono (-b) (-a) (by linarith) (by linarith)
          linarith
        · rw [if_neg hbn]
          have hbp : 0 < b := lt_of_le_of_ne (not_lt.1 hbn) (Ne.symm hb0)
          have := f32_mag_nonneg b hbp
          linarith
    · rw [if_neg han]
      have hap : 0 < a := lt_of_le_of_ne (not_lt.1 han) (Ne.symm ha0)
      have hbp : 0 < b := lt_of_lt_of_le hap hab
      rw [if_neg (ne_of_gt hbp), if_neg (not_lt.2 (le_of_lt hbp))]
      exact f32_mag_mono a b hap hab

/-! ### Index ranges -/

theorem slice_length (l : List Nat) (lo len : Nat) (h : lo + len ≤ l.length) :
    (slice l lo len).length = len := by
  simp [slice]; omega

theorem slice_decomp (l : List Nat) (lo len : Nat) :
    l = l.take lo ++ slice l lo len ++ l.drop (lo + len) := by
  simp [slice]

theorem replace_take (a m c : List Nat) (lo : Nat) (ha : a.length = lo) :
    (a ++ m ++ c).take lo = a := by
  subst ha; simp

theorem replace_drop (a m c : List Nat) (lo len : Nat) (ha : a.length = lo)
    (hm : m.length = len) : (a ++ m ++ c).drop (lo + len) = c := by
  subst ha; subst hm
  rw [← List.length_append]; simp

theorem replace_slice (a m c : List Nat) (lo len : Nat) (ha : a.length = lo)
    (hm : m.length = len) : slice (a ++ m ++ c) lo len = m := by
  subst ha; subst hm
  simp [slice]

theorem eq_of_parts (l l2 : List Nat) (lo len : Nat)
    (h1 : l2.take lo = l.take lo) (h2 : slice l2 lo len = slice l lo len)
    (h3 : l2.drop (lo + len) = l.drop (lo + len)) : l2 = l := by
  rw [slice_decomp l lo len, slice_decomp l2 lo len, h1, h2, h3]

theorem slice_take (l : List Nat) (lo len k : Nat) (hk : k ≤ len) :
    slice l lo k = (slice l lo len).take k := by
  simp [slice, List.take_take, Nat.min_eq_left hk]

theorem slice_drop (l : List Nat) (lo len k : Nat) (_hk : k ≤ len) :
    slice l (lo + k) (len - k) = (slice l lo len).drop k := by
  simp only [slice]
  rw [List.drop_take, List.drop_drop]

theorem slice_split (l : List Nat) (lo len k : Nat) (hk : k ≤ len) :
    slice l lo len = slice l lo k ++ slice l (lo + k) (len - k) := by
  rw [slice_take l lo len k hk, slice_drop l lo len k hk, List.take_append_drop]

/-! ### The partition step -/

theorem partition_range_spec (P : Platform) (pred : Nat → Bool) (indices : List Nat)
    (lo len : Nat) (h : lo + len ≤ indices.length) :
    (partition_range P pred indices lo len).1.length = indices.length ∧
    (partition_range P pred indices lo len).1.take lo = indices.take lo ∧
    (partition_range P pred indices lo len).1.drop (lo + len) = indices.drop (lo + len) ∧
    (slice (partition_range P pred indices lo len).1 lo len).Perm (slice indices lo len) ∧
    (partition_range P pred indices lo len).2 ≤ len := by
  have hperm : ((P.partition.run pred (slice indices lo len)).1 ++
      (P.partition.run pred (slice indices lo len)).2).Perm (slice indices lo len) :=
    ((P.partition.front pred _).append (P.partition.back pred _)).trans
      (List.filter_append_perm pred _)
  have hl : ((P.partition.run pred (slice indices lo len)).1 ++
      (P.partition.run pred (slice indices lo len)).2).length = len := by
    rw [hperm.length_eq, slice_length _ _ _ h]
  have ha : (indices.take lo).length = lo := by simp; omega
  refine ⟨?_, ?_, ?_, ?_, ?_⟩
  · show (indices.take lo ++ _ ++ indices.drop (lo + len)).length = _
    simp only [List.length_append, List.length_drop] at hl ⊢
    omega
  · exact replace_take _ _ _ lo ha
  · exact replace_drop _ _ _ lo len ha hl
  · show (slice (indices.take lo ++ _ ++ indices.drop (lo + len)) lo len).Perm _
    rw [replace_slice _ _ _ lo len ha hl]
    exact hperm
  · show (P.partition.run pred (slice indices lo len)).1.length ≤ len
    simp only [List.length_append] at hl
    omega

/-- What lines 57-147 do to the index array, and when they ask for a split. -/
theorem split_decide_spec (P : Platform) (obj : Object) (indices : List Nat) (md : Nat)
    (node : BVHNode) (depth : Nat)
    (h : node.leftFirst + node.triCount ≤ indices.length) :
    (split_decide P obj indices md node depth).1.length = indices.length ∧
    (split_decide P obj indices md node depth).1.take node.leftFirst
      = indices.take node.leftFirst ∧
    (split_decide P obj indices md node depth).1.drop (node.leftFirst + node.triCount)
      = indices.drop (node.leftFirst + node.triCount) ∧
    (slice (split_decide P obj indices md node depth).1 node.leftFirst node.triCount).Perm
      (slice indices node.leftFirst node.triCount) ∧
    (∀ k, (split_decide P obj indices md node depth).2.2 = some k →
      0 < k ∧ k < node.triCount ∧ depth < MAX_DEPTH ∧
      MIN_TRIANGLES_PER_LEAF < node.triCount) := by
  unfold split_decide
  by_cases h1 : depth ≥ MAX_DEPTH ∨ node.triCount ≤ MIN_TRIANGLES_PER_LEAF
  · rw [if_pos h1]
    exact ⟨rfl, rfl, rfl, List.Perm.refl _, fun k hk => by simp at hk⟩
  · rw [if_neg h1]
    cases hc : split_candidate P obj indices node with
    | none => exact ⟨rfl, rfl, rfl, List.Perm.refl _, fun k hk => by simp at hk⟩
    | some pred =>
      obtain ⟨a, b, c, d, e⟩ := partition_range_spec P pred indices node.leftFirst
        node.triCount h
      simp only []
      by_cases h2 : (partition_range P pred indices node.leftFirst node.triCount).2 = 0 ∨
          (partition_range P pred indices node.leftFirst node.triCount).2 = node.triCount
      · rw [if_pos h2]
        exact ⟨a, b, c, d, fun k hk => by simp at hk⟩
      · rw [if_neg h2]
        refine ⟨a, b, c, d, fun k hk => ?_⟩
        simp only [Option.some.injEq] at hk
        subst hk
        omega

/-! ### Boxes -/

theorem foldl_min_le {α : Type} (f : α → Nat) (l : List α) (m0 : Nat) :
    l.foldl (fun m p => min m (f p)) m0 ≤ m0 ∧
    (∀ p ∈ l, l.foldl (fun m p => min m (f p)) m0 ≤ f p) ∧
    (l.foldl (fun m p => min m (f p)) m0 = m0 ∨
      ∃ p ∈ l, l.foldl (fun m p => min m (f p)) m0 = f p) := by
  induction l generalizing m0 with
  | nil => simp
  | cons a l ih =>
    obtain ⟨h1, h2, h3⟩ := ih (min m0 (f a))
    simp only [List.foldl_cons, List.mem_cons, forall_eq_or_imp, exists_eq_or_imp]
    refine ⟨by omega, ⟨by omega, h2⟩, ?_⟩
    rcases h3 with h3 | h3
    · rcases Nat.le_total m0 (f a) with h | h
      · left; rw [h3]; exact Nat.min_eq_left h
      · right; left; rw [h3]; exact Nat.min_eq_right h
    · right; right; exact h3

theorem foldl_max_ge {α : Type} (f : α → Nat) (l : List α) (m0 : Nat) :
    m0 ≤ l.foldl (fun m p => max m (f p)) m0 ∧
    (∀ p ∈ l, f p ≤ l.foldl (fun m p => max m (f p)) m0) ∧
    (l.foldl (fun m p => max m (f p)) m0 = m0 ∨
      ∃ p ∈ l, l.foldl (fun m p => max m (f p)) m0 = f p) := by
  induction l generalizing m0 with
  | nil => simp
  | cons a l ih =>
    obtain ⟨h1, h2, h3⟩ := ih (max m0 (f a))
    simp only [List.foldl_cons, List.mem_cons, forall_eq_or_imp, exists_eq_or_imp]
    refine ⟨by omega, ⟨by omega, h2⟩, ?_⟩
    rcases h3 with h3 | h3
    · rcases Nat.le_total m0 (f a) with h | h
      · right; left; rw [h3]; exact Nat.max_eq_right h
      · left; rw [h3]; exact Nat.max_eq_left h
    · right; right; exact h3

theorem grow_bounds_val (a b p : u16vec3) :
    (grow_bounds a b p).1.x.val = min a.x.val p.x.val ∧
    (grow_bounds a b p).1.y.val = min a.y.val p.y.val ∧
    (grow_bounds a b p).1.z.val = min a.z.val p.z.val ∧
    (grow_bounds a b p).2.x.val = max b.x.val p.x.val ∧
    (grow_bounds a b p).2.y.val = max b.y.val p.y.val ∧
    (grow_bounds a b p).2.z.val = max b.z.val p.z.val := by
  unfold grow_bounds
  refine ⟨?_, ?_, ?_, ?_, ?_, ?_⟩ <;> simp only [] <;> split_ifs <;> simp_all <;> omega

theorem hull_pts_val (pts : List u16vec3) (init : u16vec3 × u16vec3) :
    (hull_pts pts init).1.x.val = pts.foldl (fun m p => min m p.x.val) init.1.x.val ∧
    (hull_pts pts init).1.y.val = pts.foldl (fun m p => min m p.y.val) init.1.y.val ∧
    (hull_pts pts init).1.z.val = pts.foldl (fun m p => min m p.z.val) init.1.z.val ∧
    (hull_pts pts init).2.x.val = pts.foldl (fun m p => max m p.x.val) init.2.x.val ∧
    (hull_pts pts init).2.y.val = pts.foldl (fun m p => max m p.y.val) init.2.y.val ∧
    (hull_pts pts init).2.z.val = pts.foldl (fun m p => max m p.z.val) init.2.z.val := by
  induction pts generalizing init with
  | nil => simp [hull_pts]
  | cons a l ih =>
    obtain ⟨h1, h2, h3, h4, h5, h6⟩ := ih (grow_bounds init.1 init.2 a)
    obtain ⟨g1, g2, g3, g4, g5, g6⟩ := grow_bounds_val init.1 init.2 a
    simp only [hull_pts, List.foldl_cons] at h1 h2 h3 h4 h5 h6 ⊢
    rw [h1, h2, h3, h4, h5, h6, g1, g2, g3, g4, g5, g6]
    exact ⟨rfl, rfl, rfl, rfl, rfl, rfl⟩

theorem hull_pts_isHull (pts : List u16vec3) (hne : pts ≠ []) :
    IsHull pts (hull_pts pts (u16vec3.top, u16vec3.zero)).1
      (hull_pts pts (u16vec3.top, u16vec3.zero)).2 := by
  obtain ⟨h1, h2, h3, h4, h5, h6⟩ := hull_pts_val pts (u16vec3.top, u16vec3.zero)
  obtain ⟨q, hq⟩ := List.exists_mem_of_ne_nil pts hne
  have a1 := foldl_min_le (fun p : u16vec3 => p.x.val) pts 65535
  have a2 := foldl_min_le (fun p : u16vec3 => p.y.val) pts 65535
  have a3 := foldl_min_le (fun p : u16vec3 => p.z.val) pts 65535
  have a4 := foldl_max_ge (fun p : u16vec3 => p.x.val) pts 0
  have a5 := foldl_max_ge (fun p : u16vec3 => p.y.val) pts 0
  have a6 := foldl_max_ge (fun p : u16vec3 => p.z.val) pts 0
  have t1 : (u16vec3.top, u16vec3.zero).1.x.val = 65535 := rfl
  have t2 : (u16vec3.top, u16vec3.zero).1.y.val = 65535 := rfl
  have t3 : (u16vec3.top, u16vec3.zero).1.z.val = 65535 := rfl
  have t4 : (u16vec3.top, u16vec3.zero).2.x.val = 0 := rfl
  have t5 : (u16vec3.top, u16vec3.zero).2.y.val = 0 := rfl
  have t6 : (u16vec3.top, u16vec3.zero).2.z.val = 0 := rfl
  rw [t1] at h1; rw [t2] at h2; rw [t3] at h3; rw [t4] at h4; rw [t5] at h5; rw [t6] at h6
  rw [← h1] at a1; rw [← h2] at a2; rw [← h3] at a3
  rw [← h4] at a4; rw [← h5] at a5; rw [← h6] at a6
  refine ⟨fun p hp => ⟨⟨a1.2.1 p hp, a2.2.1 p hp, a3.2.1 p hp⟩,
    ⟨a4.2.1 p hp, a5.2.1 p hp, a6.2.1 p hp⟩⟩, ?_, ?_, ?_, ?_, ?_, ?_⟩
  · rcases a1.2.2 with h | ⟨p, hp, h⟩
    · exact ⟨q, hq, Fin.ext (by have := a1.2.1 q hq; have := q.x.isLt; omega)⟩
    · exact ⟨p, hp, Fin.ext h⟩
  · rcases a2.2.2 with h | ⟨p, hp, h⟩
    · exact ⟨q, hq, Fin.ext (by have := a2.2.1 q hq; have := q.y.isLt; omega)⟩
    · exact ⟨p, hp, Fin.ext h⟩
  · rcases a3.2.2 with h | ⟨p, hp, h⟩
    · exact ⟨q, hq, Fin.ext (by have := a3.2.1 q hq; have := q.z.isLt; omega)⟩
    · exact ⟨p, hp, Fin.ext h⟩
  · rcases a4.2.2 with h | ⟨p, hp, h⟩
    · exact ⟨q, hq, Fin.ext (by have := a4.2.1 q hq; omega)⟩
    · exact ⟨p, hp, Fin.ext h⟩
  · rcases a5.2.2 with h | ⟨p, hp, h⟩
    · exact ⟨q, hq, Fin.ext (by have := a5.2.1 q hq; omega)⟩
    · exact ⟨p, hp, Fin.ext h⟩
  · rcases a6.2.2 with h | ⟨p, hp, h⟩
    · exact ⟨q, hq, Fin.ext (by have := a6.2.1 q hq; omega)⟩
    · exact ⟨p, hp, Fin.ext h⟩

theorem slice_eq_map_range (l : List Nat) (lo len : Nat) (h : lo + len ≤ l.length) :
    slice l lo len = (List.range len).map (fun i => l.getD (lo + i) 0) := by
  apply List.ext_getElem
  · simp [slice]; omega
  · intro i h1 h2
    simp only [slice, List.length_take, List.length_drop] at h1
    simp [slice, List.getD_eq_getElem?_getD]
    have : lo + i < l.length := by omega
    simp [List.getElem?_eq_getElem this]

theorem hull_pts_tri_points (obj : Object) (s : List Nat) (init : u16vec3 × u16vec3) :
    hull_pts (tri_points obj s) init =
      s.foldl (fun b idx =>
        grow_bounds (grow_bounds b.1 b.2 (obj.mesh.getD idx CachedTriangle.zero).min).1
          (grow_bounds b.1 b.2 (obj.mesh.getD idx CachedTriangle.zero).min).2
          (obj.mesh.getD idx CachedTriangle.zero).max) init := by
  induction s generalizing init with
  | nil => rfl
  | cons a l ih =>
    simp only [tri_points, List.flatMap_cons, List.foldl_cons, hull_pts, List.cons_append,
      List.nil_append]
    exact ih _

theorem node_bounds_eq (obj : Object) (indices : List Nat) (lo len : Nat)
    (h : lo + len ≤ indices.length) :
    node_bounds obj indices lo len =
      hull_pts (tri_points obj (slice indices lo len)) (u16vec3.top, u16vec3.zero) := by
  rw [hull_pts_tri_points, slice_eq_map_range _ _ _ h, List.foldl_map]
  rfl

theorem tri_points_ne_nil (obj : Object) (s : List Nat) (h : s ≠ []) :
    tri_points obj s ≠ [] := by
  cases s with
  | nil => exact absurd rfl h
  | cons a l => simp [tri_points]

theorem node_bounds_isHull (obj : Object) (indices : List Nat) (lo len : Nat)
    (h : lo + len ≤ indices.length) (hl : 1 ≤ len) :
    IsHull (tri_points obj (slice indices lo len)) (node_bounds obj indices lo len).1
      (node_bounds obj indices lo len).2 := by
  rw [node_bounds_eq _ _ _ _ h]
  apply hull_pts_isHull
  apply tri_points_ne_nil
  intro h0
  have := slice_length indices lo len h
  rw [h0] at this
  simp at this
  omega

theorem isHull_of_perm (obj : Object) (s t : List Nat) (bmin bmax : u16vec3)
    (hp : s.Perm t) (h : IsHull (tri_points obj s) bmin bmax) :
    IsHull (tri_points obj t) bmin bmax := by
  have hm : ∀ p, p ∈ tri_points obj s ↔ p ∈ tri_points obj t := by
    intro p
    simp only [tri_points, List.mem_flatMap]
    constructor
    · rintro ⟨a, ha, hpa⟩; exact ⟨a, hp.mem_iff.1 ha, hpa⟩
    · rintro ⟨a, ha, hpa⟩; exact ⟨a, hp.mem_iff.2 ha, hpa⟩
  obtain ⟨h0, ⟨p1, m1, e1⟩, ⟨p2, m2, e2⟩, ⟨p3, m3, e3⟩, ⟨p4, m4, e4⟩, ⟨p5, m5, e5⟩,
    ⟨p6, m6, e6⟩⟩ := h
  exact ⟨fun p hp => h0 p ((hm p).2 hp), ⟨p1, (hm _).1 m1, e1⟩, ⟨p2, (hm _).1 m2, e2⟩,
    ⟨p3, (hm _).1 m3, e3⟩, ⟨p4, (hm _).1 m4, e4⟩, ⟨p5, (hm _).1 m5, e5⟩,
    ⟨p6, (hm _).1 m6, e6⟩⟩

/-! ### Node array updates -/

theorem nodeAt_set_self (nodes : List BVHNode) (i : Nat) (v : BVHNode)
    (h : i < nodes.length) : nodeAt (nodes.set i v) i = v := by
  simp [nodeAt, List.getD_eq_getElem?_getD, h]

theorem nodeAt_set_ne (nodes : List BVHNode) (i j : Nat) (v : BVHNode) (h : j ≠ i) :
    nodeAt (nodes.set i v) j = nodeAt nodes j := by
  simp [nodeAt, List.getD_eq_getElem?_getD, List.getElem?_set_ne (Ne.symm h)]

theorem refit_node_fields (obj : Object) (indices : List Nat) (node : BVHNode) :
    (refit_node obj indices node).leftFirst = node.leftFirst ∧
    (refit_node obj indices node).triCount = node.triCount ∧
    (refit_node obj indices node).aabbMin
      = (node_bounds obj indices node.leftFirst node.triCount).1 ∧
    (refit_node obj indices node).aabbMax
      = (node_bounds obj indices node.leftFirst node.triCount).2 :=
  ⟨rfl, rfl, rfl, rfl⟩

theorem make_children_spec (nodes : List BVHNode) (i k : Nat) (h : i < nodes.length) :
    (make_children nodes i k).length = nodes.length + 2 ∧
    nodeAt (make_children nodes i k) i
      = { nodeAt nodes i with leftFirst := nodes.length, triCount := 0 } ∧
    (nodeAt (make_children nodes i k) nodes.length).leftFirst = (nodeAt nodes i).leftFirst ∧
    (nodeAt (make_children nodes i k) nodes.length).triCount = k ∧
    (nodeAt (make_children nodes i k) (nodes.length + 1)).leftFirst
      = (nodeAt nodes i).leftFirst + k ∧
    (nodeAt (make_children nodes i k) (nodes.length + 1)).triCount
      = (nodeAt nodes i).triCount - k ∧
    (∀ j, j < nodes.length → j ≠ i → nodeAt (make_children nodes i k) j = nodeAt nodes j) := by
  have hi : i ≠ nodes.length := by omega
  have hi1 : i ≠ nodes.length + 1 := by omega
  refine ⟨?_, ?_, ?_, ?_, ?_, ?_, ?_⟩
  · simp [make_children]
  · unfold make_children
    simp only [List.length_append, List.length_singleton]
    rw [nodeAt_set_ne _ _ _ _ hi1, nodeAt_set_ne _ _ _ _ hi, nodeAt_set_self _ _ _ (by simp; omega)]
    simp [nodeAt, List.getD_eq_getElem?_getD, List.getElem?_append_left, h]
  · unfold make_children
    simp only [List.length_append, List.length_singleton]
    rw [nodeAt_set_ne _ _ _ _ (by omega), nodeAt_set_self _ _ _ (by simp)]
  · unfold make_children
    simp only [List.length_append, List.length_singleton]
    rw [nodeAt_set_ne _ _ _ _ (by omega), nodeAt_set_self _ _ _ (by simp)]
  · unfold make_children
    simp only [List.length_append, List.length_singleton]
    rw [nodeAt_set_self _ _ _ (by simp)]
  · unfold make_children
    simp only [List.length_append, List.length_singleton]
    rw [nodeAt_set_self _ _ _ (by simp)]
  · intro j hj hji
    unfold make_children
    simp only [List.length_append, List.length_singleton]
    rw [nodeAt_set_ne _ _ _ _ (by omega), nodeAt_set_ne _ _ _ _ (by omega),
      nodeAt_set_ne _ _ _ _ hji]
    simp [nodeAt, List.getD_eq_getElem?_getD, List.getElem?_append_left, hj]

/-! ### The subtree invariant -/

theorem Subtree.block_le {obj : Object} {nodes : List BVHNode} {indices : List Nat}
    {i lo len d n n' : Nat} (h : Subtree obj nodes indices i lo len d n n') : n ≤ n' := by
  induction h with
  | leaf => exact Nat.le_refl _
  | inner i lo len d n m n' k _ _ _ _ _ _ _ _ _ _ _ ih1 ih2 => omega

theorem Subtree.frame {obj : Object} {nodes : List BVHNode} {indices : List Nat}
    {i lo len d n n' : Nat} (h : Subtree obj nodes indices i lo len d n n')
    (nodes2 : List BVHNode) (indices2 : List Nat)
    (hlen : nodes.length ≤ nodes2.length)
    (hn : ∀ j, j < nodes.length → (j = i ∨ n ≤ j) → nodeAt nodes2 j = nodeAt nodes j)
    (hs : slice indices2 lo len = slice indices lo len)
    (hil : indices2.length = indices.length) :
    Subtree obj nodes2 indices2 i lo len d n n' := by
  induction h with
  | leaf i lo len d n h1 h2 h3 h4 h5 h6 h7 h8 =>
    have e := hn i h1 (Or.inl rfl)
    exact Subtree.leaf i lo len d n (by omega) (by omega) (by rw [e]; exact h3)
      (by rw [e]; exact h4) h5 (by omega) h7 (by rw [e, hs]; exact h8)
  | inner i lo len d n m n' k h1 h2 h3 h4 h5 h6 h7 h8 h9 hl hr ih1 ih2 =>
    have b1 := hl.block_le
    have b2 := hr.block_le
    have e := hn i (by omega) (Or.inl rfl)
    refine Subtree.inner i lo len d n m n' k h1 (by omega) (by rw [e]; exact h3)
      (by rw [e]; exact h4) h5 h6 (by omega) h8 (by rw [e, hs]; exact h9) ?_ ?_
    · apply ih1
      · intro j hj hc
        exact hn j hj (Or.inr (by omega))
      · rw [slice_take _ lo len k (by omega), slice_take _ lo len k (by omega), hs]
    · apply ih2
      · intro j hj hc
        exact hn j hj (Or.inr (by omega))
      · rw [slice_drop _ lo len k (by omega), slice_drop _ lo len k (by omega), hs]

theorem slice_of_take_eq (l l2 : List Nat) (lo k : Nat)
    (h : l2.take (lo + k) = l.take (lo + k)) : slice l2 lo k = slice l lo k := by
  have e : ∀ x : List Nat, slice x lo k = (x.take (lo + k)).drop lo := by
    intro x
    simp [slice, List.drop_take]
  rw [e, e, h]

theorem slice_of_drop_eq (l l2 : List Nat) (lo k : Nat)
    (h : l2.drop lo = l.drop lo) : slice l2 lo k = slice l lo k := by
  simp [slice, h]

theorem take_of_take_eq (l l2 : List Nat) (a b : Nat) (hab : a ≤ b)
    (h : l2.take b = l.take b) : l2.take a = l.take a := by
  have e : ∀ x : List Nat, x.take a = (x.take b).take a := by
    intro x
    simp [List.take_take, Nat.min_eq_left hab]
  rw [e, e l, h]

theorem drop_of_drop_eq (l l2 : List Nat) (a b : Nat) (hab : a ≤ b)
    (h : l2.drop a = l.drop a) : l2.drop b = l.drop b := by
  have e : ∀ x : List Nat, x.drop b = (x.drop a).drop (b - a) := by
    intro x
    simp [List.drop_drop]
    congr 1; omega
  rw [e, e l, h]

/-- One call of `split_bvh_node`, given the contract of the nested calls. -/
theorem split_step (P : Platform) (obj : Object) (fuel : Nat)
    (ih : ∀ (nodeIdx : Nat) (st : BuildState) (depth lo len : Nat),
      MAX_DEPTH < fuel + depth → depth ≤ MAX_DEPTH → nodeIdx < st.nodes.length →
      (nodeAt st.nodes nodeIdx).leftFirst = lo → (nodeAt st.nodes nodeIdx).triCount = len →
      1 ≤ len → lo + len ≤ st.indices.length →
      ∃ st', split_bvh_node P obj fuel nodeIdx st depth = some st' ∧
        SplitPost obj st st' nodeIdx lo len depth)
    (nodeIdx : Nat) (st : BuildState) (depth lo len : Nat)
    (hf : MAX_DEPTH < fuel + 1 + depth) (hd : depth ≤ MAX_DEPTH)
    (hi : nodeIdx < st.nodes.length)
    (hlo : (nodeAt st.nodes nodeIdx).leftFirst = lo)
    (hlen : (nodeAt st.nodes nodeIdx).triCount = len)
    (h1 : 1 ≤ len) (hr : lo + len ≤ st.indices.length) :
    ∃ st', split_bvh_node P obj (fuel + 1) nodeIdx st depth = some st' ∧
      SplitPost obj st st' nodeIdx lo len depth ∧
      SplitHook P obj st st' nodeIdx lo len depth := by
  obtain ⟨r1, r2, r3, r4⟩ := refit_node_fields obj st.indices (nodeAt st.nodes nodeIdx)
  rw [hlo] at r1; rw [hlen] at r2; rw [hlo, hlen] at r3 r4
  have hull0 := node_bounds_isHull obj st.indices lo len hr h1
  rw [← r3, ← r4] at hull0
  have hs := split_decide_spec P obj st.indices st.max_depth
    (refit_node obj st.indices (nodeAt st.nodes nodeIdx)) depth (by rw [r1, r2]; exact hr)
  rw [r1, r2] at hs
  obtain ⟨d1, d2, d3, d4, d5⟩ := hs
  have hN : (st.nodes.set nodeIdx (refit_node obj st.indices (nodeAt st.nodes nodeIdx))).length
      = st.nodes.length := by simp
  have hself := nodeAt_set_self st.nodes nodeIdx
    (refit_node obj st.indices (nodeAt st.nodes nodeIdx)) hi
  unfold split_bvh_node
  simp only []
  unfold SplitHook
  generalize split_decide P obj st.indices st.max_depth
      (refit_node obj st.indices (nodeAt st.nodes nodeIdx)) depth = D at d1 d2 d3 d4 d5
  obtain ⟨ind, md, o⟩ := D
  simp only [] at d1 d2 d3 d4 d5
  cases o with
  | none =>
    refine ⟨_, rfl, ⟨d1, d2, d3, d4, by simp, ?_, ?_⟩, fun _ _ _ hk => by simp at hk⟩
    · intro j _ hj
      exact nodeAt_set_ne _ _ _ _ hj
    · simp only [hN]
      refine Subtree.leaf nodeIdx lo len depth _ (by rw [hN]; exact hi) (by rw [hN])
        (by rw [hself]; exact r1) (by rw [hself]; exact r2) h1 (by rw [d1]; exact hr) hd ?_
      rw [hself]
      exact isHull_of_perm obj _ _ _ _ d4.symm hull0
  | some k =>
    obtain ⟨k0, k1, k2, _⟩ := d5 k rfl
    simp only []
    obtain ⟨c1, c2, c3, c4, c5, c6, c7⟩ := make_children_spec
      (st.nodes.set nodeIdx (refit_node obj st.indices (nodeAt st.nodes nodeIdx))) nodeIdx k
      (by rw [hN]; exact hi)
    rw [hN] at c1 c2 c3 c4 c5 c6 c7
    rw [hself] at c2 c3 c5 c6
    rw [r1] at c3 c5
    rw [r2] at c6
    generalize make_children
      (st.nodes.set nodeIdx (refit_node obj st.indices (nodeAt st.nodes nodeIdx))) nodeIdx k
      = nodes2 at c1 c2 c3 c4 c5 c6 c7
    rw [hN]
    obtain ⟨stL, eL, pL⟩ := ih st.nodes.length ⟨ind, nodes2, md⟩ (depth + 1) lo k
      (by omega) (by omega) (by simp only []; omega) c3 c4 k0 (by simp only []; omega)
    rw [eL]
    simp only []
    have eR1 : nodeAt stL.nodes (st.nodes.length + 1) = nodeAt nodes2 (st.nodes.length + 1) :=
      pL.nkeep _ (by simp only []; omega) (by omega)
    have nL := pL.nlen
    have iL := pL.ilen
    simp only [] at nL iL
    obtain ⟨stR, eR, pR⟩ := ih (st.nodes.length + 1) stL (depth + 1) (lo + k) (len - k)
      (by omega) (by omega) (by omega) (by rw [eR1]; exact c5) (by rw [eR1]; exact c6)
      (by omega) (by omega)
    refine ⟨stR, eR, ?_, ?_⟩
    rotate_left
    · intro ind' md' k' hD
      simp only [Prod.mk.injEq, Option.some.injEq] at hD
      obtain ⟨hD1, _, hD3⟩ := hD
      subst hD1; subst hD3
      have eI : nodeAt stR.nodes nodeIdx
          = { refit_node obj st.indices (nodeAt st.nodes nodeIdx) with
              leftFirst := st.nodes.length, triCount := 0 } := by
        rw [pR.nkeep nodeIdx (by omega) (by omega),
          pL.nkeep nodeIdx (by simp only []; omega) (by omega), c2]
      have tR' := pR.itake
      have dL' := pL.idrop
      simp only [] at dL'
      have sL' : slice stR.indices lo k = slice stL.indices lo k :=
        slice_of_take_eq _ _ _ _ tR'
      have sR' : slice stL.indices (lo + k) (len - k) = slice ind (lo + k) (len - k) :=
        slice_of_drop_eq _ _ _ _ dL'
      refine ⟨by rw [eI], by rw [eI], ?_, ?_, stL.nodes.length, ?_, pR.tree⟩
      · rw [sL']; exact pL.iperm
      · rw [← sR']; exact pR.iperm
      · have t := pL.tree
        simp only [c1] at t
        refine t.frame stR.nodes stR.indices pR.nlen ?_ sL' (by have := pR.ilen; omega)
        intro j hj hc
        exact pR.nkeep j hj (by omega)
    have iR := pR.ilen
    have nR := pR.nlen
    have tL := pL.itake
    have dL := pL.idrop
    have tR := pR.itake
    have dR := pR.idrop
    simp only [] at tL dL
    have hlk : lo + k + (len - k) = lo + len := by omega
    rw [hlk] at dR
    have sL : slice stR.indices lo k = slice stL.indices lo k :=
      slice_of_take_eq _ _ _ _ tR
    have sR : slice stL.indices (lo + k) (len - k) = slice ind (lo + k) (len - k) :=
      slice_of_drop_eq _ _ _ _ dL
    have hperm : (slice stR.indices lo len).Perm (slice st.indices lo len) := by
      rw [slice_split stR.indices lo len k (by omega), sL]
      refine List.Perm.trans ?_ d4
      rw [slice_split ind lo len k (by omega), ← sR]
      exact List.Perm.append pL.iperm pR.iperm
    refine ⟨by omega, ?_, ?_, hperm, by omega, ?_, ?_⟩
    · rw [take_of_take_eq _ _ lo (lo + k) (by omega) tR, tL, d2]
    · rw [dR, drop_of_drop_eq _ _ (lo + k) (lo + len) (by omega) dL, d3]
    · intro j hj hji
      rw [pR.nkeep j (by omega) (by omega), pL.nkeep j (by simp only []; omega) (by omega),
        c7 j hj hji]
      exact nodeAt_set_ne _ _ _ _ hji
    · have eI : nodeAt stR.nodes nodeIdx
          = { refit_node obj st.indices (nodeAt st.nodes nodeIdx) with
              leftFirst := st.nodes.length, triCount := 0 } := by
        rw [pR.nkeep nodeIdx (by omega) (by omega),
          pL.nkeep nodeIdx (by simp only []; omega) (by omega), c2]
      refine Subtree.inner nodeIdx lo len depth st.nodes.length stL.nodes.length
        stR.nodes.length k hi (Nat.le_refl _) (by rw [eI]) (by rw [eI]) k0 k1 (by omega)
        k2 ?_ ?_ pR.tree
      · rw [eI]
        exact isHull_of_perm obj _ _ _ _ hperm.symm hull0
      · have t := pL.tree
        simp only [c1] at t
        refine t.frame stR.nodes stR.indices nR ?_ sL (by omega)
        intro j hj hc
        exact pR.nkeep j hj (by omega)

theorem split_spec (P : Platform) (obj : Object) :
    ∀ (fuel nodeIdx : Nat) (st : BuildState) (depth lo len : Nat),
      MAX_DEPTH < fuel + depth → depth ≤ MAX_DEPTH → nodeIdx < st.nodes.length →
      (nodeAt st.nodes nodeIdx).leftFirst = lo → (nodeAt st.nodes nodeIdx).triCount = len →
      1 ≤ len → lo + len ≤ st.indices.length →
      ∃ st', split_bvh_node P obj fuel nodeIdx st depth = some st' ∧
        SplitPost obj st st' nodeIdx lo len depth := by
  intro fuel
  induction fuel with
  | zero => intro nodeIdx st depth lo len h1 h2; omega
  | succ fuel ih =>
    intro nodeIdx st depth lo len hf hd hi hlo hlen h1 hr
    obtain ⟨st', e, p, _⟩ := split_step P obj fuel ih nodeIdx st depth lo len hf hd hi hlo
      hlen h1 hr
    exact ⟨st', e, p⟩

/-! ### More fuel changes nothing -/

theorem split_fuel_mono (P : Platform) (obj : Object) :
    ∀ (fuel nodeIdx : Nat) (st : BuildState) (depth : Nat) (st' : BuildState),
      split_bvh_node P obj fuel nodeIdx st depth = some st' →
      split_bvh_node P obj (fuel + 1) nodeIdx st depth = some st' := by
  intro fuel
  induction fuel with
  | zero => intro nodeIdx st depth st' h; simp [split_bvh_node] at h
  | succ fuel ih =>
    intro nodeIdx st depth st' h
    rw [split_bvh_node] at h ⊢
    simp only [] at h ⊢
    generalize split_decide P obj st.indices st.max_depth
        (refit_node obj st.indices (nodeAt st.nodes nodeIdx)) depth = D at h ⊢
    obtain ⟨ind, md, o⟩ := D
    cases o with
    | none => exact h
    | some k =>
      simp only [] at h ⊢
      cases hL : split_bvh_node P obj fuel
          (st.nodes.set nodeIdx (refit_node obj st.indices (nodeAt st.nodes nodeIdx))).length
          ⟨ind, make_children
            (st.nodes.set nodeIdx (refit_node obj st.indices (nodeAt st.nodes nodeIdx)))
            nodeIdx k, md⟩ (depth + 1) with
      | none => rw [hL] at h; simp at h
      | some stL =>
        rw [hL] at h
        simp only [] at h
        rw [ih _ _ _ _ hL]
        simp only []
        exact ih _ _ _ _ h

theorem split_fuel_le (P : Platform) (obj : Object) (fuel fuel2 nodeIdx : Nat)
    (st : BuildState) (depth : Nat) (st' : BuildState) (hle : fuel ≤ fuel2)
    (h : split_bvh_node P obj fuel nodeIdx st depth = some st') :
    split_bvh_node P obj fuel2 nodeIdx st depth = some st' := by
  induction fuel2 with
  | zero =>
    have : fuel = 0 := by omega
    subst this; exact h
  | succ m ih =>
    rcases Nat.lt_or_ge m fuel with h1 | h1
    · have : fuel = m + 1 := by omega
      subst this; exact h
    · exact split_fuel_mono P obj m nodeIdx st depth st' (ih h1)

/-! ### The whole build -/

/-- The root call of `build_bvh` on a non-empty mesh: the result exists for every fuel
of at least `MAX_DEPTH + 1`, the index array is a permutation of the identity, and the
node array is a tree rooted at node 0 that covers all positions. -/
theorem build_spec (P : Platform) (obj : Object) (idx0 : List Nat) (nodes0 : List BVHNode)
    (hne : obj.mesh ≠ []) :
    ∃ r, (∀ fuel, MAX_DEPTH + 1 ≤ fuel → build_bvh_fuel P fuel obj idx0 nodes0 = some r) ∧
      r.obj = obj ∧ r.out_indices.length = obj.mesh.length ∧
      r.out_indices.Perm (List.range obj.mesh.length) ∧
      Subtree obj r.out_nodes r.out_indices 0 0 obj.mesh.length 0 1 r.out_nodes.length := by
  have hn : 1 ≤ obj.mesh.length := by
    cases hm : obj.mesh with
    | nil => exact absurd hm hne
    | cons a l => simp
  have he : obj.mesh.isEmpty = false := by
    cases hm : obj.mesh with
    | nil => exact absurd hm hne
    | cons a l => rfl
  obtain ⟨st', e, p⟩ := split_spec P obj (MAX_DEPTH + 1) 0
    ⟨List.range obj.mesh.length,
      [BVHNode.fresh].set 0
        { nodeAt [BVHNode.fresh] 0 with leftFirst := 0, triCount := obj.mesh.length }, 0⟩
    0 0 obj.mesh.length (by omega) (by omega) (by simp) rfl rfl hn (by simp)
  refine ⟨⟨obj, st'.indices, st'.nodes, st'.max_depth⟩, ?_, rfl, ?_, ?_, ?_⟩
  · intro fuel hf
    unfold build_bvh_fuel
    rw [he]
    simp only [Bool.false_eq_true, if_false]
    rw [split_fuel_le P obj _ fuel _ _ _ _ hf e]
  · have := p.ilen
    simpa using this
  · have h1 := p.iperm
    have h2 := p.ilen
    simp only [List.length_range] at h2
    have e1 : slice st'.indices 0 obj.mesh.length = st'.indices := by
      simp [slice, ← h2]
    have e2 : slice (List.range obj.mesh.length) 0 obj.mesh.length
        = List.range obj.mesh.length := by
      simp [slice]
    simp only [] at h1
    rw [e1, e2] at h1
    exact h1
  · exact p.tree

/-! ### Consequences of the subtree invariant -/

/-- Every node of the block of a subtree is itself the root of a subtree, whose range,
depth and block lie inside the outer ones. -/
theorem Subtree.sub {obj : Object} {nodes : List BVHNode} {indices : List Nat}
    {i lo len d n n' : Nat} (h : Subtree obj nodes indices i lo len d n n') :
    ∀ j, (j = i ∨ (n ≤ j ∧ j < n')) →
      ∃ lo' len' d' a b, Subtree obj nodes indices j lo' len' d' a b ∧
        lo ≤ lo' ∧ lo' + len' ≤ lo + len ∧ d ≤ d' ∧ n ≤ a ∧ b ≤ n' := by
  induction h with
  | leaf i lo len d n h1 h2 h3 h4 h5 h6 h7 h8 =>
    intro j hj
    have : j = i := by omega
    subst this
    exact ⟨lo, len, d, n, n, Subtree.leaf j lo len d n h1 h2 h3 h4 h5 h6 h7 h8,
      by omega, by omega, by omega, by omega, by omega⟩
  | inner i lo len d n m n' k h1 h2 h3 h4 h5 h6 h7 h8 h9 hl hr ih1 ih2 =>
    intro j hj
    have b1 := hl.block_le
    have b2 := hr.block_le
    by_cases c0 : j = i
    · subst c0
      exact ⟨lo, len, d, n, n', Subtree.inner j lo len d n m n' k h1 h2 h3 h4 h5 h6 h7 h8 h9
        hl hr, by omega, by omega, by omega, by omega, by omega⟩
    · by_cases c1 : j = n ∨ (n + 2 ≤ j ∧ j < m)
      · obtain ⟨lo', len', d', a, b, t, q1, q2, q3, q4, q5⟩ := ih1 j c1
        exact ⟨lo', len', d', a, b, t, by omega, by omega, by omega, by omega, by omega⟩
      · obtain ⟨lo', len', d', a, b, t, q1, q2, q3, q4, q5⟩ := ih2 j (by omega)
        exact ⟨lo', len', d', a, b, t, by omega, by omega, by omega, by omega, by omega⟩

/-- What a subtree says about its root when the root is interior. -/
theorem Subtree.interior {obj : Object} {nodes : List BVHNode} {indices : List Nat}
    {i lo len d n n' : Nat} (h : Subtree obj nodes indices i lo len d n n')
    (hz : (nodeAt nodes i).triCount = 0) :
    (nodeAt nodes i).leftFirst = n ∧ i < n ∧ n + 2 ≤ n' ∧ n' ≤ nodes.length ∧ d < MAX_DEPTH ∧
    ∃ k m, 0 < k ∧ k < len ∧ Subtree obj nodes indices n lo k (d + 1) (n + 2) m ∧
      Subtree obj nodes indices (n + 1) (lo + k) (len - k) (d + 1) m n' := by
  cases h with
  | leaf _ _ _ _ _ h1 h2 h3 h4 h5 h6 h7 h8 => omega
  | inner _ _ _ _ _ m _ k h1 h2 h3 h4 h5 h6 h7 h8 h9 hl hr =>
    have b1 := hl.block_le
    have b2 := hr.block_le
    exact ⟨h3, h1, by omega, h2, h8, k, m, h5, h6, hl, hr⟩

/-- What a subtree says about its root when the root is a leaf. -/
theorem Subtree.isLeaf {obj : Object} {nodes : List BVHNode} {indices : List Nat}
    {i lo len d n n' : Nat} (h : Subtree obj nodes indices i lo len d n n')
    (hz : 0 < (nodeAt nodes i).triCount) :
    (nodeAt nodes i).leftFirst = lo ∧ (nodeAt nodes i).triCount = len ∧ n' = n := by
  cases h with
  | leaf _ _ _ _ _ h1 h2 h3 h4 h5 h6 h7 h8 => exact ⟨h3, h4, rfl⟩
  | inner _ _ _ _ _ m _ k h1 h2 h3 h4 h5 h6 h7 h8 h9 hl hr => omega

/-- Facts shared by both kinds of node. -/
theorem Subtree.basic {obj : Object} {nodes : List BVHNode} {indices : List Nat}
    {i lo len d n n' : Nat} (h : Subtree obj nodes indices i lo len d n n') :
    1 ≤ len ∧ lo + len ≤ indices.length ∧ d ≤ MAX_DEPTH ∧ n' ≤ nodes.length ∧
    IsHull (tri_points obj (slice indices lo len))
      (nodeAt nodes i).aabbMin (nodeAt nodes i).aabbMax := by
  cases h with
  | leaf _ _ _ _ _ h1 h2 h3 h4 h5 h6 h7 h8 => exact ⟨h5, h6, h7, h2, h8⟩
  | inner _ _ _ _ _ m _ k h1 h2 h3 h4 h5 h6 h7 h8 h9 hl hr =>
    exact ⟨by omega, h7, by omega, h2, h9⟩

/-- Every node of the final array is the root of a subtree inside the root's. -/
theorem root_sub {obj : Object} {nodes : List BVHNode} {indices : List Nat} {len : Nat}
    (h : Subtree obj nodes indices 0 0 len 0 1 nodes.length) (j : Nat)
    (hj : j < nodes.length) :
    ∃ lo' len' d' a b, Subtree obj nodes indices j lo' len' d' a b ∧
      lo' + len' ≤ len ∧ 1 ≤ a ∧ b ≤ nodes.length := by
  obtain ⟨lo', len', d', a, b, t, _, q2, _, q4, q5⟩ := h.sub j (by omega)
  exact ⟨lo', len', d', a, b, t, by omega, q4, q5⟩

theorem Subtree.children_in_block {obj : Object} {nodes : List BVHNode} {indices : List Nat}
    {i lo len d n n' : Nat} (h : Subtree obj nodes indices i lo len d n n') (p : Nat)
    (hp : p = i ∨ (n ≤ p ∧ p < n')) (hz : (nodeAt nodes p).triCount = 0) :
    n ≤ (nodeAt nodes p).leftFirst ∧ (nodeAt nodes p).leftFirst + 2 ≤ n' ∧
    p < (nodeAt nodes p).leftFirst := by
  obtain ⟨lo', len', d', a, b, t, _, _, _, q4, q5⟩ := h.sub p hp
  obtain ⟨e1, e2, e3, _⟩ := t.interior hz
  omega

theorem Subtree.unique_parent {obj : Object} {nodes : List BVHNode} {indices : List Nat}
    {i lo len d n n' : Nat} (h : Subtree obj nodes indices i lo len d n n') :
    ∀ j, n ≤ j → j < n' →
      ∃ p, (p = i ∨ (n ≤ p ∧ p < n')) ∧ (nodeAt nodes p).triCount = 0 ∧
        ((nodeAt nodes p).leftFirst = j ∨ (nodeAt nodes p).leftFirst + 1 = j) ∧
        ∀ q, (q = i ∨ (n ≤ q ∧ q < n')) → (nodeAt nodes q).triCount = 0 →
          ((nodeAt nodes q).leftFirst = j ∨ (nodeAt nodes q).leftFirst + 1 = j) → q = p := by
  induction h with
  | leaf i lo len d n h1 h2 h3 h4 h5 h6 h7 h8 => intro j a b; omega
  | inner i lo len d n m n' k h1 h2 h3 h4 h5 h6 h7 h8 h9 hl hr ih1 ih2 =>
    intro j hj1 hj2
    have b1 := hl.block_le
    have b2 := hr.block_le
    have cl := hl.children_in_block
    have cr := hr.children_in_block
    by_cases c0 : j = n ∨ j = n + 1
    · refine ⟨i, Or.inl rfl, h4, by omega, ?_⟩
      intro q hq hqz hqc
      by_contra hne
      by_cases c1 : q = n ∨ (n + 2 ≤ q ∧ q < m)
      · have := cl q c1 hqz; omega
      · have := cr q (by omega) hqz; omega
    · by_cases c1 : j < m
      · obtain ⟨p, hp, hpz, hpc, hu⟩ := ih1 j (by omega) c1
        refine ⟨p, by omega, hpz, hpc, ?_⟩
        intro q hq hqz hqc
        by_cases c2 : q = n ∨ (n + 2 ≤ q ∧ q < m)
        · exact hu q c2 hqz hqc
        · by_cases c3 : q = i
          · subst c3; omega
          · have := cr q (by omega) hqz; omega
      · obtain ⟨p, hp, hpz, hpc, hu⟩ := ih2 j (by omega) hj2
        refine ⟨p, by omega, hpz, hpc, ?_⟩
        intro q hq hqz hqc
        by_cases c2 : q = n + 1 ∨ (m ≤ q ∧ q < n')
        · exact hu q c2 hqz hqc
        · by_cases c3 : q = i
          · subst c3; omega
          · have := cl q (by omega) hqz; omega

theorem mem_slice_of_pos (l : List Nat) (lo len j : Nat) (h : lo + len ≤ l.length)
    (h1 : lo ≤ j) (h2 : j < lo + len) : l.getD j 0 ∈ slice l lo len := by
  rw [slice_eq_map_range l lo len h, List.mem_map]
  exact ⟨j - lo, by simp; omega, by congr 1; omega⟩

theorem isHull_contains (obj : Object) (s : List Nat) (bmin bmax : u16vec3) (idx : Nat)
    (h : IsHull (tri_points obj s) bmin bmax) (hm : idx ∈ s) :
    u16vec3.le bmin (obj.mesh.getD idx CachedTriangle.zero).min ∧
    u16vec3.le (obj.mesh.getD idx CachedTriangle.zero).max bmax := by
  have m1 : (obj.mesh.getD idx CachedTriangle.zero).min ∈ tri_points obj s := by
    simp only [tri_points, List.mem_flatMap]
    exact ⟨idx, hm, by simp⟩
  have m2 : (obj.mesh.getD idx CachedTriangle.zero).max ∈ tri_points obj s := by
    simp only [tri_points, List.mem_flatMap]
    exact ⟨idx, hm, by simp⟩
  exact ⟨(h.1 _ m1).1, (h.1 _ m2).2⟩

theorem mesh_ne_nil (obj : Object) (h : 1 ≤ obj.mesh.length) : obj.mesh ≠ [] := by
  intro h0; rw [h0] at h; simp at h

theorem Subtree.hasSpan {obj : Object} {nodes : List BVHNode} {indices : List Nat}
    {i lo len d n n' : Nat} (h : Subtree obj nodes indices i lo len d n n') :
    HasSpan nodes i (Finset.Ico lo (lo + len)) := by
  induction h with
  | leaf i lo len d n h1 h2 h3 h4 h5 h6 h7 h8 =>
    have := @HasSpan.leaf nodes i h1 (by omega)
    rw [h3, h4] at this
    exact this
  | inner i lo len d n m n' k h1 h2 h3 h4 h5 h6 h7 h8 h9 hl hr ih1 ih2 =>
    have b1 := hl.block_le
    have b2 := hr.block_le
    have e : lo + k + (len - k) = lo + len := by omega
    rw [e] at ih2
    have := @HasSpan.inner nodes i _ _ (by omega) h4 (by rw [h3]; exact ih1)
      (by rw [h3]; exact ih2)
    rw [Finset.Ico_union_Ico_eq_Ico (by omega) (by omega)] at this
    exact this

theorem HasSpan.unique {nodes : List BVHNode} {i : Nat} {s t : Finset Nat}
    (h : HasSpan nodes i s) (h2 : HasSpan nodes i t) : s = t := by
  induction h generalizing t with
  | leaf i h1 hz =>
    cases h2 with
    | leaf _ _ _ => rfl
    | inner _ _ _ _ hz2 _ _ => omega
  | inner i s1 s2 h1 hz hl hr ih1 ih2 =>
    cases h2 with
    | leaf _ _ hz2 => omega
    | inner _ t1 t2 _ _ hl2 hr2 => rw [ih1 hl2, ih2 hr2]

theorem Subtree.leaf_range_in {obj : Object} {nodes : List BVHNode} {indices : List Nat}
    {i lo len d n n' : Nat} (h : Subtree obj nodes indices i lo len d n n') (q : Nat)
    (hq : q = i ∨ (n ≤ q ∧ q < n')) (hz : 0 < (nodeAt nodes q).triCount) :
    lo ≤ (nodeAt nodes q).leftFirst ∧
    (nodeAt nodes q).leftFirst + (nodeAt nodes q).triCount ≤ lo + len := by
  obtain ⟨lo', len', d', a, b, t, q1, q2, _, _, _⟩ := h.sub q hq
  obtain ⟨e1, e2, _⟩ := t.isLeaf hz
  omega

theorem Subtree.unique_leaf {obj : Object} {nodes : List BVHNode} {indices : List Nat}
    {i lo len d n n' : Nat} (h : Subtree obj nodes indices i lo len d n n') :
    ∀ p, lo ≤ p → p < lo + len →
      ∃ j, (j = i ∨ (n ≤ j ∧ j < n')) ∧ 0 < (nodeAt nodes j).triCount ∧
        (nodeAt nodes j).leftFirst ≤ p ∧
        p < (nodeAt nodes j).leftFirst + (nodeAt nodes j).triCount ∧
        ∀ q, (q = i ∨ (n ≤ q ∧ q < n')) → 0 < (nodeAt nodes q).triCount →
          (nodeAt nodes q).leftFirst ≤ p →
          p < (nodeAt nodes q).leftFirst + (nodeAt nodes q).triCount → q = j := by
  induction h with
  | leaf i lo len d n h1 h2 h3 h4 h5 h6 h7 h8 =>
    intro p hp1 hp2
    exact ⟨i, Or.inl rfl, by omega, by omega, by omega, fun q hq _ _ _ => by omega⟩
  | inner i lo len d n m n' k h1 h2 h3 h4 h5 h6 h7 h8 h9 hl hr ih1 ih2 =>
    intro p hp1 hp2
    have b1 := hl.block_le
    have b2 := hr.block_le
    have cl := hl.leaf_range_in
    have cr := hr.leaf_range_in
    by_cases c1 : p < lo + k
    · obtain ⟨j, hj, hjz, hj1, hj2, hu⟩ := ih1 p hp1 c1
      refine ⟨j, by omega, hjz, hj1, hj2, ?_⟩
      intro q hq hqz hq1 hq2
      by_cases c2 : q = n ∨ (n + 2 ≤ q ∧ q < m)
      · exact hu q c2 hqz hq1 hq2
      · by_cases c3 : q = i
        · subst c3; omega
        · have := cr q (by omega) hqz; omega
    · obtain ⟨j, hj, hjz, hj1, hj2, hu⟩ := ih2 p (by omega) (by omega)
      refine ⟨j, by omega, hjz, hj1, hj2, ?_⟩
      intro q hq hqz hq1 hq2
      by_cases c2 : q = n + 1 ∨ (m ≤ q ∧ q < n')
      · exact hu q c2 hqz hq1 hq2
      · by_cases c3 : q = i
        · subst c3; omega
        · have := cl q (by omega) hqz; omega

theorem AtDepth.subtree {obj : Object} {nodes : List BVHNode} {indices : List Nat}
    {len : Nat} (h : Subtree obj nodes indices 0 0 len 0 1 nodes.length) {j d : Nat}
    (hd : AtDepth nodes j d) :
    ∃ lo' len' a b, Subtree obj nodes indices j lo' len' d a b := by
  induction hd with
  | root => exact ⟨_, _, _, _, h⟩
  | left i d _ hi hz ih =>
    obtain ⟨lo', len', a, b, s⟩ := ih
    obtain ⟨e1, _, _, _, _, k, m, _, _, sl, _⟩ := s.interior hz
    rw [e1]
    exact ⟨_, _, _, _, sl⟩
  | right i d _ hi hz ih =>
    obtain ⟨lo', len', a, b, s⟩ := ih
    obtain ⟨e1, _, _, _, _, k, m, _, _, _, sr⟩ := s.interior hz
    rw [e1]
    exact ⟨_, _, _, _, sr⟩

theorem Subtree.all_depth {obj : Object} {nodes : List BVHNode} {indices : List Nat}
    {i lo len d n n' : Nat} (h : Subtree obj nodes indices i lo len d n n') :
    AtDepth nodes i d → ∀ j, (j = i ∨ (n ≤ j ∧ j < n')) → ∃ d', AtDepth nodes j d' := by
  induction h with
  | leaf i lo len d n h1 h2 h3 h4 h5 h6 h7 h8 =>
    intro hd j hj
    have : j = i := by omega
    subst this
    exact ⟨d, hd⟩
  | inner i lo len d n m n' k h1 h2 h3 h4 h5 h6 h7 h8 h9 hl hr ih1 ih2 =>
    intro hd j hj
    have b1 := hl.block_le
    have b2 := hr.block_le
    have dl : AtDepth nodes n (d + 1) := by
      have := AtDepth.left i d hd (by omega) h4
      rw [h3] at this; exact this
    have dr : AtDepth nodes (n + 1) (d + 1) := by
      have := AtDepth.right i d hd (by omega) h4
      rw [h3] at this; exact this
    by_cases c0 : j = i
    · subst c0; exact ⟨d, hd⟩
    · by_cases c1 : j = n ∨ (n + 2 ≤ j ∧ j < m)
      · exact ih1 dl j c1
      · exact ih2 dr j (by omega)

/-! ### Surface areas -/

theorem isHull_nested (pts1 pts2 : List u16vec3) (a1 b1 a2 b2 : u16vec3)
    (h1 : IsHull pts1 a1 b1) (h2 : IsHull pts2 a2 b2) (hsub : ∀ p ∈ pts1, p ∈ pts2) :
    u16vec3.le a2 a1 ∧ u16vec3.le b1 b2 ∧ u16vec3.le a1 b1 := by
  obtain ⟨c1, ⟨p1, m1, e1⟩, ⟨p2, m2, e2⟩, ⟨p3, m3, e3⟩, ⟨p4, m4, e4⟩, ⟨p5, m5, e5⟩,
    ⟨p6, m6, e6⟩⟩ := h1
  have c2 := h2.1
  refine ⟨⟨?_, ?_, ?_⟩, ⟨?_, ?_, ?_⟩, ⟨?_, ?_, ?_⟩⟩
  · rw [e1]; exact (c2 p1 (hsub _ m1)).1.1
  · rw [e2]; exact (c2 p2 (hsub _ m2)).1.2.1
  · rw [e3]; exact (c2 p3 (hsub _ m3)).1.2.2
  · rw [e4]; exact (c2 p4 (hsub _ m4)).2.1
  · rw [e5]; exact (c2 p5 (hsub _ m5)).2.2.1
  · rw [e6]; exact (c2 p6 (hsub _ m6)).2.2.2
  · rw [e1]; exact (c1 p1 m1).2.1
  · rw [e2]; exact (c1 p2 m2).2.2.1
  · rw [e3]; exact (c1 p3 m3).2.2.2

theorem get_surface_area_mono (P : Platform) (hm : Monotone P.rnd) (a1 b1 a2 b2 : u16vec3)
    (h1 : u16vec3.le a2 a1) (h2 : u16vec3.le b1 b2) (h3 : u16vec3.le a1 b1) :
    get_surface_area P a1 b1 ≤ get_surface_area P a2 b2 := by
  obtain ⟨x1, y1, z1⟩ := h1
  obtain ⟨x2, y2, z2⟩ := h2
  obtain ⟨x3, y3, z3⟩ := h3
  unfold get_surface_area
  simp only []
  have w0 : (0 : ℚ) ≤ (((b1.x.val : Int) - (a1.x.val : Int) : Int) : ℚ) := by
    exact_mod_cast (by omega : (0 : Int) ≤ (b1.x.val : Int) - (a1.x.val : Int))
  have h0 : (0 : ℚ) ≤ (((b1.y.val : Int) - (a1.y.val : Int) : Int) : ℚ) := by
    exact_mod_cast (by omega : (0 : Int) ≤ (b1.y.val : Int) - (a1.y.val : Int))
  have d0 : (0 : ℚ) ≤ (((b1.z.val : Int) - (a1.z.val : Int) : Int) : ℚ) := by
    exact_mod_cast (by omega : (0 : Int) ≤ (b1.z.val : Int) - (a1.z.val : Int))
  have w1 : (((b1.x.val : Int) - (a1.x.val : Int) : Int) : ℚ)
      ≤ (((b2.x.val : Int) - (a2.x.val : Int) : Int) : ℚ) := by
    exact_mod_cast (by omega :
      (b1.x.val : Int) - (a1.x.val : Int) ≤ (b2.x.val : Int) - (a2.x.val : Int))
  have hh1 : (((b1.y.val : Int) - (a1.y.val : Int) : Int) : ℚ)
      ≤ (((b2.y.val : Int) - (a2.y.val : Int) : Int) : ℚ) := by
    exact_mod_cast (by omega :
      (b1.y.val : Int) - (a1.y.val : Int) ≤ (b2.y.val : Int) - (a2.y.val : Int))
  have d1 : (((b1.z.val : Int) - (a1.z.val : Int) : Int) : ℚ)
      ≤ (((b2.z.val : Int) - (a2.z.val : Int) : Int) : ℚ) := by
    exact_mod_cast (by omega :
      (b1.z.val : Int) - (a1.z.val : Int) ≤ (b2.z.val : Int) - (a2.z.val : Int))
  apply hm
  apply mul_le_mul_of_nonneg_left _ (by norm_num)
  apply hm
  apply add_le_add
  · apply hm
    apply add_le_add
    · exact hm (mul_le_mul w1 hh1 h0 (le_trans w0 w1))
    · exact hm (mul_le_mul w1 d1 d0 (le_trans w0 w1))
  · exact hm (mul_le_mul hh1 d1 d0 (le_trans h0 hh1))

theorem slice_subset (l : List Nat) (lo len lo' len' : Nat) (h1 : lo ≤ lo')
    (h2 : lo' + len' ≤ lo + len) (x : Nat) (hx : x ∈ slice l lo' len') :
    x ∈ slice l lo len := by
  rw [slice_split l lo len (lo' - lo) (by omega)]
  have e : lo + (lo' - lo) = lo' := by omega
  rw [e, slice_split l lo' (len - (lo' - lo)) len' (by omega)]
  simp only [List.mem_append]
  exact Or.inr (Or.inl hx)

theorem tri_points_subset (obj : Object) (s t : List Nat) (h : ∀ x ∈ s, x ∈ t) :
    ∀ p ∈ tri_points obj s, p ∈ tri_points obj t := by
  intro p hp
  simp only [tri_points, List.mem_flatMap] at hp ⊢
  obtain ⟨a, ha, hpa⟩ := hp
  exact ⟨a, h a ha, hpa⟩

/-! ### Small meshes -/

theorem split_small (P : Platform) (obj : Object) (fuel nodeIdx : Nat) (st : BuildState)
    (depth : Nat) (h : (nodeAt st.nodes nodeIdx).triCount ≤ MIN_TRIANGLES_PER_LEAF) :
    split_bvh_node P obj (fuel + 1) nodeIdx st depth =
      some ⟨st.indices,
        st.nodes.set nodeIdx (refit_node obj st.indices (nodeAt st.nodes nodeIdx)),
        st.max_depth⟩ := by
  have e : split_decide P obj st.indices st.max_depth
      (refit_node obj st.indices (nodeAt st.nodes nodeIdx)) depth
      = (st.indices, st.max_depth, none) := by
    unfold split_decide
    have h' : (refit_node obj st.indices (nodeAt st.nodes nodeIdx)).triCount
        ≤ MIN_TRIANGLES_PER_LEAF := h
    rw [if_pos (Or.inr h')]
  rw [split_bvh_node]
  simp only [e]

theorem map_getD_range (obj : Object) :
    (List.range obj.mesh.length).map (fun i => obj.mesh.getD i CachedTriangle.zero)
      = obj.mesh := by
  apply List.ext_getElem
  · simp
  · intro i h1 h2
    simp [List.getD_eq_getElem?_getD, List.getElem?_eq_getElem h2]

theorem tri_points_range (obj : Object) :
    tri_points obj (List.range obj.mesh.length) = mesh_points obj := by
  unfold tri_points mesh_points
  conv => rhs; rw [← map_getD_range obj]
  rw [List.flatMap_map]

/-! ### `load_bounds` -/

theorem load_bounds_vertex_spec (b : MeshBounds) (v : vec3) :
    vec3.le (load_bounds_vertex b v).minPos b.minPos ∧
    vec3.le b.maxPos (load_bounds_vertex b v).maxPos ∧
    vec3.le (load_bounds_vertex b v).minPos v ∧
    vec3.le v (load_bounds_vertex b v).maxPos := by
  unfold load_bounds_vertex vec3.le
  simp only []
  refine ⟨⟨?_, ?_, ?_⟩, ⟨?_, ?_, ?_⟩, ⟨?_, ?_, ?_⟩, ⟨?_, ?_, ?_⟩⟩ <;> split_ifs <;>
    simp_all <;> linarith

theorem foldl_vertex_spec (vs : List vec3) (b : MeshBounds) :
    vec3.le (vs.foldl load_bounds_vertex b).minPos b.minPos ∧
    vec3.le b.maxPos (vs.foldl load_bounds_vertex b).maxPos ∧
    ∀ v ∈ vs, vec3.le (vs.foldl load_bounds_vertex b).minPos v ∧
      vec3.le v (vs.foldl load_bounds_vertex b).maxPos := by
  induction vs generalizing b with
  | nil => simp [vec3.le]
  | cons a l ih =>
    obtain ⟨i1, i2, i3⟩ := ih (load_bounds_vertex b a)
    obtain ⟨s1, s2, s3, s4⟩ := load_bounds_vertex_spec b a
    simp only [List.foldl_cons, List.mem_cons, forall_eq_or_imp]
    unfold vec3.le at *
    refine ⟨?_, ?_, ?_, i3⟩
    · exact ⟨by linarith, by linarith, by linarith⟩
    · exact ⟨by linarith, by linarith, by linarith⟩
    · exact ⟨⟨by linarith, by linarith, by linarith⟩, ⟨by linarith, by linarith, by linarith⟩⟩

theorem foldl_triangles_spec (ts : List Triangle) (b : MeshBounds) :
    vec3.le (ts.foldl (fun b tri => tri.verts.foldl load_bounds_vertex b) b).minPos b.minPos ∧
    vec3.le b.maxPos (ts.foldl (fun b tri => tri.verts.foldl load_bounds_vertex b) b).maxPos ∧
    ∀ tri ∈ ts, ∀ v ∈ tri.verts,
      vec3.le (ts.foldl (fun b tri => tri.verts.foldl load_bounds_vertex b) b).minPos v ∧
      vec3.le v (ts.foldl (fun b tri => tri.verts.foldl load_bounds_vertex b) b).maxPos := by
  induction ts generalizing b with
  | nil => simp [vec3.le]
  | cons a l ih =>
    obtain ⟨i1, i2, i3⟩ := ih (a.verts.foldl load_bounds_vertex b)
    obtain ⟨s1, s2, s3⟩ := foldl_vertex_spec a.verts b
    simp only [List.foldl_cons, List.mem_cons, forall_eq_or_imp]
    unfold vec3.le at *
    refine ⟨?_, ?_, ?_, i3⟩
    · exact ⟨by linarith, by linarith, by linarith⟩
    · exact ⟨by linarith, by linarith, by linarith⟩
    · intro v hv
      have := s3 v hv
      exact ⟨⟨by linarith, by linarith, by linarith⟩, ⟨by linarith, by linarith, by linarith⟩⟩

/-! ### The root split -/

theorem best_split_inv (P : Platform) (l r : Sweep) (xs : List Nat) (best : ℚ × Int)
    (hx : ∀ i ∈ xs, i < 15)
    (hb : (best.2 = -1 ∧ best.1 = FLT_MAX) ∨ (0 ≤ best.2 ∧ best.2 ≤ 14 ∧ best.1 < FLT_MAX)) :
    ((xs.foldl (fun (best : ℚ × Int) i =>
        if split_cost P l r i < best.1 then (split_cost P l r i, (i : Int)) else best) best).2
        = -1 ∧
      (xs.foldl (fun (best : ℚ × Int) i =>
        if split_cost P l r i < best.1 then (split_cost P l r i, (i : Int)) else best) best).1
        = FLT_MAX) ∨
    (0 ≤ (xs.foldl (fun (best : ℚ × Int) i =>
        if split_cost P l r i < best.1 then (split_cost P l r i, (i : Int)) else best) best).2 ∧
      (xs.foldl (fun (best : ℚ × Int) i =>
        if split_cost P l r i < best.1 then (split_cost P l r i, (i : Int)) else best) best).2
        ≤ 14 ∧
      (xs.foldl (fun (best : ℚ × Int) i =>
        if split_cost P l r i < best.1 then (split_cost P l r i, (i : Int)) else best) best).1
        < FLT_MAX) := by
  induction xs generalizing best with
  | nil => exact hb
  | cons a xs ih =>
    simp only [List.foldl_cons]
    refine ih _ (fun i hi => hx i (List.mem_cons_of_mem _ hi)) ?_
    have ha := hx a (List.mem_cons_self _ _)
    by_cases hc : split_cost P l r a < best.1
    · rw [if_pos hc]
      right
      refine ⟨by simp, by simp only []; omega, ?_⟩
      rcases hb with ⟨_, h2⟩ | ⟨_, _, h2⟩
      · rw [h2] at hc; exact hc
      · exact lt_trans hc h2
    · rw [if_neg hc]; exact hb

theorem best_split_spec (P : Platform) (l r : Sweep) :
    ((best_split P l r).2 = -1 ∧ (best_split P l r).1 = FLT_MAX) ∨
    (0 ≤ (best_split P l r).2 ∧ (best_split P l r).2 ≤ 14 ∧ (best_split P l r).1 < FLT_MAX) := by
  unfold best_split
  exact best_split_inv P l r _ _ (fun i hi => by
    have : BVH_BINS - 1 = 15 := rfl
    rw [this, List.mem_range] at hi; exact hi) (Or.inl ⟨rfl, rfl⟩)

theorem split_candidate_root (P : Platform) (obj : Object)
    (hext : lit_1em4 ≤ root_extent obj)
    (hcost : (root_best P obj).1 < root_leaf_cost P obj) :
    split_candidate P obj (List.range obj.mesh.length)
        (refit_node obj (List.range obj.mesh.length) (root_init obj))
      = some (partition_pred P obj (root_axis obj) (root_centroids obj).1
          (bin_scale P (root_extent obj)) (root_best P obj).2) := by
  show (if root_extent obj < lit_1em4 then none
    else if (root_best P obj).1 ≥ root_leaf_cost P obj then none
    else some (partition_pred P obj (root_axis obj) (root_centroids obj).1
          (bin_scale P (root_extent obj)) (root_best P obj).2)) = _
  rw [if_neg (not_lt.2 hext), if_neg (not_le.2 hcost)]

theorem partition_pred_low (P : Platform) (obj : Object) (axis : Nat) (cMin : u16vec3)
    (scale : ℚ) (splitIdx : Int) (idx : Nat) (hs : 0 ≤ splitIdx)
    (h : bin_raw P axis cMin scale (obj.mesh.getD idx CachedTriangle.zero) ≤ 0) :
    partition_pred P obj axis cMin scale splitIdx idx = true := by
  unfold partition_pred
  simp only [decide_eq_true_eq]
  have : (BVH_BINS : Int) = 16 := rfl
  rw [this]
  omega

theorem partition_pred_high (P : Platform) (obj : Object) (axis : Nat) (cMin : u16vec3)
    (scale : ℚ) (splitIdx : Int) (idx : Nat) (hs : splitIdx ≤ 14)
    (h : 15 ≤ bin_raw P axis cMin scale (obj.mesh.getD idx CachedTriangle.zero)) :
    partition_pred P obj axis cMin scale splitIdx idx = false := by
  unfold partition_pred
  simp only [decide_eq_false_iff_not]
  have : (BVH_BINS : Int) = 16 := rfl
  rw [this]
  omega

theorem filter_two_groups (pred : Nat → Bool) (A B l : List Nat) (hAB : (A ++ B).Perm l)
    (hA : ∀ i ∈ A, pred i = true) (hB : ∀ i ∈ B, pred i = false) :
    (l.filter pred).Perm A ∧ (l.filter (fun a => !pred a)).Perm B := by
  constructor
  · refine (hAB.filter pred).symm.trans ?_
    rw [List.filter_append, List.filter_eq_self.2 hA,
      List.filter_eq_nil_iff.2 (fun a ha => by simp [hB a ha]), List.append_nil]
  · refine (hAB.filter _).symm.trans ?_
    rw [List.filter_append, List.filter_eq_nil_iff.2 (fun a ha => by simp [hA a ha]),
      List.filter_eq_self.2 (fun a ha => by simp [hB a ha]), List.nil_append]

theorem partition_range_full (P : Platform) (pred : Nat → Bool) (n : Nat) :
    (partition_range P pred (List.range n) 0 n).1
      = (P.partition.run pred (List.range n)).1 ++ (P.partition.run pred (List.range n)).2 := by
  have hsl : slice (List.range n) 0 n = List.range n := by simp [slice]
  unfold partition_range
  rw [hsl]
  simp

theorem slice_append_left (a b : List Nat) (k : Nat) (hk : a.length = k) :
    slice (a ++ b) 0 k = a := by
  subst hk; simp [slice]

theorem slice_append_right (a b : List Nat) (k j : Nat) (hk : a.length = k)
    (hj : b.length = j) : slice (a ++ b) (0 + k) j = b := by
  subst hk; subst hj; simp [slice]

/-- The root call on a cache whose triangles fall into the first and the last bin. -/
theorem build_two_groups (P : Platform) (obj : Object) (A B : List Nat)
    (out_indices : List Nat) (out_nodes : List BVHNode)
    (hn : 3 ≤ obj.mesh.length) (hA : A ≠ []) (hB : B ≠ [])
    (hAB : (A ++ B).Perm (List.range obj.mesh.length))
    (hext : lit_1em4 ≤ root_extent obj)
    (binA : ∀ i ∈ A, root_bin P obj i ≤ 0) (binB : ∀ i ∈ B, 15 ≤ root_bin P obj i)
    (hcost : (root_best P obj).1 < root_leaf_cost P obj)
    (hfin : root_leaf_cost P obj ≤ FLT_MAX) :
    ∃ r, build_bvh P obj out_indices out_nodes = some r ∧
      (nodeAt r.out_nodes 0).triCount = 0 ∧ (nodeAt r.out_nodes 0).leftFirst = 1 ∧
      HasSpan r.out_nodes 1 (Finset.Ico 0 A.length) ∧
      HasSpan r.out_nodes 2 (Finset.Ico A.length obj.mesh.length) ∧
      (∀ p, p < A.length → r.out_indices.getD p 0 ∈ A) ∧
      (∀ p, A.length ≤ p → p < obj.mesh.length → r.out_indices.getD p 0 ∈ B) := by
  have he : obj.mesh.isEmpty = false := by
    cases hm : obj.mesh with
    | nil => rw [hm] at hn; simp at hn
    | cons a l => rfl
  have hlenAB : A.length + B.length = obj.mesh.length := by
    have := hAB.length_eq
    simpa using this
  have hAl : 0 < A.length := List.length_pos.2 hA
  have hBl : 0 < B.length := List.length_pos.2 hB
  -- the chosen boundary
  have hidx : 0 ≤ (root_best P obj).2 ∧ (root_best P obj).2 ≤ 14 := by
    rcases best_split_spec P (left_sweep P (root_bins P obj)) (right_sweep P (root_bins P obj))
      with ⟨_, h2⟩ | ⟨h1, h2, _⟩
    · exfalso
      have h2' : (root_best P obj).1 = FLT_MAX := h2
      rw [h2'] at hcost
      exact absurd (lt_of_lt_of_le hcost hfin) (lt_irrefl _)
    · exact ⟨h1, h2⟩
  -- the predicate separates the two groups
  have hpA : ∀ i ∈ A, partition_pred P obj (root_axis obj) (root_centroids obj).1
      (bin_scale P (root_extent obj)) (root_best P obj).2 i = true :=
    fun i hi => partition_pred_low P obj _ _ _ _ i hidx.1 (binA i hi)
  have hpB : ∀ i ∈ B, partition_pred P obj (root_axis obj) (root_centroids obj).1
      (bin_scale P (root_extent obj)) (root_best P obj).2 i = false :=
    fun i hi => partition_pred_high P obj _ _ _ _ i hidx.2 (binB i hi)
  obtain ⟨fA, fB⟩ := filter_two_groups _ A B _ hAB hpA hpB
  have hsl : slice (List.range obj.mesh.length) 0 obj.mesh.length
      = List.range obj.mesh.length := by simp [slice]
  have hfront := (P.partition.front (partition_pred P obj (root_axis obj) (root_centroids obj).1
      (bin_scale P (root_extent obj)) (root_best P obj).2)
      (List.range obj.mesh.length)).trans fA
  have hback := (P.partition.back (partition_pred P obj (root_axis obj) (root_centroids obj).1
      (bin_scale P (root_extent obj)) (root_best P obj).2)
      (List.range obj.mesh.length)).trans fB
  -- lines 57-147 at the root
  have hdec : split_decide P obj (List.range obj.mesh.length) 0
      (refit_node obj (List.range obj.mesh.length) (root_init obj)) 0
      = ((partition_range P (partition_pred P obj (root_axis obj) (root_centroids obj).1
          (bin_scale P (root_extent obj)) (root_best P obj).2)
          (List.range obj.mesh.length) 0 obj.mesh.length).1, 0, some A.length) := by
    unfold split_decide
    have c1 : ¬ (0 ≥ MAX_DEPTH ∨
        (refit_node obj (List.range obj.mesh.length) (root_init obj)).triCount
          ≤ MIN_TRIANGLES_PER_LEAF) := by
      have : (refit_node obj (List.range obj.mesh.length) (root_init obj)).triCount
          = obj.mesh.length := rfl
      rw [this]
      have : MAX_DEPTH = 32 := rfl
      have : MIN_TRIANGLES_PER_LEAF = 2 := rfl
      omega
    rw [if_neg c1, split_candidate_root P obj hext hcost]
    simp only []
    have e1 : (refit_node obj (List.range obj.mesh.length) (root_init obj)).leftFirst = 0 := rfl
    have e2 : (refit_node obj (List.range obj.mesh.length) (root_init obj)).triCount
        = obj.mesh.length := rfl
    rw [e1, e2]
    have e3 : (partition_range P (partition_pred P obj (root_axis obj) (root_centroids obj).1
          (bin_scale P (root_extent obj)) (root_best P obj).2)
          (List.range obj.mesh.length) 0 obj.mesh.length).2 = A.length := by
      unfold partition_range
      simp only [hsl]
      exact hfront.length_eq
    rw [e3, if_neg (by omega)]
    simp
  obtain ⟨st', e, post, hook⟩ := split_step P obj MAX_DEPTH (split_spec P obj MAX_DEPTH) 0
    ⟨List.range obj.mesh.length,
      [BVHNode.fresh].set 0
        { nodeAt [BVHNode.fresh] 0 with leftFirst := 0, triCount := obj.mesh.length }, 0⟩
    0 0 obj.mesh.length (by omega) (by omega) (by simp) rfl rfl (by omega) (by simp)
  obtain ⟨k1, k2, k3, k4, m, tl, tr⟩ := hook _ _ _ hdec
  refine ⟨⟨obj, st'.indices, st'.nodes, st'.max_depth⟩, ?_, k1, k2, ?_, ?_, ?_, ?_⟩
  · unfold build_bvh build_bvh_fuel
    rw [he]
    simp only [Bool.false_eq_true, if_false]
    rw [e]
  · have := tl.hasSpan
    simpa using this
  · have := tr.hasSpan
    have e4 : 0 + A.length + (obj.mesh.length - A.length) = obj.mesh.length := by omega
    rw [e4] at this
    simpa using this
  · intro p hp
    have hil : st'.indices.length = obj.mesh.length := by
      have := post.ilen
      simpa using this
    have m1 := mem_slice_of_pos st'.indices 0 A.length p (by omega) (by omega) (by omega)
    have m2 := k3.mem_iff.1 m1
    have e5 := slice_append_left _ (P.partition.run (partition_pred P obj (root_axis obj)
        (root_centroids obj).1 (bin_scale P (root_extent obj)) (root_best P obj).2)
        (List.range obj.mesh.length)).2 A.length hfront.length_eq
    rw [partition_range_full] at m2
    rw [e5] at m2
    exact hfront.mem_iff.1 m2
  · intro p hp1 hp2
    have hil : st'.indices.length = obj.mesh.length := by
      have := post.ilen
      simpa using this
    have m1 := mem_slice_of_pos st'.indices (0 + A.length) (obj.mesh.length - A.length) p
      (by omega) (by omega) (by omega)
    have m2 := k4.mem_iff.1 m1
    have hbl := hback.length_eq
    have e5 := slice_append_right (P.partition.run (partition_pred P obj (root_axis obj)
        (root_centroids obj).1 (bin_scale P (root_extent obj)) (root_best P obj).2)
        (List.range obj.mesh.length)).1 (P.partition.run (partition_pred P obj (root_axis obj)
        (root_centroids obj).1 (bin_scale P (root_extent obj)) (root_best P obj).2)
        (List.range obj.mesh.length)).2 A.length (obj.mesh.length - A.length)
        hfront.length_eq (by omega)
    rw [partition_range_full] at m2
    rw [e5] at m2
    exact hback.mem_iff.1 m2

theorem cache_of_mesh_length (P : Platform) (triangles : List Triangle)
    (h : triangles ≠ []) : (cache_of P triangles).mesh.length = triangles.length := by
  have he : triangles.isEmpty = false := by
    cases triangles with
    | nil => exact absurd rfl h
    | cons a l => rfl
  unfold cache_of load_cache
  rw [he]
  simp

/-! ### The loader: local boxes -/

theorem update_min_max_val (b : vec3 × vec3) (v : vec3) :
    update_min_max b v = (vec3.cmin b.1 v, vec3.cmax b.2 v) := by
  obtain ⟨⟨a1, a2, a3⟩, ⟨c1, c2, c3⟩⟩ := b
  obtain ⟨v1, v2, v3⟩ := v
  unfold update_min_max vec3.cmin vec3.cmax
  simp only [Prod.mk.injEq, vec3.mk.injEq]
  refine ⟨?_, ?_⟩
  · split_ifs <;> simp only [vec3.mk.injEq] <;> refine ⟨?_, ?_, ?_⟩ <;>
      simp only [min_def] <;> split_ifs <;> linarith
  · split_ifs <;> simp only [vec3.mk.injEq] <;> refine ⟨?_, ?_, ?_⟩ <;>
      simp only [max_def] <;> split_ifs <;> linarith

/-! ### The fold of `load_bounds` attains its bounds -/

theorem foldl_attained {β α : Type} (f : β → α → β) (π : β → ℚ) (R : α → ℚ → Prop)
    (hstep : ∀ b a, π (f b a) = π b ∨ R a (π (f b a))) (l : List α) (b : β) :
    π (l.foldl f b) = π b ∨ ∃ a ∈ l, R a (π (l.foldl f b)) := by
  induction l using List.reverseRecOn with
  | nil => exact Or.inl rfl
  | append_singleton l a ih =>
    rw [List.foldl_append]
    simp only [List.foldl_cons, List.foldl_nil]
    rcases hstep (l.foldl f b) a with h | h
    · rcases ih with h2 | ⟨a2, m, h2⟩
      · exact Or.inl (h.trans h2)
      · exact Or.inr ⟨a2, by simp [m], by rw [h]; exact h2⟩
    · exact Or.inr ⟨a, by simp, h⟩

theorem load_bounds_vertex_attained (b : MeshBounds) (v : vec3) :
    ((load_bounds_vertex b v).minPos.x = b.minPos.x ∨ (load_bounds_vertex b v).minPos.x = v.x) ∧
    ((load_bounds_vertex b v).minPos.y = b.minPos.y ∨ (load_bounds_vertex b v).minPos.y = v.y) ∧
    ((load_bounds_vertex b v).minPos.z = b.minPos.z ∨ (load_bounds_vertex b v).minPos.z = v.z) ∧
    ((load_bounds_vertex b v).maxPos.x = b.maxPos.x ∨ (load_bounds_vertex b v).maxPos.x = v.x) ∧
    ((load_bounds_vertex b v).maxPos.y = b.maxPos.y ∨ (load_bounds_vertex b v).maxPos.y = v.y) ∧
    ((load_bounds_vertex b v).maxPos.z = b.maxPos.z ∨ (load_bounds_vertex b v).maxPos.z = v.z) := by
  unfold load_bounds_vertex
  simp only []
  refine ⟨?_, ?_, ?_, ?_, ?_, ?_⟩ <;> split_ifs <;> simp

/-- The fold of `load_bounds` over the triangles: each coordinate of the result is the
initial one or a coordinate of some input vertex. -/
theorem foldl_triangles_attained (π : MeshBounds → ℚ) (κ : vec3 → ℚ)
    (hstep : ∀ b v, π (load_bounds_vertex b v) = π b ∨ π (load_bounds_vertex b v) = κ v)
    (ts : List Triangle) (b : MeshBounds) :
    π (ts.foldl (fun b tri => tri.verts.foldl load_bounds_vertex b) b) = π b ∨
    ∃ tri ∈ ts, ∃ v ∈ tri.verts,
      π (ts.foldl (fun b tri => tri.verts.foldl load_bounds_vertex b) b) = κ v :=
  foldl_attained (fun b (tri : Triangle) => tri.verts.foldl load_bounds_vertex b) π
    (fun tri q => ∃ v ∈ tri.verts, q = κ v)
    (fun b tri => foldl_attained load_bounds_vertex π (fun v q => q = κ v) hstep tri.verts b)
    ts b

/-! ### Identical centroids -/

theorem grow_bounds_self (c : u16vec3) : grow_bounds c c c = (c, c) := by
  unfold grow_bounds
  simp

theorem grow_bounds_init (c : u16vec3) :
    grow_bounds u16vec3.top u16vec3.zero c = (c, c) := by
  have h := grow_bounds_val u16vec3.top u16vec3.zero c
  generalize grow_bounds u16vec3.top u16vec3.zero c = r at h
  obtain ⟨⟨a1, a2, a3⟩, ⟨b1, b2, b3⟩⟩ := r
  obtain ⟨x, y, z⟩ := c
  have hx := x.isLt
  have hy := y.isLt
  have hz := z.isLt
  have t : (65535 : Fin 65536).val = 65535 := rfl
  have o : (0 : Fin 65536).val = 0 := rfl
  simp only [u16vec3.top, u16vec3.zero, t, o] at h
  obtain ⟨h1, h2, h3, h4, h5, h6⟩ := h
  simp only [Prod.mk.injEq, u16vec3.mk.injEq]
  refine ⟨⟨?_, ?_, ?_⟩, ⟨?_, ?_, ?_⟩⟩ <;> apply Fin.ext <;> omega

theorem foldl_grow_const (f : Nat → u16vec3) (c : u16vec3) (l : List Nat)
    (h : ∀ i ∈ l, f i = c) :
    l.foldl (fun (b : u16vec3 × u16vec3) i => grow_bounds b.1 b.2 (f i)) (c, c) = (c, c) := by
  induction l with
  | nil => rfl
  | cons a l ih =>
    simp only [List.foldl_cons]
    rw [h a (by simp), grow_bounds_self]
    exact ih (fun i hi => h i (by simp [hi]))

theorem centroid_bounds_const (obj : Object) (indices : List Nat) (lo n : Nat) (c : u16vec3)
    (hn : 1 ≤ n) (hc : ∀ i, i < n → (triAt obj indices (lo + i)).centroid = c) :
    centroid_bounds obj indices lo n = (c, c) := by
  unfold centroid_bounds
  obtain ⟨m, rfl⟩ : ∃ m, n = m + 1 := ⟨n - 1, by omega⟩
  rw [List.range_succ_eq_map]
  simp only [List.foldl_cons]
  rw [hc 0 (by omega), grow_bounds_init]
  exact foldl_grow_const (fun i => (triAt obj indices (lo + i)).centroid) c _
    (fun i hi => by
      simp only [List.mem_map, List.mem_range] at hi
      obtain ⟨j, hj, rfl⟩ := hi
      exact hc _ (by omega))

theorem choose_axis_self (c : u16vec3) : choose_axis c c = 0 := by
  unfold choose_axis
  simp

theorem axis_extent_small (axis : Nat) (cMin cMax : u16vec3) :
    axis_extent axis cMin cMax < lit_1em4 ↔ axis_val axis cMax ≤ axis_val axis cMin := by
  unfold axis_extent lit_1em4
  constructor
  · intro h
    by_contra hn
    have h1 : (1 : Int) ≤ axis_val axis cMax - axis_val axis cMin := by omega
    have h2 : (1 : ℚ) ≤ ((axis_val axis cMax - axis_val axis cMin : Int) : ℚ) := by
      exact_mod_cast h1
    have : (13743895 / 2 ^ 37 : ℚ) < 1 := by norm_num
    linarith
  · intro h
    have h1 : axis_val axis cMax - axis_val axis cMin ≤ (0 : Int) := by omega
    have h2 : ((axis_val axis cMax - axis_val axis cMin : Int) : ℚ) ≤ 0 := by
      exact_mod_cast h1
    have : (0 : ℚ) < 13743895 / 2 ^ 37 := by norm_num
    linarith

theorem split_candidate_thin (P : Platform) (obj : Object) (indices : List Nat)
    (node : BVHNode)
    (h : axis_extent
        (choose_axis (centroid_bounds obj indices node.leftFirst node.triCount).1
          (centroid_bounds obj indices node.leftFirst node.triCount).2)
        (centroid_bounds obj indices node.leftFirst node.triCount).1
        (centroid_bounds obj indices node.leftFirst node.triCount).2 < lit_1em4) :
    split_candidate P obj indices node = none := by
  show (if axis_extent
        (choose_axis (centroid_bounds obj indices node.leftFirst node.triCount).1
          (centroid_bounds obj indices node.leftFirst node.triCount).2)
        (centroid_bounds obj indices node.leftFirst node.triCount).1
        (centroid_bounds obj indices node.leftFirst node.triCount).2 < lit_1em4 then none
      else _) = none
  rw [if_pos h]

theorem split_no_candidate (P : Platform) (obj : Object) (fuel nodeIdx : Nat)
    (st : BuildState) (depth : Nat)
    (h : split_candidate P obj st.indices
      (refit_node obj st.indices (nodeAt st.nodes nodeIdx)) = none) :
    ∃ md, split_bvh_node P obj (fuel + 1) nodeIdx st depth =
      some ⟨st.indices,
        st.nodes.set nodeIdx (refit_node obj st.indices (nodeAt st.nodes nodeIdx)), md⟩ := by
  have e : ∃ md, split_decide P obj st.indices st.max_depth
      (refit_node obj st.indices (nodeAt st.nodes nodeIdx)) depth
      = (st.indices, md, none) := by
    unfold split_decide
    by_cases h1 : depth ≥ MAX_DEPTH ∨
        (refit_node obj st.indices (nodeAt st.nodes nodeIdx)).triCount
          ≤ MIN_TRIANGLES_PER_LEAF
    · rw [if_pos h1]; exact ⟨_, rfl⟩
    · rw [if_neg h1, h]; exact ⟨_, rfl⟩
  obtain ⟨md, e⟩ := e
  refine ⟨md, ?_⟩
  rw [split_bvh_node]
  simp only [e]

/-! ### The aliased call of line 90 and the root call on identical centroids -/

theorem grow_bounds_same_val (m p : u16vec3) :
    (grow_bounds_same m p).x.val = p.x.val ∧ (grow_bounds_same m p).y.val = p.y.val ∧
    (grow_bounds_same m p).z.val = p.z.val := by
  have e : grow_bounds_same m p = (grow_bounds m (grow_bounds m m p).1 p).2 := rfl
  obtain ⟨a1, a2, a3, _, _, _⟩ := grow_bounds_val m m p
  obtain ⟨_, _, _, b1, b2, b3⟩ := grow_bounds_val m (grow_bounds m m p).1 p
  rw [e, b1, b2, b3, a1, a2, a3]
  omega

/-- The aliased call of line 90 overwrites the vector with the point. -/
theorem grow_bounds_same_eq (m p : u16vec3) : grow_bounds_same m p = p := by
  have h := grow_bounds_same_val m p
  generalize grow_bounds_same m p = r at h
  obtain ⟨r1, r2, r3⟩ := r
  obtain ⟨p1, p2, p3⟩ := p
  obtain ⟨h1, h2, h3⟩ := h
  simp only [u16vec3.mk.injEq]
  exact ⟨Fin.ext h1, Fin.ext h2, Fin.ext h3⟩

theorem bin_add_max (b : Bin) (tri : CachedTriangle) : (bin_add b tri).max = tri.max :=
  grow_bounds_same_eq _ _

theorem root_call_leaf (P : Platform) (obj : Object) (c : u16vec3)
    (hn : 1 ≤ obj.mesh.length) (hc : ∀ t ∈ obj.mesh, t.centroid = c) :
    root_centroids obj = (c, c) ∧
    ∀ fuel, ∃ md, split_bvh_node P obj (fuel + 1) 0
      ⟨List.range obj.mesh.length,
        [BVHNode.fresh].set 0
          { nodeAt [BVHNode.fresh] 0 with leftFirst := 0, triCount := obj.mesh.length }, 0⟩ 0
      = some ⟨List.range obj.mesh.length,
          [refit_node obj (List.range obj.mesh.length)
            { BVHNode.fresh with leftFirst := 0, triCount := obj.mesh.length }], md⟩ := by
  have hcb : centroid_bounds obj (List.range obj.mesh.length) 0 obj.mesh.length = (c, c) := by
    apply centroid_bounds_const obj _ 0 _ c hn
    intro i hi
    apply hc
    unfold triAt
    have e : (List.range obj.mesh.length).getD i 0 = i := by
      rw [List.getD_eq_getElem _ _ (by simpa using hi), List.getElem_range]
    rw [Nat.zero_add, e, List.getD_eq_getElem _ _ hi]
    exact List.getElem_mem _
  refine ⟨hcb, fun fuel => ?_⟩
  obtain ⟨md, h⟩ := split_no_candidate P obj fuel 0
    ⟨List.range obj.mesh.length,
        [BVHNode.fresh].set 0
          { nodeAt [BVHNode.fresh] 0 with leftFirst := 0, triCount := obj.mesh.length }, 0⟩ 0
    (by
      apply split_candidate_thin
      show axis_extent
        (choose_axis (centroid_bounds obj (List.range obj.mesh.length) 0 obj.mesh.length).1
          (centroid_bounds obj (List.range obj.mesh.length) 0 obj.mesh.length).2)
        (centroid_bounds obj (List.range obj.mesh.length) 0 obj.mesh.length).1
        (centroid_bounds obj (List.range obj.mesh.length) 0 obj.mesh.length).2 < lit_1em4
      rw [hcb]
      exact (axis_extent_small _ c c).2 (le_refl _))
  exact ⟨md, h⟩

/-! ### The error of binary32 rounding -/

theorem round_half_even_error (x : ℚ) : |(round_half_even x : ℚ) - x| ≤ 1 / 2 := by
  have h1 := Int.floor_le x
  have h2 := Int.lt_floor_add_one x
  unfold round_half_even
  simp only []
  rw [abs_le]
  split_ifs with a b c
  · constructor <;> linarith
  · push_cast; constructor <;> linarith
  · constructor <;> linarith
  · push_cast; constructor <;> linarith

theorem f32_mag_error (a : ℚ) : |f32_mag a - a| ≤ f32_ulp a / 2 := by
  have hu := f32_ulp_pos a
  have e : f32_mag a - a
      = ((round_half_even (a / f32_ulp a) : ℚ) - a / f32_ulp a) * f32_ulp a := by
    unfold f32_mag
    field_simp
  rw [e, abs_mul, abs_of_pos hu]
  have := round_half_even_error (a / f32_ulp a)
  nlinarith

theorem f32_ulp_le (a : ℚ) (ha : 0 < a) : f32_ulp a ≤ a / 2 ^ 23 + 1 / 2 ^ 149 := by
  unfold f32_ulp
  have s1 := (log2_rat_spec a ha).1
  by_cases h : -126 ≤ log2_rat a
  · rw [max_eq_left h, zpow_sub₀ (by norm_num)]
    have e : (2 : ℚ) ^ (23 : ℤ) = 2 ^ 23 := by norm_num
    rw [e]
    have : (2 : ℚ) ^ log2_rat a / 2 ^ 23 ≤ a / 2 ^ 23 :=
      div_le_div_of_nonneg_right s1 (by norm_num)
    have : (0 : ℚ) ≤ 1 / 2 ^ 149 := by positivity
    linarith
  · rw [max_eq_right (by omega)]
    have e : (2 : ℚ) ^ ((-126 : ℤ) - 23) = 1 / 2 ^ 149 := by
      rw [show ((-126 : ℤ) - 23) = -(149 : ℤ) by norm_num, zpow_neg]
      norm_num
    rw [e]
    have : (0 : ℚ) ≤ a / 2 ^ 23 := by positivity
    linarith

/-- Binary32 rounding: relative error at most `2 ^ -24`, up to the absolute error
`2 ^ -150` of the subnormal range. -/
theorem f32_round_error (x : ℚ) : |f32_round x - x| ≤ 1 / 2 ^ 24 * |x| + 1 / 2 ^ 150 := by
  unfold f32_round
  by_cases h0 : x = 0
  · rw [if_pos h0, h0]; norm_num
  · rw [if_neg h0]
    by_cases hneg : x < 0
    · rw [if_pos hneg, abs_of_neg hneg]
      have h1 := f32_mag_error (-x)
      have h2 := f32_ulp_le (-x) (by linarith)
      have e : -f32_mag (-x) - x = -(f32_mag (-x) - -x) := by ring
      rw [e, abs_neg]
      linarith
    · rw [if_neg hneg]
      have hpos : 0 < x := lt_of_le_of_ne (not_lt.1 hneg) (Ne.symm h0)
      rw [abs_of_pos hpos]
      have h1 := f32_mag_error x
      have h2 := f32_ulp_le x hpos
      linarith

theorem f32_ulp_grid (a : ℚ) : ∃ n : Nat, f32_ulp a = (2 : ℚ) ^ n * (1 / 2 ^ 149) := by
  unfold f32_ulp
  have h : (0 : Int) ≤ max (log2_rat a) (-126) - 23 + 149 := by
    have := le_max_right (log2_rat a) (-126)
    omega
  refine ⟨(max (log2_rat a) (-126) - 23 + 149).toNat, ?_⟩
  have e : (2 : ℚ) ^ (max (log2_rat a) (-126) - 23 + 149).toNat
      = (2 : ℚ) ^ (max (log2_rat a) (-126) - 23 + 149) := by
    rw [← zpow_natCast, Int.toNat_of_nonneg h]
  have e2 : (1 : ℚ) / 2 ^ 149 = (2 : ℚ) ^ (-149 : ℤ) := by
    rw [zpow_neg]; norm_num
  rw [e, e2, ← zpow_add₀ (by norm_num)]
  congr 1
  ring

theorem f32_mag_grid (a : ℚ) : ∃ k : Int, f32_mag a = (k : ℚ) * (1 / 2 ^ 149) := by
  obtain ⟨n, hn⟩ := f32_ulp_grid a
  refine ⟨round_half_even (a / f32_ulp a) * 2 ^ n, ?_⟩
  unfold f32_mag
  rw [hn]
  push_cast
  ring

/-- Every binary32 value is an integer multiple of `2 ^ -149`. -/
theorem is_f32_grid (q : ℚ) (h : is_f32 q) : ∃ k : Int, q = (k : ℚ) * (1 / 2 ^ 149) := by
  unfold is_f32 f32_round at h
  by_cases h0 : q = 0
  · exact ⟨0, by rw [h0]; simp⟩
  · rw [if_neg h0] at h
    by_cases hneg : q < 0
    · rw [if_pos hneg] at h
      obtain ⟨k, hk⟩ := f32_mag_grid (-q)
      refine ⟨-k, ?_⟩
      rw [← h, hk]
      push_cast
      ring
    · rw [if_neg hneg] at h
      obtain ⟨k, hk⟩ := f32_mag_grid q
      exact ⟨k, by rw [← h]; exact hk⟩

theorem f32_mag_small (k : Int) (hk : 0 < k) (hs : (k : ℚ) * (1 / 2 ^ 149) < (2 : ℚ) ^ (-126 : ℤ)) :
    f32_mag ((k : ℚ) * (1 / 2 ^ 149)) = (k : ℚ) * (1 / 2 ^ 149) := by
  have hpos : (0 : ℚ) < (k : ℚ) * (1 / 2 ^ 149) := by
    have : (0 : ℚ) < (k : ℚ) := by exact_mod_cast hk
    positivity
  have s1 := (log2_rat_spec _ hpos).1
  have hl : log2_rat ((k : ℚ) * (1 / 2 ^ 149)) < -126 := by
    by_contra hc
    have := two_zpow_le (not_lt.1 hc)
    linarith
  have hu : f32_ulp ((k : ℚ) * (1 / 2 ^ 149)) = 1 / 2 ^ 149 := by
    unfold f32_ulp
    rw [max_eq_right (by omega), show ((-126 : ℤ) - 23) = -(149 : ℤ) by norm_num, zpow_neg]
    norm_num
  unfold f32_mag
  rw [hu]
  have e : (k : ℚ) * (1 / 2 ^ 149) / (1 / 2 ^ 149) = (k : ℚ) := by
    field_simp
  rw [e, round_half_even_int]

/-- A multiple of `2 ^ -149` below `2 ^ -126` in magnitude is a binary32 value. -/
theorem f32_round_small (k : Int) (hs : |(k : ℚ) * (1 / 2 ^ 149)| < (2 : ℚ) ^ (-126 : ℤ)) :
    f32_round ((k : ℚ) * (1 / 2 ^ 149)) = (k : ℚ) * (1 / 2 ^ 149) := by
  have hp : (0 : ℚ) < 1 / 2 ^ 149 := by positivity
  unfold f32_round
  rcases lt_trichotomy k 0 with h | h | h
  · have hk : ((k : ℚ)) < 0 := by exact_mod_cast h
    have hneg : (k : ℚ) * (1 / 2 ^ 149) < 0 := mul_neg_of_neg_of_pos hk hp
    rw [if_neg (ne_of_lt hneg), if_pos hneg]
    rw [abs_of_neg hneg] at hs
    have e : -((k : ℚ) * (1 / 2 ^ 149)) = ((-k : Int) : ℚ) * (1 / 2 ^ 149) := by
      push_cast; ring
    rw [e] at hs ⊢
    rw [f32_mag_small (-k) (by omega) hs]
    push_cast
    ring
  · rw [h]; simp
  · have hk : (0 : ℚ) < (k : ℚ) := by exact_mod_cast h
    have hpos : 0 < (k : ℚ) * (1 / 2 ^ 149) := mul_pos hk hp
    rw [if_neg (ne_of_gt hpos), if_neg (not_lt.2 (le_of_lt hpos))]
    rw [abs_of_pos hpos] at hs
    exact f32_mag_small k h hs

theorem f32_round_error_normal (x : ℚ) (hx : (2 : ℚ) ^ (-126 : ℤ) ≤ |x|) :
    |f32_round x - x| ≤ 1 / 2 ^ 24 * |x| := by
  have key : ∀ a : ℚ, 0 < a → (2 : ℚ) ^ (-126 : ℤ) ≤ a → |f32_mag a - a| ≤ 1 / 2 ^ 24 * a := by
    intro a ha h126
    have s := log2_rat_spec a ha
    have hl : -126 ≤ log2_rat a := by
      by_contra hc
      have : log2_rat a + 1 ≤ -126 := by omega
      have := two_zpow_le this
      linarith [s.2]
    have hu : f32_ulp a ≤ a / 2 ^ 23 := by
      unfold f32_ulp
      rw [max_eq_left hl, zpow_sub₀ (by norm_num)]
      have e : (2 : ℚ) ^ (23 : ℤ) = 2 ^ 23 := by norm_num
      rw [e]
      exact div_le_div_of_nonneg_right s.1 (by norm_num)
    have := f32_mag_error a
    linarith
  have hpos : (0 : ℚ) < (2 : ℚ) ^ (-126 : ℤ) := two_zpow_pos _
  unfold f32_round
  by_cases h0 : x = 0
  · rw [h0] at hx; simp at hx; linarith
  · rw [if_neg h0]
    by_cases hneg : x < 0
    · rw [if_pos hneg]
      rw [abs_of_neg hneg] at hx ⊢
      have e : -f32_mag (-x) - x = -(f32_mag (-x) - -x) := by ring
      rw [e, abs_neg]
      exact key (-x) (by linarith) hx
    · rw [if_neg hneg]
      have hp : 0 < x := lt_of_le_of_ne (not_lt.1 hneg) (Ne.symm h0)
      rw [abs_of_pos hp] at hx ⊢
      exact key x hp hx

/-- The binary32 difference of two binary32 values has relative error at most `2 ^ -24`:
a difference in the subnormal range is exact. -/
theorem f32_sub_error (a b : ℚ) (ha : is_f32 a) (hb : is_f32 b) :
    |f32_round (a - b) - (a - b)| ≤ 1 / 2 ^ 24 * |a - b| := by
  by_cases h : |a - b| < (2 : ℚ) ^ (-126 : ℤ)
  · obtain ⟨k1, h1⟩ := is_f32_grid a ha
    obtain ⟨k2, h2⟩ := is_f32_grid b hb
    have e : a - b = ((k1 - k2 : Int) : ℚ) * (1 / 2 ^ 149) := by
      rw [h1, h2]; push_cast; ring
    rw [e] at h ⊢
    rw [f32_round_small _ h, sub_self, abs_zero]
    positivity
  · exact f32_round_error_normal _ (not_lt.1 h)

/-! ### The quantization error -/

theorem toU16_val (n : Int) (h0 : 0 ≤ n) (h1 : n ≤ 65535) : ((toU16 n).val : Int) = n := by
  unfold toU16
  simp only []
  omega

theorem quantize_axis_eq (P : Platform) (v mn ext : ℚ) :
    quantize_axis P v mn ext = toU16 (quantize_round P v mn ext) := rfl

/-- One axis of the quantization, under a rounding of relative error at most
`ε ≤ 2 ^ -24` and absolute error at most `δ ≤ 2 ^ -20`, when the subtraction `p - mn`
has relative error at most `ε` (as the difference of two floats has): the rounded integer
lies in `[0, 65535]` and is within one unit of the exact position
`65535 * (p - mn) / ext`. -/
theorem quantize_round_bound (P : Platform) (ε δ : ℚ) (hε : ε ≤ 1 / 2 ^ 24)
    (hδ : δ * 2 ^ 20 ≤ 1)
    (hrel : ∀ x, |P.rnd x - x| ≤ ε * |x| + δ)
    (p mn ext : ℚ) (hext : 0 < ext)
    (hsub : |P.rnd (p - mn) - (p - mn)| ≤ ε * |p - mn|)
    (hlo : mn ≤ p) (hhi : p ≤ mn + ext) :
    0 ≤ quantize_round P p mn ext ∧ quantize_round P p mn ext ≤ 65535 ∧
    |mn + (quantize_round P p mn ext : ℚ) / 65535 * ext - p| ≤ ext / 65535 := by
  have hd0 : 0 ≤ p - mn := by linarith
  have hx0 : 0 ≤ (p - mn) / ext := div_nonneg hd0 (le_of_lt hext)
  have hx1 : (p - mn) / ext ≤ 1 := (div_le_one hext).2 (by linarith)
  -- the subtraction
  have a0 := hsub
  rw [abs_of_nonneg hd0] at a0
  have a1 : ε * (p - mn) ≤ 1 / 2 ^ 24 * (p - mn) := mul_le_mul_of_nonneg_right hε hd0
  have a2 : |P.rnd (p - mn) / ext - (p - mn) / ext| ≤ 1 / 2 ^ 24 + 1 / 2 ^ 20 := by
    rw [← sub_div, abs_div, abs_of_pos hext]
    have : |P.rnd (p - mn) - (p - mn)| / ext ≤ 1 / 2 ^ 24 * (p - mn) / ext :=
      div_le_div_of_nonneg_right (by linarith) (le_of_lt hext)
    rw [mul_div_assoc] at this
    nlinarith
  -- the division
  generalize hu : P.rnd (p - mn) / ext = u at a2
  generalize hx : (p - mn) / ext = x at a2 hx0 hx1
  have a3 : |u| ≤ 2 := by
    have := abs_le.1 a2
    rw [abs_le]
    constructor <;> norm_num at this ⊢ <;> linarith
  have a4 := hrel u
  have a5 : ε * |u| ≤ 1 / 2 ^ 24 * 2 := by
    have := mul_le_mul hε a3 (abs_nonneg u) (by norm_num)
    linarith
  have a6 : |P.rnd u - x| ≤ 1 / 2 ^ 18 := by
    have b1 := abs_le.1 a2
    have b2 := abs_le.1 (le_trans a4 (add_le_add_right a5 δ))
    rw [abs_le]
    norm_num at b1 b2 ⊢
    constructor <;> linarith
  -- the clamp
  generalize ht : P.rnd u = t at a6
  have c0 : 0 ≤ max 0 (min t 1) := le_max_left _ _
  have c1 : max 0 (min t 1) ≤ 1 := max_le (by norm_num) (min_le_right _ _)
  have c2 : |max 0 (min t 1) - x| ≤ 1 / 2 ^ 18 := by
    have b := abs_le.1 a6
    rw [abs_le]
    simp only [max_def, min_def]
    split_ifs <;> constructor <;> linarith
  -- the product and the rounding to an integer
  have hq : quantize_round P p mn ext = ⌊P.rnd (max 0 (min t 1) * 65535) + 1 / 2⌋ := by
    unfold quantize_round
    simp only [hu, ht]
  generalize max 0 (min t 1) = c at c0 c1 c2 hq
  have y0 : 0 ≤ c * 65535 := by positivity
  have s0 := hrel (c * 65535)
  rw [abs_of_nonneg y0] at s0
  have s1 : ε * (c * 65535) ≤ 1 / 2 ^ 24 * 65535 := by
    have := mul_le_mul hε (show c * 65535 ≤ 65535 by linarith) y0 (by norm_num)
    linarith
  generalize P.rnd (c * 65535) = s at s0 hq
  have s2 := abs_le.1 (le_trans s0 (add_le_add_right s1 δ))
  have c3 := abs_le.1 c2
  have f1 := Int.floor_le (s + 1 / 2)
  have f2 := Int.lt_floor_add_one (s + 1 / 2)
  rw [← hq] at f1 f2
  have q0 : 0 ≤ quantize_round P p mn ext := by
    rw [hq]
    apply Int.floor_nonneg.2
    norm_num at s2 ⊢
    linarith
  have q1 : quantize_round P p mn ext ≤ 65535 := by
    have : quantize_round P p mn ext < 65536 := by
      rw [hq]
      apply Int.floor_lt.2
      norm_num at s2 ⊢
      linarith
    omega
  refine ⟨q0, q1, ?_⟩
  generalize (quantize_round P p mn ext : ℚ) = q at f1 f2
  have hp : p = mn + x * ext := by
    rw [← hx]
    field_simp
  have e : mn + q / 65535 * ext - p = (q - 65535 * x) * (ext / 65535) := by
    rw [hp]
    ring
  rw [e, abs_mul, abs_of_pos (show 0 < ext / 65535 by positivity)]
  have hq1 : |q - 65535 * x| ≤ 1 := by
    rw [abs_le]
    norm_num at s2 c3 ⊢
    constructor <;> linarith
  exact mul_le_of_le_one_left (by positivity) hq1

/-! ### What the binning loop accumulates -/

theorem bin_add_spec (b : Bin) (tri : CachedTriangle) :
    (bin_add b tri).count = b.count + 1 ∧
    u16vec3.le (bin_add b tri).min b.min ∧ u16vec3.le (bin_add b tri).min tri.min ∧
    (bin_add b tri).max = tri.max := by
  obtain ⟨h1, h2, h3, _, _, _⟩ := grow_bounds_val b.min b.max tri.min
  refine ⟨rfl, ?_, ?_, bin_add_max b tri⟩
  · show u16vec3.le (grow_bounds b.min b.max tri.min).1 b.min
    unfold u16vec3.le
    omega
  · show u16vec3.le (grow_bounds b.min b.max tri.min).1 tri.min
    unfold u16vec3.le
    omega

/-- The binning loop over the positions `l`, with `k i` the bin index and `t i` the
triangle of position `i`: the count of a bin grows by the number of positions mapped to
it, its `min` corner is below the `min` corner of each of their triangles, and its `max`
corner is the `max` corner of the last triangle mapped to it. -/
theorem bins_fold_spec (k : Nat → Int) (t : Nat → CachedTriangle)
    (l : List Nat) (bins0 : List Bin) (h0 : bins0.length = 16) (b : Nat) (hb : b < 16) :
    (l.foldl (fun bins i =>
        if 0 ≤ k i then bins.set (k i).toNat (bin_add (bins.getD (k i).toNat Bin.init) (t i))
        else bins) bins0).length = 16 ∧
    ((l.foldl (fun bins i =>
        if 0 ≤ k i then bins.set (k i).toNat (bin_add (bins.getD (k i).toNat Bin.init) (t i))
        else bins) bins0).getD b Bin.init).count
      = (bins0.getD b Bin.init).count + (l.filter (fun i => decide (k i = (b : Int)))).length ∧
    u16vec3.le ((l.foldl (fun bins i =>
        if 0 ≤ k i then bins.set (k i).toNat (bin_add (bins.getD (k i).toNat Bin.init) (t i))
        else bins) bins0).getD b Bin.init).min (bins0.getD b Bin.init).min ∧
    (∀ i ∈ l, k i = (b : Int) → u16vec3.le ((l.foldl (fun bins i =>
        if 0 ≤ k i then bins.set (k i).toNat (bin_add (bins.getD (k i).toNat Bin.init) (t i))
        else bins) bins0).getD b Bin.init).min (t i).min) ∧
    ((l.foldl (fun bins i =>
        if 0 ≤ k i then bins.set (k i).toNat (bin_add (bins.getD (k i).toNat Bin.init) (t i))
        else bins) bins0).getD b Bin.init).max
      = (((l.filter (fun i => decide (k i = (b : Int)))).getLast?).map
          (fun j => (t j).max)).getD (bins0.getD b Bin.init).max := by
  induction l using List.reverseRecOn with
  | nil => exact ⟨h0, by simp, by simp [u16vec3.le], by simp, by simp⟩
  | append_singleton l a ih =>
    rw [List.foldl_append]
    simp only [List.foldl_cons, List.foldl_nil, List.filter_append, List.length_append]
    generalize l.foldl (fun bins i =>
        if 0 ≤ k i then bins.set (k i).toNat (bin_add (bins.getD (k i).toNat Bin.init) (t i))
        else bins) bins0 = prev at ih
    obtain ⟨i1, i2, i3, i4, i5⟩ := ih
    by_cases hka : k a = (b : Int)
    · have hpos : 0 ≤ k a := by omega
      have hnat : (k a).toNat = b := by omega
      have hf : List.filter (fun i => decide (k i = (b : Int))) [a] = [a] := by
        simp [hka]
      rw [if_pos hpos, hnat, hf]
      have hget : (prev.set b (bin_add (prev.getD b Bin.init) (t a))).getD b Bin.init
          = bin_add (prev.getD b Bin.init) (t a) := by
        rw [List.getD_eq_getElem?_getD, List.getElem?_set_self (by omega)]
        rfl
      rw [hget]
      obtain ⟨s1, s2, s3, s4⟩ := bin_add_spec (prev.getD b Bin.init) (t a)
      refine ⟨by rw [List.length_set]; exact i1, ?_, ?_, ?_, ?_⟩
      · rw [s1, i2]; simp; omega
      · unfold u16vec3.le at *; omega
      · intro i hi hki
        rcases List.mem_append.1 hi with h | h
        · have := i4 i h hki
          unfold u16vec3.le at *; omega
        · simp only [List.mem_singleton] at h
          rw [h]
          exact s3
      · rw [s4, List.getLast?_concat]
        rfl
    · have hf : List.filter (fun i => decide (k i = (b : Int))) [a] = [] := by
        simp [hka]
      rw [hf, List.append_nil]
      have hget : (if 0 ≤ k a then
            prev.set (k a).toNat (bin_add (prev.getD (k a).toNat Bin.init) (t a))
          else prev).getD b Bin.init = prev.getD b Bin.init := by
        split_ifs with hp
        · rw [List.getD_eq_getElem?_getD, List.getElem?_set_ne (by omega),
            ← List.getD_eq_getElem?_getD]
        · rfl
      rw [hget]
      refine ⟨by split_ifs <;> simp [i1], by simpa using i2, i3, ?_, i5⟩
      intro i hi hki
      rcases List.mem_append.1 hi with h | h
      · exact i4 i h hki
      · simp only [List.mem_singleton] at h
        rw [h] at hki
        exact absurd hki hka

/-- The bins of a node after the loop of lines 79-91: each bin holds the number of
triangles of the node mapped to it, a `min` corner below the `min` corner of each of
them, and as `max` corner the `max` corner of the last of them in range order. -/
theorem fill_bins_spec (P : Platform) (obj : Object) (indices : List Nat)
    (leftFirst triCount axis : Nat) (cMin : u16vec3) (scale : ℚ) (b : Nat) (hb : b < 16) :
    ((fill_bins P obj indices leftFirst triCount axis cMin scale).getD b Bin.init).count
      = ((List.range triCount).filter (fun i => decide
          (bin_index P axis cMin scale (triAt obj indices (leftFirst + i)) = (b : Int)))).length ∧
    (∀ i, i < triCount →
      bin_index P axis cMin scale (triAt obj indices (leftFirst + i)) = (b : Int) →
      u16vec3.le ((fill_bins P obj indices leftFirst triCount axis cMin scale).getD b
        Bin.init).min (triAt obj indices (leftFirst + i)).min) ∧
    ((fill_bins P obj indices leftFirst triCount axis cMin scale).getD b Bin.init).max
      = ((((List.range triCount).filter (fun i => decide
          (bin_index P axis cMin scale (triAt obj indices (leftFirst + i)) = (b : Int)))).getLast?).map
          (fun j => (triAt obj indices (leftFirst + j)).max)).getD u16vec3.zero := by
  obtain ⟨_, h2, _, h4, h5⟩ := bins_fold_spec
    (fun i => bin_index P axis cMin scale (triAt obj indices (leftFirst + i)))
    (fun i => triAt obj indices (leftFirst + i)) (List.range triCount)
    (List.replicate BVH_BINS Bin.init) (by simp [BVH_BINS]) b hb
  have hinit : (List.replicate BVH_BINS Bin.init).getD b Bin.init = Bin.init := by
    interval_cases b <;> rfl
  rw [hinit] at h2 h5
  refine ⟨?_, ?_, ?_⟩
  · have : Bin.init.count = 0 := rfl
    rw [this, Nat.zero_add] at h2
    exact h2
  · intro i hi hki
    exact h4 i (List.mem_range.2 hi) hki
  · exact h5

/-! ### The quantities of one call -/

theorem split_candidate_eq (P : Platform) (obj : Object) (indices : List Nat)
    (node : BVHNode) :
    split_candidate P obj indices node =
      if node_extent obj indices node < lit_1em4 then none
      else if (node_best P obj indices node).1 ≥ node_leaf_cost P node then none
      else some (partition_pred P obj (node_axis obj indices node)
        (node_centroids obj indices node).1 (node_scale P obj indices node)
        (node_best P obj indices node).2) := rfl

theorem partition_pred_eq (P : Platform) (obj : Object) (indices : List Nat)
    (node : BVHNode) (splitIdx : Int) (idx : Nat) :
    partition_pred P obj (node_axis obj indices node) (node_centroids obj indices node).1
        (node_scale P obj indices node) splitIdx idx
      = decide (node_pred_bin P obj indices node idx ≤ splitIdx) := rfl

/-! ### The bin index of a triangle of the node -/

theorem centroid_bounds_eq (obj : Object) (indices : List Nat) (lo n : Nat) :
    centroid_bounds obj indices lo n =
      hull_pts ((List.range n).map (fun i => (triAt obj indices (lo + i)).centroid))
        (u16vec3.top, u16vec3.zero) := by
  unfold centroid_bounds hull_pts
  rw [List.foldl_map]

/-- The centroid box of a non-empty range is the hull of the centroids of the range. -/
theorem centroid_bounds_isHull (obj : Object) (indices : List Nat) (lo n : Nat)
    (hn : 1 ≤ n) :
    IsHull ((List.range n).map (fun i => (triAt obj indices (lo + i)).centroid))
      (centroid_bounds obj indices lo n).1 (centroid_bounds obj indices lo n).2 := by
  rw [centroid_bounds_eq]
  apply hull_pts_isHull
  intro h
  have := congrArg List.length h
  simp at this
  omega

theorem axis_val_mono (axis : Nat) (a b : u16vec3) (h : u16vec3.le a b) :
    axis_val axis a ≤ axis_val axis b := by
  unfold u16vec3.le at h
  unfold axis_val
  split_ifs <;> omega

theorem axis_val_attained (axis : Nat) (pts : List u16vec3) (m : u16vec3)
    (hx : ∃ p ∈ pts, m.x = p.x) (hy : ∃ p ∈ pts, m.y = p.y) (hz : ∃ p ∈ pts, m.z = p.z) :
    ∃ p ∈ pts, axis_val axis p = axis_val axis m := by
  unfold axis_val
  split_ifs
  · obtain ⟨p, hp, e⟩ := hx; exact ⟨p, hp, by rw [e]⟩
  · obtain ⟨p, hp, e⟩ := hy; exact ⟨p, hp, by rw [e]⟩
  · obtain ⟨p, hp, e⟩ := hz; exact ⟨p, hp, by rw [e]⟩

/-- Each centroid of the node lies between the corners of the centroid box, on every
axis. -/
theorem node_centroids_bounds (obj : Object) (indices : List Nat) (node : BVHNode)
    (axis i : Nat) (hi : i < node.triCount) :
    axis_val axis (node_centroids obj indices node).1
      ≤ axis_val axis (triAt obj indices (node.leftFirst + i)).centroid ∧
    axis_val axis (triAt obj indices (node.leftFirst + i)).centroid
      ≤ axis_val axis (node_centroids obj indices node).2 := by
  obtain ⟨h, _⟩ := centroid_bounds_isHull obj indices node.leftFirst node.triCount (by omega)
  have hm : (triAt obj indices (node.leftFirst + i)).centroid ∈
      (List.range node.triCount).map
        (fun i => (triAt obj indices (node.leftFirst + i)).centroid) :=
    List.mem_map.2 ⟨i, List.mem_range.2 hi, rfl⟩
  obtain ⟨h1, h2⟩ := h _ hm
  exact ⟨axis_val_mono axis _ _ h1, axis_val_mono axis _ _ h2⟩

theorem truncToInt_nonneg (q : ℚ) (h : 0 ≤ q) : 0 ≤ truncToInt q := by
  unfold truncToInt
  rw [if_pos h]
  exact Int.floor_nonneg.2 h

theorem node_scale_nonneg (P : Platform) (hpos : ∀ x, 0 ≤ x → 0 ≤ P.rnd x) (obj : Object)
    (indices : List Nat) (node : BVHNode) (hn : 1 ≤ node.triCount) :
    0 ≤ node_scale P obj indices node := by
  unfold node_scale bin_scale
  apply hpos
  apply div_nonneg (by unfold BVH_BINS; norm_num)
  apply hpos
  have h := node_centroids_bounds obj indices node (node_axis obj indices node) 0 (by omega)
  have h1 : (0 : Int) ≤ axis_val (node_axis obj indices node) (node_centroids obj indices node).2
      - axis_val (node_axis obj indices node) (node_centroids obj indices node).1 := by omega
  have h2 : (0 : ℚ) ≤ node_extent obj indices node := by
    unfold node_extent axis_extent
    exact_mod_cast h1
  have : (0 : ℚ) ≤ lit_0p1 := by unfold lit_0p1; norm_num
  linarith

/-- For a rounding that keeps non-negative values non-negative, the value
`static_cast<int>((val - cMin) * scale)` is non-negative for every triangle of the node. -/
theorem node_bin_raw_nonneg (P : Platform) (hpos : ∀ x, 0 ≤ x → 0 ≤ P.rnd x) (obj : Object)
    (indices : List Nat) (node : BVHNode) (i : Nat) (hi : i < node.triCount) :
    0 ≤ bin_raw P (node_axis obj indices node) (node_centroids obj indices node).1
      (node_scale P obj indices node) (triAt obj indices (node.leftFirst + i)) := by
  unfold bin_raw
  apply truncToInt_nonneg
  apply hpos
  apply mul_nonneg _ (node_scale_nonneg P hpos obj indices node (by omega))
  have h := (node_centroids_bounds obj indices node (node_axis obj indices node) i hi).1
  have h1 : (0 : Int) ≤
      axis_val (node_axis obj indices node) (triAt obj indices (node.leftFirst + i)).centroid
      - axis_val (node_axis obj indices node) (node_centroids obj indices node).1 := by omega
  exact_mod_cast h1

theorem node_bin_range (P : Platform) (hpos : ∀ x, 0 ≤ x → 0 ≤ P.rnd x) (obj : Object)
    (indices : List Nat) (node : BVHNode) (i : Nat) (hi : i < node.triCount) :
    0 ≤ node_bin P obj indices node i ∧ node_bin P obj indices node i ≤ 15 ∧
    node_pred_bin P obj indices node (indices.getD (node.leftFirst + i) 0)
      = node_bin P obj indices node i := by
  have h := node_bin_raw_nonneg P hpos obj indices node i hi
  have hb : (BVH_BINS : Int) = 16 := rfl
  unfold node_bin node_pred_bin bin_index
  rw [hb]
  have e : obj.mesh.getD (indices.getD (node.leftFirst + i) 0) CachedTriangle.zero
      = triAt obj indices (node.leftFirst + i) := rfl
  rw [e]
  generalize bin_raw P (node_axis obj indices node) (node_centroids obj indices node).1
      (node_scale P obj indices node) (triAt obj indices (node.leftFirst + i)) = r at h
  refine ⟨?_, ?_, ?_⟩
  · exact le_min (by norm_num) h
  · exact min_le_left _ _
  · rw [max_eq_right h]

theorem f32_round_nonneg (x : ℚ) (h : 0 ≤ x) : 0 ≤ f32_round x := by
  have := f32_round_mono h
  have e : f32_round 0 = 0 := by unfold f32_round; simp
  rw [e] at this
  exact this

/-! ### The counts of the two sweeps -/

theorem getD_set_self_nat (l : List Nat) (i v : Nat) (h : i < l.length) :
    (l.set i v).getD i 0 = v := by
  rw [List.getD_eq_getElem?_getD, List.getElem?_set_self h]
  rfl

theorem getD_set_ne_nat (l : List Nat) (i j v : Nat) (h : i ≠ j) :
    (l.set i v).getD j 0 = l.getD j 0 := by
  rw [List.getD_eq_getElem?_getD, List.getElem?_set_ne h, ← List.getD_eq_getElem?_getD]

/-- After the first `k` iterations of the left sweep, `currentCount` is the number of
triangles in bins `0 .. k - 1` and `leftCount[j]` that in bins `0 .. j`, for `j < k`. -/
theorem left_sweep_fold (P : Platform) (bins : List Bin) (k : Nat) (hk : k ≤ 15) :
    ((List.range k).foldl (fun s i => sweep_step P s (bins.getD i Bin.init) i)
        Sweep.init).currentCount
      = Finset.sum (Finset.range k) (fun b => (bins.getD b Bin.init).count) ∧
    ((List.range k).foldl (fun s i => sweep_step P s (bins.getD i Bin.init) i)
        Sweep.init).count.length = 15 ∧
    ∀ j, j < k →
      ((List.range k).foldl (fun s i => sweep_step P s (bins.getD i Bin.init) i)
          Sweep.init).count.getD j 0
        = Finset.sum (Finset.range (j + 1)) (fun b => (bins.getD b Bin.init).count) := by
  induction k with
  | zero => exact ⟨rfl, rfl, fun j hj => absurd hj (Nat.not_lt_zero _)⟩
  | succ k ih =>
    obtain ⟨i1, i2, i3⟩ := ih (by omega)
    rw [List.range_succ, List.foldl_append]
    simp only [List.foldl_cons, List.foldl_nil]
    generalize (List.range k).foldl (fun s i => sweep_step P s (bins.getD i Bin.init) i)
      Sweep.init = S at i1 i2 i3
    have c1 : (sweep_step P S (bins.getD k Bin.init) k).currentCount
        = S.currentCount + (bins.getD k Bin.init).count := rfl
    have c2 : (sweep_step P S (bins.getD k Bin.init) k).count
        = S.count.set k (S.currentCount + (bins.getD k Bin.init).count) := rfl
    rw [c1, c2, Finset.sum_range_succ, i1]
    refine ⟨rfl, by rw [List.length_set]; exact i2, ?_⟩
    intro j hj
    by_cases e : j = k
    · rw [e, getD_set_self_nat _ _ _ (by omega), Finset.sum_range_succ]
    · rw [getD_set_ne_nat _ _ _ _ (Ne.symm e)]
      exact i3 j (by omega)

theorem left_sweep_count (P : Platform) (bins : List Bin) (s : Nat) (hs : s < 15) :
    (left_sweep P bins).count.getD s 0
      = Finset.sum (Finset.range (s + 1)) (fun b => (bins.getD b Bin.init).count) :=
  (left_sweep_fold P bins 15 (Nat.le_refl _)).2.2 s hs

/-- After the iterations `i = 14, ..., j` of the right sweep, `currentCount` is the number
of triangles in bins `j + 1 .. 15` and `rightCount[i]` that in bins `i + 1 .. 15`, for
`j ≤ i`. -/
theorem right_sweep_fold (P : Platform) (bins : List Bin) (m j : Nat) (hj : j + m = 15) :
    ((List.range' j m).reverse.foldl
        (fun s i => sweep_step P s (bins.getD (i + 1) Bin.init) i) Sweep.init).currentCount
      = Finset.sum (Finset.Ico (j + 1) 16) (fun b => (bins.getD b Bin.init).count) ∧
    ((List.range' j m).reverse.foldl
        (fun s i => sweep_step P s (bins.getD (i + 1) Bin.init) i) Sweep.init).count.length
      = 15 ∧
    ∀ i, j ≤ i → i < 15 →
      ((List.range' j m).reverse.foldl
          (fun s i => sweep_step P s (bins.getD (i + 1) Bin.init) i) Sweep.init).count.getD i 0
        = Finset.sum (Finset.Ico (i + 1) 16) (fun b => (bins.getD b Bin.init).count) := by
  induction m generalizing j with
  | zero =>
    have : j = 15 := by omega
    subst this
    exact ⟨rfl, rfl, fun i h1 h2 => by omega⟩
  | succ m ih =>
    obtain ⟨i1, i2, i3⟩ := ih (j + 1) (by omega)
    rw [List.range'_succ, List.reverse_cons, List.foldl_append]
    simp only [List.foldl_cons, List.foldl_nil]
    generalize (List.range' (j + 1) m).reverse.foldl
      (fun s i => sweep_step P s (bins.getD (i + 1) Bin.init) i) Sweep.init = S at i1 i2 i3
    have c1 : (sweep_step P S (bins.getD (j + 1) Bin.init) j).currentCount
        = S.currentCount + (bins.getD (j + 1) Bin.init).count := rfl
    have c2 : (sweep_step P S (bins.getD (j + 1) Bin.init) j).count
        = S.count.set j (S.currentCount + (bins.getD (j + 1) Bin.init).count) := rfl
    have hsum : Finset.sum (Finset.Ico (j + 1) 16) (fun b => (bins.getD b Bin.init).count)
        = S.currentCount + (bins.getD (j + 1) Bin.init).count := by
      rw [Finset.sum_eq_sum_Ico_succ_bot (by omega), i1]
      omega
    rw [c1, c2]
    refine ⟨hsum.symm, by rw [List.length_set]; exact i2, ?_⟩
    intro i h1 h2
    by_cases e : i = j
    · rw [e, getD_set_self_nat _ _ _ (by omega), hsum]
    · rw [getD_set_ne_nat _ _ _ _ (Ne.symm e)]
      exact i3 i (by omega) h2

theorem right_sweep_count (P : Platform) (bins : List Bin) (s : Nat) (hs : s < 15) :
    (right_sweep P bins).count.getD s 0
      = Finset.sum (Finset.Ico (s + 1) 16) (fun b => (bins.getD b Bin.init).count) := by
  have h := (right_sweep_fold P bins 15 0 (by norm_num)).2.2 s (Nat.zero_le _) hs
  have e : List.range (BVH_BINS - 1) = List.range' 0 15 := by
    rw [List.range_eq_range']
    rfl
  unfold right_sweep
  rw [e]
  exact h

/-! ### Counting the triangles of a group of bins -/

theorem countP_disjoint {α : Type} (p q : α → Bool) (l : List α)
    (h : ∀ x ∈ l, ¬ (p x = true ∧ q x = true)) :
    l.countP p + l.countP q = l.countP (fun x => p x || q x) := by
  induction l with
  | nil => rfl
  | cons a l ih =>
    have ih := ih (fun x hx => h x (List.mem_cons_of_mem _ hx))
    have ha := h a (List.mem_cons_self _ _)
    simp only [List.countP_cons]
    cases hp : p a <;> cases hq : q a <;> simp_all <;> omega

/-- The bins `a .. c - 1` together hold the positions whose bin index lies in `[a, c)`. -/
theorem sum_countP_bins (k : Nat → Int) (l : List Nat) (a c : Nat) (hac : a ≤ c) :
    Finset.sum (Finset.Ico a c) (fun b => l.countP (fun i => decide (k i = (b : Int))))
      = l.countP (fun i => decide ((a : Int) ≤ k i ∧ k i < (c : Int))) := by
  have hempty : ∀ n : Nat,
      Finset.sum (Finset.Ico n n) (fun b => l.countP (fun i => decide (k i = (b : Int))))
        = l.countP (fun i => decide ((n : Int) ≤ k i ∧ k i < (n : Int))) := by
    intro n
    rw [Finset.Ico_self, Finset.sum_empty]
    symm
    rw [List.countP_eq_zero]
    intro x _
    simp only [decide_eq_true_eq]
    omega
  induction c with
  | zero =>
    have : a = 0 := by omega
    subst this
    exact hempty 0
  | succ c ih =>
    by_cases e : a = c + 1
    · subst e
      exact hempty (c + 1)
    · have hle : a ≤ c := by omega
      rw [Finset.sum_Ico_succ_top hle, ih hle, Nat.add_comm]
      rw [Nat.add_comm, countP_disjoint]
      · apply List.countP_congr
        intro x _
        simp only [Bool.or_eq_true, decide_eq_true_eq]
        push_cast
        constructor
        · intro h; omega
        · intro h; omega
      · intro x _ h
        simp only [decide_eq_true_eq] at h
        omega

/-! ### The partition and the counts of the sweeps -/

/-- When lines 57-147 ask for a split with a left group of `k` indices, `k` is the
length of the first group produced by `std::partition` under the predicate of line 137. -/
theorem split_decide_some (P : Platform) (obj : Object) (indices : List Nat) (md : Nat)
    (node : BVHNode) (depth : Nat) (ind : List Nat) (md1 k : Nat)
    (h : split_decide P obj indices md node depth = (ind, md1, some k)) :
    ∃ pred, split_candidate P obj indices node = some pred ∧
      k = (partition_range P pred indices node.leftFirst node.triCount).2 ∧
      ind = (partition_range P pred indices node.leftFirst node.triCount).1 ∧
      k ≠ 0 ∧ k ≠ node.triCount := by
  unfold split_decide at h
  by_cases h1 : depth ≥ MAX_DEPTH ∨ node.triCount ≤ MIN_TRIANGLES_PER_LEAF
  · rw [if_pos h1] at h
    simp at h
  · rw [if_neg h1] at h
    cases hc : split_candidate P obj indices node with
    | none =>
      rw [hc] at h
      simp at h
    | some pred =>
      rw [hc] at h
      simp only [] at h
      by_cases h2 : (partition_range P pred indices node.leftFirst node.triCount).2 = 0 ∨
          (partition_range P pred indices node.leftFirst node.triCount).2 = node.triCount
      · rw [if_pos h2] at h
        simp at h
      · rw [if_neg h2] at h
        simp only [Prod.mk.injEq, Option.some.injEq] at h
        obtain ⟨e1, _, e3⟩ := h
        refine ⟨pred, rfl, e3.symm, e1.symm, ?_, ?_⟩
        · rw [← e3]; exact fun e => h2 (Or.inl e)
        · rw [← e3]; exact fun e => h2 (Or.inr e)

/-- The length of the first group of the partition is the number of triangles of the
node whose predicate bin index (lines 140-141) is at most `splitIdx`. -/
theorem partition_left_length (P : Platform) (obj : Object) (indices : List Nat)
    (node : BVHNode) (splitIdx : Int)
    (hlen : node.leftFirst + node.triCount ≤ indices.length) :
    (partition_range P
        (partition_pred P obj (node_axis obj indices node) (node_centroids obj indices node).1
          (node_scale P obj indices node) splitIdx)
        indices node.leftFirst node.triCount).2
      = (List.range node.triCount).countP (fun i => decide
          (node_pred_bin P obj indices node (indices.getD (node.leftFirst + i) 0)
            ≤ splitIdx)) := by
  unfold partition_range
  simp only []
  rw [(P.partition.front _ _).length_eq, ← List.countP_eq_length_filter,
    slice_eq_map_range _ _ _ hlen, List.countP_map]
  rfl

/-- The count of each bin, as a count of positions of the node. -/
theorem node_bins_count (P : Platform) (obj : Object) (indices : List Nat) (node : BVHNode)
    (b : Nat) (hb : b < 16) :
    ((node_bins P obj indices node).getD b Bin.init).count
      = (List.range node.triCount).countP (fun i => decide
          (node_bin P obj indices node i = (b : Int))) := by
  rw [List.countP_eq_length_filter]
  exact (fill_bins_spec P obj indices node.leftFirst node.triCount
    (node_axis obj indices node) (node_centroids obj indices node).1
    (node_scale P obj indices node) b hb).1

theorem node_left_count_eq (P : Platform) (hpos : ∀ x, 0 ≤ x → 0 ≤ P.rnd x) (obj : Object)
    (indices : List Nat) (node : BVHNode) (s : Nat) (hs : s < 15) :
    (node_left_count P obj indices node).getD s 0
      = (List.range node.triCount).countP (fun i => decide
          (node_bin P obj indices node i ≤ (s : Int))) := by
  unfold node_left_count
  rw [left_sweep_count P _ s hs, Finset.range_eq_Ico]
  rw [Finset.sum_congr rfl (fun b hb => node_bins_count P obj indices node b
    (by have := (Finset.mem_Ico.1 hb).2; omega))]
  rw [sum_countP_bins _ _ 0 (s + 1) (by omega)]
  apply List.countP_congr
  intro i hi
  have := (node_bin_range P hpos obj indices node i (List.mem_range.1 hi)).1
  simp only [decide_eq_true_eq]
  push_cast
  constructor
  · intro h; omega
  · intro h; omega

theorem node_right_count_eq (P : Platform) (hpos : ∀ x, 0 ≤ x → 0 ≤ P.rnd x) (obj : Object)
    (indices : List Nat) (node : BVHNode) (s : Nat) (hs : s < 15) :
    (node_right_count P obj indices node).getD s 0
      = (List.range node.triCount).countP (fun i => decide
          (¬ node_bin P obj indices node i ≤ (s : Int))) := by
  unfold node_right_count
  rw [right_sweep_count P _ s hs]
  rw [Finset.sum_congr rfl (fun b hb => node_bins_count P obj indices node b
    (by have := (Finset.mem_Ico.1 hb).2; omega))]
  rw [sum_countP_bins _ _ (s + 1) 16 (by omega)]
  apply List.countP_congr
  intro i hi
  have := (node_bin_range P hpos obj indices node i (List.mem_range.1 hi)).2.1
  simp only [decide_eq_true_eq]
  push_cast
  constructor
  · intro h; omega
  · intro h; omega

/-- With a valid boundary `splitIdx`, the two groups of the partition have the lengths
`leftCount[splitIdx]` and `rightCount[splitIdx]`. -/
theorem partition_lengths (P : Platform) (hpos : ∀ x, 0 ≤ x → 0 ≤ P.rnd x) (obj : Object)
    (indices : List Nat) (node : BVHNode)
    (hlen : node.leftFirst + node.triCount ≤ indices.length) (s : Nat) (hs : s < 15) :
    (partition_range P
        (partition_pred P obj (node_axis obj indices node) (node_centroids obj indices node).1
          (node_scale P obj indices node) (s : Int))
        indices node.leftFirst node.triCount).2
      = (node_left_count P obj indices node).getD s 0 ∧
    node.triCount - (partition_range P
        (partition_pred P obj (node_axis obj indices node) (node_centroids obj indices node).1
          (node_scale P obj indices node) (s : Int))
        indices node.leftFirst node.triCount).2
      = (node_right_count P obj indices node).getD s 0 := by
  have e : (partition_range P
        (partition_pred P obj (node_axis obj indices node) (node_centroids obj indices node).1
          (node_scale P obj indices node) (s : Int))
        indices node.leftFirst node.triCount).2
      = (node_left_count P obj indices node).getD s 0 := by
    rw [partition_left_length P obj indices node _ hlen, node_left_count_eq P hpos _ _ _ s hs]
    apply List.countP_congr
    intro i hi
    rw [(node_bin_range P hpos obj indices node i (List.mem_range.1 hi)).2.2]
  refine ⟨e, ?_⟩
  rw [e, node_left_count_eq P hpos _ _ _ s hs, node_right_count_eq P hpos _ _ _ s hs]
  have := List.length_eq_countP_add_countP
    (fun i => decide (node_bin P obj indices node i ≤ (s : Int))) (List.range node.triCount)
  rw [List.length_range] at this
  have e2 : List.countP (fun a => decide ¬decide (node_bin P obj indices node a ≤ (s : Int))
      = true) (List.range node.triCount)
      = List.countP (fun i => decide (¬ node_bin P obj indices node i ≤ (s : Int)))
        (List.range node.triCount) := by
    apply List.countP_congr
    intro i _
    simp
  rw [e2] at this
  omega

/-! ### Nodes below a node -/

theorem Below.has_subtree {obj : Object} {nodes : List BVHNode} {indices : List Nat}
    {i lo len d n n' : Nat} (h : Subtree obj nodes indices i lo len d n n') {j : Nat}
    (hb : Below nodes i j) :
    ∃ lo' len' d' a b, Subtree obj nodes indices j lo' len' d' a b ∧
      lo ≤ lo' ∧ lo' + len' ≤ lo + len := by
  induction hb with
  | self => exact ⟨lo, len, d, n, n', h, Nat.le_refl _, Nat.le_refl _⟩
  | left j _ _ hz ih =>
    obtain ⟨lo', len', d', a, b, s, q1, q2⟩ := ih
    obtain ⟨e1, _, _, _, _, k, m, k0, k1, sl, _⟩ := s.interior hz
    rw [e1]
    exact ⟨lo', k, d' + 1, a + 2, m, sl, q1, by omega⟩
  | right j _ _ hz ih =>
    obtain ⟨lo', len', d', a, b, s, q1, q2⟩ := ih
    obtain ⟨e1, _, _, _, _, k, m, k0, k1, _, sr⟩ := s.interior hz
    rw [e1]
    exact ⟨lo' + k, len' - k, d' + 1, m, b, sr, by omega, by omega⟩

/-- The stored box of a node contains the local corners of every triangle found in the
range of any leaf below it. -/
theorem Subtree.contains_below {obj : Object} {nodes : List BVHNode} {indices : List Nat}
    {i lo len d n n' : Nat} (h : Subtree obj nodes indices i lo len d n n') {j : Nat}
    (hb : Below nodes i j) (hz : 0 < (nodeAt nodes j).triCount) (p : Nat)
    (hp1 : (nodeAt nodes j).leftFirst ≤ p)
    (hp2 : p < (nodeAt nodes j).leftFirst + (nodeAt nodes j).triCount) :
    u16vec3.le (nodeAt nodes i).aabbMin (triAt obj indices p).min ∧
    u16vec3.le (triAt obj indices p).max (nodeAt nodes i).aabbMax := by
  obtain ⟨lo', len', d', a, b, s, q1, q2⟩ := Below.has_subtree h hb
  obtain ⟨e1, e2, _⟩ := s.isLeaf hz
  obtain ⟨_, b2, _, _, hull⟩ := h.basic
  exact isHull_contains obj _ _ _ _ hull
    (mem_slice_of_pos indices lo len p b2 (by omega) (by omega))

/-- The stored boxes of the two children of an interior node lie inside its own. -/
theorem Subtree.children_nested {obj : Object} {nodes : List BVHNode} {indices : List Nat}
    {i lo len d n n' : Nat} (h : Subtree obj nodes indices i lo len d n n')
    (hz : (nodeAt nodes i).triCount = 0) (c : Nat)
    (hc : c = (nodeAt nodes i).leftFirst ∨ c = (nodeAt nodes i).leftFirst + 1) :
    u16vec3.le (nodeAt nodes i).aabbMin (nodeAt nodes c).aabbMin ∧
    u16vec3.le (nodeAt nodes c).aabbMax (nodeAt nodes i).aabbMax := by
  obtain ⟨e1, _, _, _, _, k, m, k0, k1, sl, sr⟩ := h.interior hz
  obtain ⟨_, _, _, _, hull⟩ := h.basic
  rw [e1] at hc
  rcases hc with hc | hc
  · subst hc
    obtain ⟨_, _, _, _, hl⟩ := sl.basic
    obtain ⟨n1, n2, _⟩ := isHull_nested _ _ _ _ _ _ hl hull
      (tri_points_subset obj _ _ (slice_subset indices lo len lo k (Nat.le_refl _) (by omega)))
    exact ⟨n1, n2⟩
  · subst hc
    obtain ⟨_, _, _, _, hr⟩ := sr.basic
    obtain ⟨n1, n2, _⟩ := isHull_nested _ _ _ _ _ _ hr hull
      (tri_points_subset obj _ _
        (slice_subset indices lo len (lo + k) (len - k) (by omega) (by omega)))
    exact ⟨n1, n2⟩

/-! ### The number of nodes -/

theorem leaves_in_split (nodes : List BVHNode) (a b c : Nat) (h1 : a ≤ b) (h2 : b ≤ c) :
    leaves_in nodes a c = leaves_in nodes a b + leaves_in nodes b c := by
  unfold leaves_in
  have e : List.range' a (c - a) = List.range' a (b - a) ++ List.range' b (c - b) := by
    have := List.range'_append a (b - a) (c - b) 1
    rw [Nat.one_mul, Nat.add_sub_cancel' h1] at this
    rw [this]
    congr 1
    omega
  rw [e, List.countP_append]

theorem leaves_in_one (nodes : List BVHNode) (a : Nat) :
    leaves_in nodes a (a + 1) = if 0 < (nodeAt nodes a).triCount then 1 else 0 := by
  unfold leaves_in
  rw [Nat.add_sub_cancel_left]
  simp [List.range', List.countP_cons]

/-- A subtree with `L` leaves has `2 L - 1` nodes, and no more leaves than triangles. -/
theorem Subtree.count {obj : Object} {nodes : List BVHNode} {indices : List Nat}
    {i lo len d n n' : Nat} (h : Subtree obj nodes indices i lo len d n n') :
    (n' - n) + 2 = 2 * (leaves_in nodes i (i + 1) + leaves_in nodes n n') ∧
    1 ≤ leaves_in nodes i (i + 1) + leaves_in nodes n n' ∧
    leaves_in nodes i (i + 1) + leaves_in nodes n n' ≤ len := by
  induction h with
  | leaf i lo len d n h1 h2 h3 h4 h5 h6 h7 h8 =>
    have e1 : leaves_in nodes i (i + 1) = 1 := by
      rw [leaves_in_one, if_pos (by omega)]
    have e2 : leaves_in nodes n n = 0 := by
      unfold leaves_in
      simp
    rw [e1, e2]
    omega
  | inner i lo len d n m n' k h1 h2 h3 h4 h5 h6 h7 h8 h9 sl sr ihl ihr =>
    have bl := sl.block_le
    have br := sr.block_le
    have e1 : leaves_in nodes i (i + 1) = 0 := by
      rw [leaves_in_one, if_neg (by omega)]
    have ihr : (n' - m) + 2
          = 2 * (leaves_in nodes (n + 1) (n + 2) + leaves_in nodes m n') ∧
        1 ≤ leaves_in nodes (n + 1) (n + 2) + leaves_in nodes m n' ∧
        leaves_in nodes (n + 1) (n + 2) + leaves_in nodes m n' ≤ len - k := ihr
    have e2 : leaves_in nodes n n' = leaves_in nodes n (n + 1)
        + leaves_in nodes (n + 1) (n + 2) + leaves_in nodes (n + 2) m
        + leaves_in nodes m n' := by
      rw [leaves_in_split nodes n (n + 1) n' (by omega) (by omega),
        leaves_in_split nodes (n + 1) (n + 2) n' (by omega) (by omega),
        leaves_in_split nodes (n + 2) m n' bl br]
      omega
    rw [e1, e2]
    omega

theorem map_nodeAt_range (nodes : List BVHNode) :
    (List.range nodes.length).map (nodeAt nodes) = nodes := by
  apply List.ext_getElem
  · simp
  · intro i h1 h2
    simp [nodeAt, List.getD_eq_getElem?_getD, List.getElem?_eq_getElem h2]

theorem leaves_in_all (nodes : List BVHNode) :
    leaves_in nodes 0 nodes.length = leaf_count nodes := by
  unfold leaves_in leaf_count
  conv => rhs; rw [← map_nodeAt_range nodes]
  rw [List.countP_map, Nat.sub_zero, List.range_eq_range']
  rfl

theorem make_children_length (nodes : List BVHNode) (i k : Nat) :
    (make_children nodes i k).length = nodes.length + 2 := by
  unfold make_children
  simp

/-- A call of `split_bvh_node` never shortens the node array. -/
theorem split_nodes_mono (P : Platform) (obj : Object) :
    ∀ (fuel nodeIdx : Nat) (st : BuildState) (depth : Nat) (st' : BuildState),
      split_bvh_node P obj fuel nodeIdx st depth = some st' →
      st.nodes.length ≤ st'.nodes.length := by
  intro fuel
  induction fuel with
  | zero => intro nodeIdx st depth st' h; simp [split_bvh_node] at h
  | succ fuel ih =>
    intro nodeIdx st depth st' h
    rw [split_bvh_node] at h
    simp only [] at h
    generalize split_decide P obj st.indices st.max_depth
        (refit_node obj st.indices (nodeAt st.nodes nodeIdx)) depth = D at h
    obtain ⟨ind, md, o⟩ := D
    cases o with
    | none =>
      simp only [Option.some.injEq] at h
      rw [← h]
      simp
    | some k =>
      simp only [] at h
      cases hL : split_bvh_node P obj fuel
          (st.nodes.set nodeIdx (refit_node obj st.indices (nodeAt st.nodes nodeIdx))).length
          ⟨ind, make_children
            (st.nodes.set nodeIdx (refit_node obj st.indices (nodeAt st.nodes nodeIdx)))
            nodeIdx k, md⟩ (depth + 1) with
      | none => rw [hL] at h; simp at h
      | some stL =>
        rw [hL] at h
        simp only [] at h
        have a := ih _ _ _ _ hL
        have b := ih _ _ _ _ h
        simp only [make_children_length, List.length_set] at a
        omega

/-! ### Two clusters at the root: the bins and the cost from the geometry -/

/-! ### Rounding with a relative error bound -/

/-- A rounding that is monotone, leaves zero unchanged and has relative error at most
`2 ^ -24` up to an absolute error `2 ^ -150`, on a non-negative value. -/
theorem rnd_bounds (P : Platform) (hm : Monotone P.rnd) (h0 : P.rnd 0 = 0)
    (herr : ∀ x, |P.rnd x - x| ≤ 1 / 2 ^ 24 * |x| + 1 / 2 ^ 150) (x : ℚ) (hx : 0 ≤ x) :
    0 ≤ P.rnd x ∧ P.rnd x ≤ (1 + 1 / 2 ^ 24) * x + 1 / 2 ^ 150 ∧
    (1 - 1 / 2 ^ 24) * x - 1 / 2 ^ 150 ≤ P.rnd x := by
  have h1 := hm hx
  rw [h0] at h1
  have h2 := abs_le.1 (herr x)
  rw [abs_of_nonneg hx] at h2
  exact ⟨h1, by linarith [h2.2], by linarith [h2.1]⟩

theorem box_area_nonneg (bmin bmax : u16vec3) (h : u16vec3.le bmin bmax) :
    0 ≤ box_area bmin bmax := by
  unfold u16vec3.le at h
  unfold box_area
  have hw : (0 : Int) ≤ (bmax.x.val : Int) - (bmin.x.val : Int) := by omega
  have hh : (0 : Int) ≤ (bmax.y.val : Int) - (bmin.y.val : Int) := by omega
  have hd : (0 : Int) ≤ (bmax.z.val : Int) - (bmin.z.val : Int) := by omega
  have := mul_nonneg hw hh
  have := mul_nonneg hw hd
  have := mul_nonneg hh hd
  omega

theorem box_area_le (bmin bmax : u16vec3) (h : u16vec3.le bmin bmax) :
    box_area bmin bmax ≤ 2 ^ 35 := by
  unfold u16vec3.le at h
  unfold box_area
  have bx := bmax.x.isLt
  have by1 := bmax.y.isLt
  have bz := bmax.z.isLt
  have hw : (0 : Int) ≤ (bmax.x.val : Int) - (bmin.x.val : Int) := by omega
  have hh : (0 : Int) ≤ (bmax.y.val : Int) - (bmin.y.val : Int) := by omega
  have hd : (0 : Int) ≤ (bmax.z.val : Int) - (bmin.z.val : Int) := by omega
  have hw2 : (bmax.x.val : Int) - (bmin.x.val : Int) ≤ 65536 := by omega
  have hh2 : (bmax.y.val : Int) - (bmin.y.val : Int) ≤ 65536 := by omega
  have hd2 : (bmax.z.val : Int) - (bmin.z.val : Int) ≤ 65536 := by omega
  have a1 := mul_le_mul hw2 hh2 hh (by norm_num)
  have a2 := mul_le_mul hw2 hd2 hd (by norm_num)
  have a3 := mul_le_mul hh2 hd2 hd (by norm_num)
  norm_num at a1 a2 a3 ⊢
  omega

/-- The float surface area of a non-inverted box against its exact surface area. -/
theorem get_surface_area_bounds (P : Platform) (hm : Monotone P.rnd) (h0 : P.rnd 0 = 0)
    (herr : ∀ x, |P.rnd x - x| ≤ 1 / 2 ^ 24 * |x| + 1 / 2 ^ 150) (bmin bmax : u16vec3)
    (h : u16vec3.le bmin bmax) :
    0 ≤ get_surface_area P bmin bmax ∧
    get_surface_area P bmin bmax ≤ (1 + 1 / 2 ^ 21) * (box_area bmin bmax : ℚ) + 1 / 2 ^ 140 ∧
    (1 - 1 / 2 ^ 21) * (box_area bmin bmax : ℚ) - 1 / 2 ^ 140 ≤ get_surface_area P bmin bmax := by
  unfold u16vec3.le at h
  have hw : (0 : ℚ) ≤ (((bmax.x.val : Int) - (bmin.x.val : Int) : Int) : ℚ) := by
    have : (0 : Int) ≤ (bmax.x.val : Int) - (bmin.x.val : Int) := by omega
    exact_mod_cast this
  have hh : (0 : ℚ) ≤ (((bmax.y.val : Int) - (bmin.y.val : Int) : Int) : ℚ) := by
    have : (0 : Int) ≤ (bmax.y.val : Int) - (bmin.y.val : Int) := by omega
    exact_mod_cast this
  have hd : (0 : ℚ) ≤ (((bmax.z.val : Int) - (bmin.z.val : Int) : Int) : ℚ) := by
    have : (0 : Int) ≤ (bmax.z.val : Int) - (bmin.z.val : Int) := by omega
    exact_mod_cast this
  have eS : (box_area bmin bmax : ℚ)
      = 2 * ((((bmax.x.val : Int) - (bmin.x.val : Int) : Int) : ℚ)
            * (((bmax.y.val : Int) - (bmin.y.val : Int) : Int) : ℚ)
          + (((bmax.x.val : Int) - (bmin.x.val : Int) : Int) : ℚ)
            * (((bmax.z.val : Int) - (bmin.z.val : Int) : Int) : ℚ)
          + (((bmax.y.val : Int) - (bmin.y.val : Int) : Int) : ℚ)
            * (((bmax.z.val : Int) - (bmin.z.val : Int) : Int) : ℚ)) := by
    unfold box_area
    push_cast
    ring
  rw [eS]
  unfold get_surface_area
  simp only []
  generalize (((bmax.x.val : Int) - (bmin.x.val : Int) : Int) : ℚ) = w at hw
  generalize (((bmax.y.val : Int) - (bmin.y.val : Int) : Int) : ℚ) = hgt at hh
  generalize (((bmax.z.val : Int) - (bmin.z.val : Int) : Int) : ℚ) = d at hd
  have x1 : 0 ≤ w * hgt := mul_nonneg hw hh
  have x2 : 0 ≤ w * d := mul_nonneg hw hd
  have x3 : 0 ≤ hgt * d := mul_nonneg hh hd
  obtain ⟨p1, p1u, p1l⟩ := rnd_bounds P hm h0 herr _ x1
  obtain ⟨p2, p2u, p2l⟩ := rnd_bounds P hm h0 herr _ x2
  obtain ⟨p3, p3u, p3l⟩ := rnd_bounds P hm h0 herr _ x3
  obtain ⟨s1, s1u, s1l⟩ := rnd_bounds P hm h0 herr (P.rnd (w * hgt) + P.rnd (w * d))
    (by linarith)
  obtain ⟨s2, s2u, s2l⟩ := rnd_bounds P hm h0 herr
    (P.rnd (P.rnd (w * hgt) + P.rnd (w * d)) + P.rnd (hgt * d)) (by linarith)
  obtain ⟨s3, s3u, s3l⟩ := rnd_bounds P hm h0 herr
    (2 * P.rnd (P.rnd (P.rnd (w * hgt) + P.rnd (w * d)) + P.rnd (hgt * d))) (by linarith)
  generalize w * hgt = X1 at *
  generalize w * d = X2 at *
  generalize hgt * d = X3 at *
  generalize P.rnd X1 = r1 at *
  generalize P.rnd X2 = r2 at *
  generalize P.rnd X3 = r3 at *
  generalize P.rnd (r1 + r2) = t1 at *
  generalize P.rnd (t1 + r3) = t2 at *
  generalize P.rnd (2 * t2) = t3 at *
  refine ⟨s3, ?_, ?_⟩
  · norm_num at *
    linarith
  · norm_num at *
    linarith

theorem bin_scale_bounds (P : Platform) (hm : Monotone P.rnd) (h0 : P.rnd 0 = 0)
    (herr : ∀ x, |P.rnd x - x| ≤ 1 / 2 ^ 24 * |x| + 1 / 2 ^ 150) (E : ℚ) (hE : 32 ≤ E)
    (hE2 : E ≤ 65535) :
    (1 - 1 / 2 ^ 24) * (16 / (E + 1)) - 1 / 2 ^ 150 ≤ bin_scale P E ∧
    bin_scale P E ≤ (1 + 1 / 2 ^ 24) * (16 / E) + 1 / 2 ^ 150 := by
  have hl1 : (1 : ℚ) / 10 ≤ lit_0p1 := by unfold lit_0p1; norm_num
  have hl2 : lit_0p1 ≤ (11 : ℚ) / 100 := by unfold lit_0p1; norm_num
  obtain ⟨_, du, dl⟩ := rnd_bounds P hm h0 herr (E + lit_0p1) (by linarith)
  have hD1 : E ≤ P.rnd (E + lit_0p1) := by
    norm_num at dl ⊢
    linarith
  have hD2 : P.rnd (E + lit_0p1) ≤ E + 1 := by
    norm_num at du ⊢
    linarith
  have hEpos : (0 : ℚ) < E := by linarith
  have hDpos : (0 : ℚ) < P.rnd (E + lit_0p1) := by linarith
  have y1 : 16 / P.rnd (E + lit_0p1) ≤ 16 / E :=
    div_le_div_of_nonneg_left (by norm_num) hEpos hD1
  have y2 : 16 / (E + 1) ≤ 16 / P.rnd (E + lit_0p1) :=
    div_le_div_of_nonneg_left (by norm_num) hDpos hD2
  have y0 : (0 : ℚ) ≤ 16 / P.rnd (E + lit_0p1) := le_of_lt (div_pos (by norm_num) hDpos)
  obtain ⟨_, su, sl⟩ := rnd_bounds P hm h0 herr _ y0
  have hb : ((BVH_BINS : Nat) : ℚ) = 16 := by unfold BVH_BINS; norm_num
  unfold bin_scale
  rw [hb]
  have c1 : (0 : ℚ) ≤ 1 - 1 / 2 ^ 24 := by norm_num
  have c2 : (0 : ℚ) ≤ 1 + 1 / 2 ^ 24 := by norm_num
  have m1 := mul_le_mul_of_nonneg_left y2 c1
  have m2 := mul_le_mul_of_nonneg_left y1 c2
  exact ⟨by linarith, by linarith⟩

/-- A centroid in the lowest thirty-second of the centroid range goes to bin 0. -/
theorem trunc_low (P : Platform) (hm : Monotone P.rnd) (h0 : P.rnd 0 = 0)
    (herr : ∀ x, |P.rnd x - x| ≤ 1 / 2 ^ 24 * |x| + 1 / 2 ^ 150) (E d : ℚ) (hE : 32 ≤ E)
    (hE2 : E ≤ 65535) (hd0 : 0 ≤ d) (hd : 32 * d ≤ E) :
    truncToInt (P.rnd (d * bin_scale P E)) ≤ 0 := by
  obtain ⟨sl, su⟩ := bin_scale_bounds P hm h0 herr E hE hE2
  have hEpos : (0 : ℚ) < E := by linarith
  have hs0 : 0 ≤ bin_scale P E := by
    have : (0 : ℚ) ≤ 16 / (E + 1) := by positivity
    have : (1 : ℚ) ≤ 16 / (E + 1) * 2 ^ 17 := by
      rw [div_mul_eq_mul_div, le_div_iff₀ (by linarith)]
      norm_num
      linarith
    norm_num at sl this ⊢
    linarith
  have hz0 : 0 ≤ d * bin_scale P E := mul_nonneg hd0 hs0
  have h1 : d * bin_scale P E ≤ d * ((1 + 1 / 2 ^ 24) * (16 / E) + 1 / 2 ^ 150) :=
    mul_le_mul_of_nonneg_left su hd0
  have h2 : d * (16 / E) ≤ 1 / 2 := by
    rw [mul_div_assoc', div_le_iff₀ hEpos]
    linarith
  have h3 : d * ((1 + 1 / 2 ^ 24) * (16 / E) + 1 / 2 ^ 150)
      = (1 + 1 / 2 ^ 24) * (d * (16 / E)) + d * (1 / 2 ^ 150) := by ring
  have h4 : d * (1 / 2 ^ 150) ≤ 65535 * (1 / 2 ^ 150) :=
    mul_le_mul_of_nonneg_right (by linarith) (by positivity)
  obtain ⟨r0, ru, _⟩ := rnd_bounds P hm h0 herr _ hz0
  have hlt : P.rnd (d * bin_scale P E) < 1 := by
    rw [h3] at h1
    norm_num at h1 h4 ru ⊢
    linarith
  unfold truncToInt
  rw [if_pos r0]
  have : ⌊P.rnd (d * bin_scale P E)⌋ < 1 := Int.floor_lt.2 (by exact_mod_cast hlt)
  omega

/-- A centroid in the highest thirty-second of the centroid range goes to bin 15. -/
theorem trunc_high (P : Platform) (hm : Monotone P.rnd) (h0 : P.rnd 0 = 0)
    (herr : ∀ x, |P.rnd x - x| ≤ 1 / 2 ^ 24 * |x| + 1 / 2 ^ 150) (E d : ℚ) (hE : 32 ≤ E)
    (hE2 : E ≤ 65535) (hd1 : d ≤ E) (hd : 31 * E ≤ 32 * d) :
    15 ≤ truncToInt (P.rnd (d * bin_scale P E)) := by
  obtain ⟨sl, su⟩ := bin_scale_bounds P hm h0 herr E hE hE2
  have hd0 : (0 : ℚ) ≤ d := by linarith
  have hE1 : (0 : ℚ) < E + 1 := by linarith
  have h1 : d * ((1 - 1 / 2 ^ 24) * (16 / (E + 1)) - 1 / 2 ^ 150) ≤ d * bin_scale P E :=
    mul_le_mul_of_nonneg_left sl hd0
  have h2 : (1503 : ℚ) / 100 ≤ d * (16 / (E + 1)) := by
    rw [mul_div_assoc', le_div_iff₀ hE1]
    linarith
  have h3 : d * ((1 - 1 / 2 ^ 24) * (16 / (E + 1)) - 1 / 2 ^ 150)
      = (1 - 1 / 2 ^ 24) * (d * (16 / (E + 1))) - d * (1 / 2 ^ 150) := by ring
  have h4 : d * (1 / 2 ^ 150) ≤ 65535 * (1 / 2 ^ 150) :=
    mul_le_mul_of_nonneg_right (by linarith) (by positivity)
  have hz : (1502 : ℚ) / 100 ≤ d * bin_scale P E := by
    rw [h3] at h1
    norm_num at h1 h4 ⊢
    linarith
  obtain ⟨r0, _, rl⟩ := rnd_bounds P hm h0 herr (d * bin_scale P E) (by linarith)
  have hge : (15 : ℚ) ≤ P.rnd (d * bin_scale P E) := by
    norm_num at rl ⊢
    linarith
  unfold truncToInt
  rw [if_pos r0]
  exact Int.le_floor.2 (by exact_mod_cast hge)

/-! ### The boxes of the two sweeps when only the end bins are used -/

theorem getD_set_self_rat (l : List ℚ) (i : Nat) (v : ℚ) (h : i < l.length) :
    (l.set i v).getD i 0 = v := by
  rw [List.getD_eq_getElem?_getD, List.getElem?_set_self h]
  rfl

theorem getD_set_ne_rat (l : List ℚ) (i j : Nat) (v : ℚ) (h : i ≠ j) :
    (l.set i v).getD j 0 = l.getD j 0 := by
  rw [List.getD_eq_getElem?_getD, List.getElem?_set_ne h, ← List.getD_eq_getElem?_getD]

/-- The entry `leftArea[0]` is the area of the box of bin 0 alone. -/
theorem left_sweep_area_zero (P : Platform) (bins : List Bin)
    (h : 0 < (bins.getD 0 Bin.init).count) :
    (left_sweep P bins).area.getD 0 0
      = get_surface_area P (bin_box (bins.getD 0 Bin.init)).1
          (bin_box (bins.getD 0 Bin.init)).2 := by
  have key : ∀ k, k ≤ 14 →
      ((List.range (k + 1)).foldl (fun s i => sweep_step P s (bins.getD i Bin.init) i)
          Sweep.init).area.length = 15 ∧
      ((List.range (k + 1)).foldl (fun s i => sweep_step P s (bins.getD i Bin.init) i)
          Sweep.init).area.getD 0 0
        = get_surface_area P (bin_box (bins.getD 0 Bin.init)).1
            (bin_box (bins.getD 0 Bin.init)).2 := by
    intro k
    induction k with
    | zero =>
      intro _
      have e : List.range (0 + 1) = [0] := rfl
      rw [e]
      simp only [List.foldl_cons, List.foldl_nil]
      unfold sweep_step
      simp only [h, if_true]
      refine ⟨by simp [Sweep.init, BVH_BINS], ?_⟩
      rw [getD_set_self_rat _ _ _ (by simp [Sweep.init, BVH_BINS])]
      rfl
    | succ k ih =>
      intro hk
      obtain ⟨i1, i2⟩ := ih (by omega)
      rw [List.range_succ, List.foldl_append]
      simp only [List.foldl_cons, List.foldl_nil]
      generalize (List.range (k + 1)).foldl
        (fun s i => sweep_step P s (bins.getD i Bin.init) i) Sweep.init = S at i1 i2
      unfold sweep_step
      simp only []
      refine ⟨by rw [List.length_set]; exact i1, ?_⟩
      rw [getD_set_ne_rat _ _ _ _ (by omega)]
      exact i2
  exact (key 14 (Nat.le_refl _)).2

/-- When bins 1 to 14 are empty, `rightArea[0]` is the area of the box of bin 15 alone. -/
theorem right_sweep_area_zero (P : Platform) (bins : List Bin)
    (h15 : 0 < (bins.getD 15 Bin.init).count)
    (hmid : ∀ b, 1 ≤ b → b ≤ 14 → (bins.getD b Bin.init).count = 0) :
    (right_sweep P bins).area.getD 0 0
      = get_surface_area P (bin_box (bins.getD 15 Bin.init)).1
          (bin_box (bins.getD 15 Bin.init)).2 := by
  have key : ∀ m j, j + (m + 1) = 15 →
      ((List.range' j (m + 1)).reverse.foldl
          (fun s i => sweep_step P s (bins.getD (i + 1) Bin.init) i) Sweep.init).currentMin
        = (bin_box (bins.getD 15 Bin.init)).1 ∧
      ((List.range' j (m + 1)).reverse.foldl
          (fun s i => sweep_step P s (bins.getD (i + 1) Bin.init) i) Sweep.init).currentMax
        = (bin_box (bins.getD 15 Bin.init)).2 ∧
      ((List.range' j (m + 1)).reverse.foldl
          (fun s i => sweep_step P s (bins.getD (i + 1) Bin.init) i) Sweep.init).area.length
        = 15 ∧
      ((List.range' j (m + 1)).reverse.foldl
          (fun s i => sweep_step P s (bins.getD (i + 1) Bin.init) i) Sweep.init).area.getD j 0
        = get_surface_area P (bin_box (bins.getD 15 Bin.init)).1
            (bin_box (bins.getD 15 Bin.init)).2 := by
    intro m
    induction m with
    | zero =>
      intro j hj
      have : j = 14 := by omega
      subst this
      have e : (List.range' 14 (0 + 1)).reverse = [14] := rfl
      rw [e]
      simp only [List.foldl_cons, List.foldl_nil]
      unfold sweep_step
      simp only [h15, if_true]
      refine ⟨rfl, rfl, by simp [Sweep.init, BVH_BINS], ?_⟩
      rw [getD_set_self_rat _ _ _ (by simp [Sweep.init, BVH_BINS])]
      rfl
    | succ m ih =>
      intro j hj
      obtain ⟨i1, i2, i3, _⟩ := ih (j + 1) (by omega)
      rw [List.range'_succ, List.reverse_cons, List.foldl_append]
      simp only [List.foldl_cons, List.foldl_nil]
      generalize (List.range' (j + 1) (m + 1)).reverse.foldl
        (fun s i => sweep_step P s (bins.getD (i + 1) Bin.init) i) Sweep.init = S at i1 i2 i3
      have hz := hmid (j + 1) (by omega) (by omega)
      unfold sweep_step
      simp only [hz, Nat.lt_irrefl, if_false]
      refine ⟨i1, i2, by rw [List.length_set]; exact i3, ?_⟩
      rw [getD_set_self_rat _ _ _ (by omega), i1, i2]
  have h := (key 14 0 (by norm_num)).2.2.2
  have e : List.range (BVH_BINS - 1) = List.range' 0 (14 + 1) := by
    rw [List.range_eq_range']
    rfl
  unfold right_sweep
  rw [e]
  exact h

/-- The box of one bin lies inside every box that contains both corners of the bin. -/
theorem bin_box_inside (b : Bin) (lo hi : u16vec3)
    (h1 : u16vec3.le lo b.min) (h2 : u16vec3.le b.min hi)
    (h3 : u16vec3.le lo b.max) (h4 : u16vec3.le b.max hi) :
    u16vec3.le lo (bin_box b).1 ∧ u16vec3.le (bin_box b).2 hi ∧
    u16vec3.le (bin_box b).1 (bin_box b).2 := by
  unfold bin_box
  rw [grow_bounds_init]
  obtain ⟨a1, a2, a3, a4, a5, a6⟩ := grow_bounds_val b.min b.min b.max
  unfold u16vec3.le at *
  simp only []
  omega

/-- The `min` corner of a bin stays above every lower bound of the `min` corners of the
triangles mapped to it. -/
theorem bins_fold_lower (k : Nat → Int) (t : Nat → CachedTriangle) (lo : u16vec3)
    (l : List Nat) (bins0 : List Bin) (h0 : bins0.length = 16) (b : Nat) (hb : b < 16)
    (hinit : u16vec3.le lo (bins0.getD b Bin.init).min)
    (hl : ∀ i ∈ l, k i = (b : Int) → u16vec3.le lo (t i).min) :
    u16vec3.le lo ((l.foldl (fun bins i =>
        if 0 ≤ k i then bins.set (k i).toNat (bin_add (bins.getD (k i).toNat Bin.init) (t i))
        else bins) bins0).getD b Bin.init).min := by
  induction l using List.reverseRecOn with
  | nil => exact hinit
  | append_singleton l a ih =>
    have ih := ih (fun i hi => hl i (List.mem_append_left _ hi))
    have hlen := (bins_fold_spec k t l bins0 h0 b hb).1
    rw [List.foldl_append]
    simp only [List.foldl_cons, List.foldl_nil]
    generalize l.foldl (fun bins i =>
        if 0 ≤ k i then bins.set (k i).toNat (bin_add (bins.getD (k i).toNat Bin.init) (t i))
        else bins) bins0 = prev at ih hlen
    by_cases hka : k a = (b : Int)
    · have hpos : 0 ≤ k a := by omega
      have hnat : (k a).toNat = b := by omega
      rw [if_pos hpos, hnat, List.getD_eq_getElem?_getD, List.getElem?_set_self (by omega)]
      have ha := hl a (by simp) hka
      obtain ⟨g1, g2, g3, _, _, _⟩ := grow_bounds_val (prev.getD b Bin.init).min
        (prev.getD b Bin.init).max (t a).min
      show u16vec3.le lo (grow_bounds (prev.getD b Bin.init).min
        (prev.getD b Bin.init).max (t a).min).1
      unfold u16vec3.le at *
      omega
    · have hget : (if 0 ≤ k a then
            prev.set (k a).toNat (bin_add (prev.getD (k a).toNat Bin.init) (t a))
          else prev).getD b Bin.init = prev.getD b Bin.init := by
        split_ifs with hp
        · rw [List.getD_eq_getElem?_getD, List.getElem?_set_ne (by omega),
            ← List.getD_eq_getElem?_getD]
        · rfl
      rw [hget]
      exact ih

/-! ### The cost of a boundary against the leaf cost -/

/-- With child areas at most half the parent area (up to rounding) the cost of the
boundary is below the leaf cost, and the leaf cost is a finite float. -/
theorem cost_lt_leaf (P : Platform) (hm : Monotone P.rnd) (h0 : P.rnd 0 = 0)
    (herr : ∀ x, |P.rnd x - x| ≤ 1 / 2 ^ 24 * |x| + 1 / 2 ^ 150)
    (nL nR : Nat) (aL aR aP S : ℚ)
    (hn : 3 ≤ nL + nR) (hsz : nL + nR < 2 ^ 31) (hS1 : 1 ≤ S) (hS2 : S ≤ 2 ^ 35)
    (haL0 : 0 ≤ aL) (haL : aL ≤ (1 + 1 / 2 ^ 21) * (S / 2) + 1 / 2 ^ 140)
    (haR0 : 0 ≤ aR) (haR : aR ≤ (1 + 1 / 2 ^ 21) * (S / 2) + 1 / 2 ^ 140)
    (haP : (1 - 1 / 2 ^ 21) * S - 1 / 2 ^ 140 ≤ aP) :
    P.rnd (P.rnd (P.rnd (nL : ℚ) * aL) + P.rnd (P.rnd (nR : ℚ) * aR))
      < P.rnd (P.rnd ((nL + nR : Nat) : ℚ) * aP) := by
  have hL0 : (0 : ℚ) ≤ (nL : ℚ) := Nat.cast_nonneg _
  have hR0 : (0 : ℚ) ≤ (nR : ℚ) := Nat.cast_nonneg _
  have hN : ((nL + nR : Nat) : ℚ) = (nL : ℚ) + (nR : ℚ) := by push_cast; ring
  have hN3 : (3 : ℚ) ≤ (nL : ℚ) + (nR : ℚ) := by exact_mod_cast hn
  have hNu : (nL : ℚ) + (nR : ℚ) ≤ 2 ^ 31 := by
    have : nL + nR ≤ 2 ^ 31 := by omega
    exact_mod_cast this
  have hS0 : (0 : ℚ) ≤ S := le_trans zero_le_one hS1
  have hNN : (0 : ℚ) ≤ (nL : ℚ) + (nR : ℚ) := add_nonneg hL0 hR0
  have z3 : 3 ≤ (nL : ℚ) * S + (nR : ℚ) * S := by
    have : ((nL : ℚ) + (nR : ℚ)) * 1 ≤ ((nL : ℚ) + (nR : ℚ)) * S :=
      mul_le_mul_of_nonneg_left hS1 hNN
    linarith only [this, hN3]
  clear hn hsz
  obtain ⟨rL0, rLu, _⟩ := rnd_bounds P hm h0 herr (nL : ℚ) hL0
  obtain ⟨rR0, rRu, _⟩ := rnd_bounds P hm h0 herr (nR : ℚ) hR0
  obtain ⟨rN0, rNu, rNl⟩ := rnd_bounds P hm h0 herr ((nL : ℚ) + (nR : ℚ)) (by linarith)
  have haP0 : 0 ≤ aP := by
    norm_num at haP ⊢
    linarith
  -- the two products of the cost
  have pL : P.rnd (nL : ℚ) * aL
      ≤ ((1 + 1 / 2 ^ 24) * (nL : ℚ) + 1 / 2 ^ 150)
        * ((1 + 1 / 2 ^ 21) * (S / 2) + 1 / 2 ^ 140) :=
    mul_le_mul rLu haL haL0 (by linarith)
  have pR : P.rnd (nR : ℚ) * aR
      ≤ ((1 + 1 / 2 ^ 24) * (nR : ℚ) + 1 / 2 ^ 150)
        * ((1 + 1 / 2 ^ 21) * (S / 2) + 1 / 2 ^ 140) :=
    mul_le_mul rRu haR haR0 (by linarith)
  have eL : ((1 + 1 / 2 ^ 24) * (nL : ℚ) + 1 / 2 ^ 150)
        * ((1 + 1 / 2 ^ 21) * (S / 2) + 1 / 2 ^ 140)
      = (1 + 1 / 2 ^ 24) * (1 + 1 / 2 ^ 21) / 2 * ((nL : ℚ) * S)
        + (1 + 1 / 2 ^ 24) / 2 ^ 140 * (nL : ℚ) + (1 + 1 / 2 ^ 21) / 2 / 2 ^ 150 * S
        + 1 / 2 ^ 150 / 2 ^ 140 := by ring
  have eR : ((1 + 1 / 2 ^ 24) * (nR : ℚ) + 1 / 2 ^ 150)
        * ((1 + 1 / 2 ^ 21) * (S / 2) + 1 / 2 ^ 140)
      = (1 + 1 / 2 ^ 24) * (1 + 1 / 2 ^ 21) / 2 * ((nR : ℚ) * S)
        + (1 + 1 / 2 ^ 24) / 2 ^ 140 * (nR : ℚ) + (1 + 1 / 2 ^ 21) / 2 / 2 ^ 150 * S
        + 1 / 2 ^ 150 / 2 ^ 140 := by ring
  rw [eL] at pL
  rw [eR] at pR
  obtain ⟨qL0, qLu, _⟩ := rnd_bounds P hm h0 herr (P.rnd (nL : ℚ) * aL)
    (mul_nonneg rL0 haL0)
  obtain ⟨qR0, qRu, _⟩ := rnd_bounds P hm h0 herr (P.rnd (nR : ℚ) * aR)
    (mul_nonneg rR0 haR0)
  obtain ⟨_, cu, _⟩ := rnd_bounds P hm h0 herr
    (P.rnd (P.rnd (nL : ℚ) * aL) + P.rnd (P.rnd (nR : ℚ) * aR)) (by linarith)
  -- the product of the leaf cost
  have pPl : ((1 - 1 / 2 ^ 24) * ((nL : ℚ) + (nR : ℚ)) - 1 / 2 ^ 150)
        * ((1 - 1 / 2 ^ 21) * S - 1 / 2 ^ 140)
      ≤ P.rnd ((nL : ℚ) + (nR : ℚ)) * aP :=
    mul_le_mul rNl haP (by norm_num at hS1 ⊢; linarith) rN0
  have ePl : ((1 - 1 / 2 ^ 24) * ((nL : ℚ) + (nR : ℚ)) - 1 / 2 ^ 150)
        * ((1 - 1 / 2 ^ 21) * S - 1 / 2 ^ 140)
      = (1 - 1 / 2 ^ 24) * (1 - 1 / 2 ^ 21) * ((nL : ℚ) * S + (nR : ℚ) * S)
        - (1 - 1 / 2 ^ 24) / 2 ^ 140 * ((nL : ℚ) + (nR : ℚ))
        - (1 - 1 / 2 ^ 21) / 2 ^ 150 * S + 1 / 2 ^ 150 / 2 ^ 140 := by ring
  rw [ePl] at pPl
  obtain ⟨_, _, ll⟩ := rnd_bounds P hm h0 herr (P.rnd ((nL : ℚ) + (nR : ℚ)) * aP)
    (mul_nonneg rN0 haP0)
  have zL : 0 ≤ (nL : ℚ) * S := mul_nonneg hL0 (by linarith)
  have zR : 0 ≤ (nR : ℚ) * S := mul_nonneg hR0 (by linarith)
  rw [hN]
  generalize (nL : ℚ) * S = XL at *
  generalize (nR : ℚ) * S = XR at *
  generalize P.rnd (P.rnd (nL : ℚ) * aL) = q1 at *
  generalize P.rnd (P.rnd (nR : ℚ) * aR) = q2 at *
  generalize P.rnd (nL : ℚ) * aL = p1 at *
  generalize P.rnd (nR : ℚ) * aR = p2 at *
  generalize P.rnd (q1 + q2) = c at *
  generalize P.rnd ((nL : ℚ) + (nR : ℚ)) * aP = pp at *
  generalize P.rnd pp = lf at *
  generalize (nL : ℚ) = x at *
  generalize (nR : ℚ) = y at *
  norm_num at cu qLu qRu pL pR ll pPl hNu hS2 ⊢
  linarith only [cu, qLu, qRu, pL, pR, ll, pPl, hNu, hS2, z3, zL, zR, hL0, hR0, hS1]

/-- The leaf cost of a node of fewer than `2 ^ 31` triangles is a finite float. -/
theorem leaf_cost_finite (P : Platform) (hm : Monotone P.rnd) (h0 : P.rnd 0 = 0)
    (herr : ∀ x, |P.rnd x - x| ≤ 1 / 2 ^ 24 * |x| + 1 / 2 ^ 150)
    (n : Nat) (aP S : ℚ) (hsz : n < 2 ^ 31) (hS2 : S ≤ 2 ^ 35)
    (haP0 : 0 ≤ aP) (haPu : aP ≤ (1 + 1 / 2 ^ 21) * S + 1 / 2 ^ 140) :
    P.rnd (P.rnd (n : ℚ) * aP) ≤ FLT_MAX := by
  have hn0 : (0 : ℚ) ≤ (n : ℚ) := Nat.cast_nonneg _
  have hNu : (n : ℚ) ≤ 2 ^ 31 := by
    have : n ≤ 2 ^ 31 := by omega
    exact_mod_cast this
  clear hsz
  obtain ⟨rN0, rNu, _⟩ := rnd_bounds P hm h0 herr (n : ℚ) hn0
  have hNu2 : (n : ℚ) ≤ 2147483648 := by
    norm_num at hNu ⊢
    exact_mod_cast hNu
  have b1 : P.rnd (n : ℚ) ≤ 2 ^ 32 := by
    norm_num at rNu ⊢
    linarith only [rNu, hNu2]
  have b2 : aP ≤ 2 ^ 36 := by
    norm_num at haPu hS2 ⊢
    linarith only [haPu, hS2]
  have b3 : P.rnd (n : ℚ) * aP ≤ 2 ^ 32 * 2 ^ 36 := mul_le_mul b1 b2 haP0 (by norm_num)
  obtain ⟨_, lu, _⟩ := rnd_bounds P hm h0 herr (P.rnd (n : ℚ) * aP) (mul_nonneg rN0 haP0)
  have hF : (2 : ℚ) ^ 100 ≤ FLT_MAX := by unfold FLT_MAX; norm_num
  refine le_trans ?_ hF
  norm_num at lu b3 ⊢
  linarith only [lu, b3]

theorem best_split_le (P : Platform) (l r : Sweep) (i : Nat) (hi : i < 15) :
    (best_split P l r).1 ≤ split_cost P l r i := by
  have key : ∀ (xs : List Nat) (best : ℚ × Int),
      (xs.foldl (fun (best : ℚ × Int) i =>
        if split_cost P l r i < best.1 then (split_cost P l r i, (i : Int)) else best) best).1
        ≤ best.1 ∧
      ∀ j ∈ xs, (xs.foldl (fun (best : ℚ × Int) i =>
        if split_cost P l r i < best.1 then (split_cost P l r i, (i : Int)) else best) best).1
        ≤ split_cost P l r j := by
    intro xs
    induction xs with
    | nil => intro best; exact ⟨le_refl _, fun j hj => by simp at hj⟩
    | cons a xs ih =>
      intro best
      simp only [List.foldl_cons, List.mem_cons, forall_eq_or_imp]
      obtain ⟨i1, i2⟩ := ih (if split_cost P l r a < best.1 then (split_cost P l r a, (a : Int))
        else best)
      have hstep : (if split_cost P l r a < best.1 then (split_cost P l r a, (a : Int))
          else best).1 ≤ best.1 ∧
          (if split_cost P l r a < best.1 then (split_cost P l r a, (a : Int))
          else best).1 ≤ split_cost P l r a := by
        split_ifs with h
        · exact ⟨le_of_lt h, le_refl _⟩
        · exact ⟨le_refl _, not_lt.1 h⟩
      exact ⟨le_trans i1 hstep.1, le_trans i1 hstep.2, i2⟩
  have := (key (List.range (BVH_BINS - 1)) (FLT_MAX, -1)).2 i
    (List.mem_range.2 (by unfold BVH_BINS; omega))
  exact this

theorem choose_axis_of_largest (cMin cMax : u16vec3) (a : Nat) (ha : a ≤ 2)
    (hmax : ∀ a2, a2 ≤ 2 → centroid_extent a2 cMin cMax ≤ centroid_extent a cMin cMax)
    (htie : ∀ a2, a2 < a → centroid_extent a2 cMin cMax < centroid_extent a cMin cMax) :
    choose_axis cMin cMax = a := by
  have v0 : ∀ v, axis_val 0 v = (v.x.val : Int) := fun v => rfl
  have v1 : ∀ v, axis_val 1 v = (v.y.val : Int) := fun v => rfl
  have v2 : ∀ v, axis_val 2 v = (v.z.val : Int) := fun v => rfl
  have m0 := hmax 0 (by omega)
  have m1 := hmax 1 (by omega)
  have m2 := hmax 2 (by omega)
  unfold choose_axis
  unfold centroid_extent at m0 m1 m2 htie
  interval_cases a
  · simp only [v0, v1, v2] at m0 m1 m2
    simp only []
    split_ifs <;> omega
  · have t0 := htie 0 (by omega)
    simp only [v0, v1, v2] at m0 m1 m2 t0
    simp only []
    split_ifs <;> omega
  · have t0 := htie 0 (by omega)
    have t1 := htie 1 (by omega)
    simp only [v0, v1, v2] at m0 m1 m2 t0 t1
    simp only []
    split_ifs <;> omega

/-! ### A bin that collects one group of triangles -/

/-- If every triangle mapped to bin `b` has both corners inside the box `[lo, hi]`, and
some triangle is mapped to it, the bin is non-empty and its box lies inside `[lo, hi]`. -/
theorem bins_fold_group (k : Nat → Int) (t : Nat → CachedTriangle) (l : List Nat)
    (b : Nat) (hb : b < 16) (lo hi : u16vec3)
    (hin : ∀ i ∈ l, k i = (b : Int) →
      u16vec3.le lo (t i).min ∧ u16vec3.le (t i).min hi ∧
      u16vec3.le lo (t i).max ∧ u16vec3.le (t i).max hi)
    (hex : ∃ i ∈ l, k i = (b : Int)) :
    0 < ((l.foldl (fun bins i =>
        if 0 ≤ k i then bins.set (k i).toNat (bin_add (bins.getD (k i).toNat Bin.init) (t i))
        else bins) (List.replicate BVH_BINS Bin.init)).getD b Bin.init).count ∧
    u16vec3.le lo (bin_box ((l.foldl (fun bins i =>
        if 0 ≤ k i then bins.set (k i).toNat (bin_add (bins.getD (k i).toNat Bin.init) (t i))
        else bins) (List.replicate BVH_BINS Bin.init)).getD b Bin.init)).1 ∧
    u16vec3.le (bin_box ((l.foldl (fun bins i =>
        if 0 ≤ k i then bins.set (k i).toNat (bin_add (bins.getD (k i).toNat Bin.init) (t i))
        else bins) (List.replicate BVH_BINS Bin.init)).getD b Bin.init)).2 hi ∧
    u16vec3.le (bin_box ((l.foldl (fun bins i =>
        if 0 ≤ k i then bins.set (k i).toNat (bin_add (bins.getD (k i).toNat Bin.init) (t i))
        else bins) (List.replicate BVH_BINS Bin.init)).getD b Bin.init)).1
      (bin_box ((l.foldl (fun bins i =>
        if 0 ≤ k i then bins.set (k i).toNat (bin_add (bins.getD (k i).toNat Bin.init) (t i))
        else bins) (List.replicate BVH_BINS Bin.init)).getD b Bin.init)).2 := by
  have hlen0 : (List.replicate BVH_BINS Bin.init).length = 16 := by simp [BVH_BINS]
  have hinit : (List.replicate BVH_BINS Bin.init).getD b Bin.init = Bin.init := by
    interval_cases b <;> rfl
  obtain ⟨_, i2, _, i4, i5⟩ := bins_fold_spec k t l _ hlen0 b hb
  have hlow := bins_fold_lower k t lo l _ hlen0 b hb
    (by
      rw [hinit]
      have hx := lo.x.isLt
      have hy := lo.y.isLt
      have hz := lo.z.isLt
      have t1 : (65535 : Fin 65536).val = 65535 := rfl
      unfold u16vec3.le
      simp only [Bin.init, u16vec3.top, t1]
      omega)
    (fun i hi hk => (hin i hi hk).1)
  obtain ⟨g, hg, hkg⟩ := hex
  have hne : l.filter (fun i => decide (k i = (b : Int))) ≠ [] := by
    intro h
    have : g ∈ l.filter (fun i => decide (k i = (b : Int))) :=
      List.mem_filter.2 ⟨hg, by simp [hkg]⟩
    rw [h] at this
    simp at this
  have hj := List.getLast_mem hne
  obtain ⟨hj1, hj2⟩ := List.mem_filter.1 hj
  simp only [decide_eq_true_eq] at hj2
  rw [List.getLast?_eq_getLast _ hne] at i5
  simp only [Option.map_some', Option.getD_some] at i5
  generalize (l.filter (fun i => decide (k i = (b : Int)))).getLast hne = j at hj1 hj2 i5
  obtain ⟨j1, j2, j3, j4⟩ := hin j hj1 hj2
  have i4j := i4 j hj1 hj2
  generalize (l.foldl (fun bins i =>
        if 0 ≤ k i then bins.set (k i).toNat (bin_add (bins.getD (k i).toNat Bin.init) (t i))
        else bins) (List.replicate BVH_BINS Bin.init)).getD b Bin.init = bin at *
  have hcount : 0 < bin.count := by
    rw [i2]
    have : 0 < (l.filter (fun i => decide (k i = (b : Int)))).length :=
      List.length_pos.2 hne
    omega
  have hmin_hi : u16vec3.le bin.min hi := by
    unfold u16vec3.le at *
    omega
  exact ⟨hcount, bin_box_inside bin lo hi hlow hmin_hi (by rw [i5]; exact j3)
    (by rw [i5]; exact j4)⟩

theorem tri_points_mem (obj : Object) (s : List Nat) (i : Nat) (hi : i ∈ s) :
    (obj.mesh.getD i CachedTriangle.zero).min ∈ tri_points obj s ∧
    (obj.mesh.getD i CachedTriangle.zero).max ∈ tri_points obj s := by
  unfold tri_points
  exact ⟨List.mem_flatMap.2 ⟨i, hi, by simp⟩, List.mem_flatMap.2 ⟨i, hi, by simp⟩⟩

/-- The hull of a non-empty group contains both corners of each of its triangles. -/
theorem group_hull_contains (obj : Object) (s : List Nat) (hs : s ≠ []) (i : Nat)
    (hi : i ∈ s) :
    u16vec3.le (group_hull obj s).1 (obj.mesh.getD i CachedTriangle.zero).min ∧
    u16vec3.le (obj.mesh.getD i CachedTriangle.zero).min (group_hull obj s).2 ∧
    u16vec3.le (group_hull obj s).1 (obj.mesh.getD i CachedTriangle.zero).max ∧
    u16vec3.le (obj.mesh.getD i CachedTriangle.zero).max (group_hull obj s).2 := by
  obtain ⟨h, _⟩ := hull_pts_isHull (tri_points obj s) (tri_points_ne_nil obj s hs)
  obtain ⟨m1, m2⟩ := tri_points_mem obj s i hi
  exact ⟨(h _ m1).1, (h _ m1).2, (h _ m2).1, (h _ m2).2⟩

theorem root_triAt (obj : Object) (i : Nat) (hi : i < obj.mesh.length) :
    triAt obj (List.range obj.mesh.length) (0 + i) = obj.mesh.getD i CachedTriangle.zero := by
  unfold triAt
  have e : (List.range obj.mesh.length).getD i 0 = i := by
    rw [List.getD_eq_getElem _ _ (by simpa using hi), List.getElem_range]
  rw [Nat.zero_add, e]

theorem root_centroids_eq (obj : Object) : root_centroids obj = centroid_hull obj := by
  unfold root_centroids centroid_hull
  rw [centroid_bounds_eq]
  congr 1
  conv => rhs; rw [← map_getD_range obj]
  rw [List.map_map]
  apply List.map_congr_left
  intro i hi
  simp only [Function.comp]
  rw [root_triAt obj i (List.mem_range.1 hi)]

theorem root_box_eq (obj : Object) :
    node_bounds obj (List.range obj.mesh.length) 0 obj.mesh.length = mesh_hull obj := by
  unfold mesh_hull
  rw [node_bounds_eq _ _ _ _ (by simp)]
  have e : slice (List.range obj.mesh.length) 0 obj.mesh.length
      = List.range obj.mesh.length := by simp [slice]
  rw [e, tri_points_range]

theorem hull_pts_le (pts : List u16vec3) (hne : pts ≠ []) :
    u16vec3.le (hull_pts pts (u16vec3.top, u16vec3.zero)).1
      (hull_pts pts (u16vec3.top, u16vec3.zero)).2 := by
  have h := hull_pts_isHull pts hne
  exact (isHull_nested _ _ _ _ _ _ h h (fun p hp => hp)).2.2

/-! ### The root call on two separated groups -/

theorem root_node_bin (P : Platform) (obj : Object) (i : Nat) (hi : i < obj.mesh.length) :
    node_bin P obj (List.range obj.mesh.length) (root_init obj) i
      = min 15 (root_bin P obj i) := by
  show bin_index P (root_axis obj) (root_centroids obj).1 (bin_scale P (root_extent obj))
    (triAt obj (List.range obj.mesh.length) (0 + i)) = _
  rw [root_triAt obj i hi]
  rfl

theorem root_centroid_in_hull (obj : Object) (a i : Nat) (hi : i < obj.mesh.length) :
    axis_val a (centroid_hull obj).1
      ≤ axis_val a (obj.mesh.getD i CachedTriangle.zero).centroid ∧
    axis_val a (obj.mesh.getD i CachedTriangle.zero).centroid
      ≤ axis_val a (centroid_hull obj).2 := by
  have h := node_centroids_bounds obj (List.range obj.mesh.length) (root_init obj) a i hi
  have e1 : node_centroids obj (List.range obj.mesh.length) (root_init obj)
      = centroid_hull obj := root_centroids_eq obj
  have e2 : triAt obj (List.range obj.mesh.length) ((root_init obj).leftFirst + i)
      = obj.mesh.getD i CachedTriangle.zero := root_triAt obj i hi
  rw [e1, e2] at h
  exact h

theorem centroid_extent_le (a : Nat) (cMin cMax : u16vec3) :
    centroid_extent a cMin cMax ≤ 65535 := by
  have h1 := cMax.x.isLt
  have h2 := cMax.y.isLt
  have h3 := cMax.z.isLt
  unfold centroid_extent axis_val
  split_ifs <;> omega

/-- The bins of the root call when the centroids of group `A` lie in the lowest and
those of group `B` in the highest thirty-second of the centroid range on the axis of
largest centroid extent. -/
theorem root_bins_of_groups (P : Platform) (hm : Monotone P.rnd) (h0 : P.rnd 0 = 0)
    (herr : ∀ x, |P.rnd x - x| ≤ 1 / 2 ^ 24 * |x| + 1 / 2 ^ 150) (obj : Object)
    (A B : List Nat) (hAB : (A ++ B).Perm (List.range obj.mesh.length))
    (a : Nat) (ha : a ≤ 2)
    (hmax : ∀ a2, a2 ≤ 2 → centroid_extent a2 (centroid_hull obj).1 (centroid_hull obj).2
      ≤ centroid_extent a (centroid_hull obj).1 (centroid_hull obj).2)
    (htie : ∀ a2, a2 < a → centroid_extent a2 (centroid_hull obj).1 (centroid_hull obj).2
      < centroid_extent a (centroid_hull obj).1 (centroid_hull obj).2)
    (hsep : 32 ≤ centroid_extent a (centroid_hull obj).1 (centroid_hull obj).2)
    (hlow : ∀ i ∈ A,
      32 * (axis_val a (obj.mesh.getD i CachedTriangle.zero).centroid
          - axis_val a (centroid_hull obj).1)
        ≤ centroid_extent a (centroid_hull obj).1 (centroid_hull obj).2)
    (hhigh : ∀ i ∈ B,
      32 * (axis_val a (centroid_hull obj).2
          - axis_val a (obj.mesh.getD i CachedTriangle.zero).centroid)
        ≤ centroid_extent a (centroid_hull obj).1 (centroid_hull obj).2) :
    root_axis obj = a ∧ lit_1em4 ≤ root_extent obj ∧
    (∀ i ∈ A, root_bin P obj i ≤ 0) ∧ (∀ i ∈ B, 15 ≤ root_bin P obj i) := by
  have hax : root_axis obj = a := by
    unfold root_axis
    rw [root_centroids_eq]
    exact choose_axis_of_largest _ _ a ha hmax htie
  have hEu := centroid_extent_le a (centroid_hull obj).1 (centroid_hull obj).2
  have hext : root_extent obj
      = ((centroid_extent a (centroid_hull obj).1 (centroid_hull obj).2 : Int) : ℚ) := by
    unfold root_extent
    rw [hax, root_centroids_eq]
    rfl
  have hE1 : (32 : ℚ)
      ≤ ((centroid_extent a (centroid_hull obj).1 (centroid_hull obj).2 : Int) : ℚ) := by
    exact_mod_cast hsep
  have hE2 : ((centroid_extent a (centroid_hull obj).1 (centroid_hull obj).2 : Int) : ℚ)
      ≤ 65535 := by exact_mod_cast hEu
  have hmem : ∀ i, i ∈ A ∨ i ∈ B → i < obj.mesh.length := by
    intro i hi
    have : i ∈ A ++ B := List.mem_append.2 hi
    exact List.mem_range.1 ((hAB.mem_iff).1 this)
  have hraw : ∀ i, root_bin P obj i
      = truncToInt (P.rnd
          (((axis_val a (obj.mesh.getD i CachedTriangle.zero).centroid
              - axis_val a (centroid_hull obj).1 : Int) : ℚ)
            * bin_scale P
              ((centroid_extent a (centroid_hull obj).1 (centroid_hull obj).2 : Int) : ℚ))) := by
    intro i
    unfold root_bin bin_raw
    rw [hext, hax, root_centroids_eq]
  refine ⟨hax, ?_, ?_, ?_⟩
  · rw [hext]
    have : lit_1em4 ≤ 32 := by unfold lit_1em4; norm_num
    linarith
  · intro i hi
    obtain ⟨c1, _⟩ := root_centroid_in_hull obj a i (hmem i (Or.inl hi))
    have hl := hlow i hi
    rw [hraw i]
    apply trunc_low P hm h0 herr _ _ hE1 hE2
    · have : (0 : Int) ≤ axis_val a (obj.mesh.getD i CachedTriangle.zero).centroid
          - axis_val a (centroid_hull obj).1 := by omega
      exact_mod_cast this
    · exact_mod_cast hl
  · intro i hi
    obtain ⟨_, c2⟩ := root_centroid_in_hull obj a i (hmem i (Or.inr hi))
    have hh := hhigh i hi
    rw [hraw i]
    apply trunc_high P hm h0 herr _ _ hE1 hE2
    · have : axis_val a (obj.mesh.getD i CachedTriangle.zero).centroid
          - axis_val a (centroid_hull obj).1
          ≤ centroid_extent a (centroid_hull obj).1 (centroid_hull obj).2 := by
        unfold centroid_extent
        omega
      exact_mod_cast this
    · have : 31 * centroid_extent a (centroid_hull obj).1 (centroid_hull obj).2
          ≤ 32 * (axis_val a (obj.mesh.getD i CachedTriangle.zero).centroid
            - axis_val a (centroid_hull obj).1) := by
        unfold centroid_extent at hh ⊢
        omega
      exact_mod_cast this

theorem mesh_hull_le (obj : Object) (hn : 1 ≤ obj.mesh.length) :
    u16vec3.le (mesh_hull obj).1 (mesh_hull obj).2 := by
  unfold mesh_hull
  apply hull_pts_le
  rw [← tri_points_range]
  apply tri_points_ne_nil
  intro h
  rw [List.range_eq_nil] at h
  omega

/-- The cost test of the root call when group `A` fills bin 0 and group `B` bin 15, the
box of each group has at most half the surface area of the box of the whole mesh, and
that area is positive. -/
theorem root_cost_of_groups (P : Platform) (hm : Monotone P.rnd) (h0 : P.rnd 0 = 0)
    (herr : ∀ x, |P.rnd x - x| ≤ 1 / 2 ^ 24 * |x| + 1 / 2 ^ 150) (obj : Object)
    (A B : List Nat) (hn : 3 ≤ obj.mesh.length) (hsize : obj.mesh.length < 2 ^ 31)
    (hA : A ≠ []) (hB : B ≠ [])
    (hAB : (A ++ B).Perm (List.range obj.mesh.length))
    (binA : ∀ i ∈ A, root_bin P obj i ≤ 0) (binB : ∀ i ∈ B, 15 ≤ root_bin P obj i)
    (hareaA : 2 * box_area (group_hull obj A).1 (group_hull obj A).2
      ≤ box_area (mesh_hull obj).1 (mesh_hull obj).2)
    (hareaB : 2 * box_area (group_hull obj B).1 (group_hull obj B).2
      ≤ box_area (mesh_hull obj).1 (mesh_hull obj).2)
    (hpos : 0 < box_area (mesh_hull obj).1 (mesh_hull obj).2) :
    (root_best P obj).1 < root_leaf_cost P obj ∧ root_leaf_cost P obj ≤ FLT_MAX := by
  have hp : ∀ x, 0 ≤ x → 0 ≤ P.rnd x := by
    intro x hx
    have := hm hx
    rw [h0] at this
    exact this
  have hmem : ∀ i, i ∈ A ∨ i ∈ B → i < obj.mesh.length := by
    intro i hi
    have : i ∈ A ++ B := List.mem_append.2 hi
    exact List.mem_range.1 ((hAB.mem_iff).1 this)
  have hcover : ∀ i, i < obj.mesh.length → i ∈ A ∨ i ∈ B := by
    intro i hi
    exact List.mem_append.1 ((hAB.mem_iff).2 (List.mem_range.2 hi))
  -- the bin index of every position
  have kA : ∀ i ∈ A, node_bin P obj (List.range obj.mesh.length) (root_init obj) i = 0 := by
    intro i hi
    have h1 := root_node_bin P obj i (hmem i (Or.inl hi))
    have h2 := (node_bin_range P hp obj (List.range obj.mesh.length) (root_init obj) i
      (hmem i (Or.inl hi))).1
    have h3 := binA i hi
    rw [h1] at h2 ⊢
    omega
  have kB : ∀ i ∈ B, node_bin P obj (List.range obj.mesh.length) (root_init obj) i = 15 := by
    intro i hi
    have h1 := root_node_bin P obj i (hmem i (Or.inr hi))
    have h3 := binB i hi
    rw [h1]
    omega
  -- the two end bins
  have g0 := bins_fold_group
    (fun i => bin_index P (root_axis obj) (root_centroids obj).1
      (bin_scale P (root_extent obj)) (triAt obj (List.range obj.mesh.length) (0 + i)))
    (fun i => triAt obj (List.range obj.mesh.length) (0 + i))
    (List.range obj.mesh.length) 0 (by norm_num) (group_hull obj A).1 (group_hull obj A).2
    (by
      intro i hi hk
      have hi := List.mem_range.1 hi
      have hiA : i ∈ A := by
        rcases hcover i hi with h | h
        · exact h
        · have := kB i h
          have e : node_bin P obj (List.range obj.mesh.length) (root_init obj) i = 0 := hk
          omega
      simp only []
      rw [root_triAt obj i hi]
      exact group_hull_contains obj A hA i hiA)
    (by
      obtain ⟨g, hg⟩ := List.exists_mem_of_ne_nil A hA
      exact ⟨g, List.mem_range.2 (hmem g (Or.inl hg)), kA g hg⟩)
  have g15 := bins_fold_group
    (fun i => bin_index P (root_axis obj) (root_centroids obj).1
      (bin_scale P (root_extent obj)) (triAt obj (List.range obj.mesh.length) (0 + i)))
    (fun i => triAt obj (List.range obj.mesh.length) (0 + i))
    (List.range obj.mesh.length) 15 (by norm_num) (group_hull obj B).1 (group_hull obj B).2
    (by
      intro i hi hk
      have hi := List.mem_range.1 hi
      have hiB : i ∈ B := by
        rcases hcover i hi with h | h
        · have := kA i h
          have e : node_bin P obj (List.range obj.mesh.length) (root_init obj) i
              = ((15 : Nat) : Int) := hk
          omega
        · exact h
      simp only []
      rw [root_triAt obj i hi]
      exact group_hull_contains obj B hB i hiB)
    (by
      obtain ⟨g, hg⟩ := List.exists_mem_of_ne_nil B hB
      exact ⟨g, List.mem_range.2 (hmem g (Or.inr hg)), kB g hg⟩)
  have g0 : 0 < ((root_bins P obj).getD 0 Bin.init).count ∧
      u16vec3.le (group_hull obj A).1 (bin_box ((root_bins P obj).getD 0 Bin.init)).1 ∧
      u16vec3.le (bin_box ((root_bins P obj).getD 0 Bin.init)).2 (group_hull obj A).2 ∧
      u16vec3.le (bin_box ((root_bins P obj).getD 0 Bin.init)).1
        (bin_box ((root_bins P obj).getD 0 Bin.init)).2 := g0
  have g15 : 0 < ((root_bins P obj).getD 15 Bin.init).count ∧
      u16vec3.le (group_hull obj B).1 (bin_box ((root_bins P obj).getD 15 Bin.init)).1 ∧
      u16vec3.le (bin_box ((root_bins P obj).getD 15 Bin.init)).2 (group_hull obj B).2 ∧
      u16vec3.le (bin_box ((root_bins P obj).getD 15 Bin.init)).1
        (bin_box ((root_bins P obj).getD 15 Bin.init)).2 := g15
  obtain ⟨c0, l0, l1, l2⟩ := g0
  obtain ⟨c15, r0, r1, r2⟩ := g15
  have hmid : ∀ b, 1 ≤ b → b ≤ 14 → ((root_bins P obj).getD b Bin.init).count = 0 := by
    intro b b1 b2
    have e := node_bins_count P obj (List.range obj.mesh.length) (root_init obj) b (by omega)
    have e2 : ((root_bins P obj).getD b Bin.init).count
        = (List.range obj.mesh.length).countP (fun i => decide
          (node_bin P obj (List.range obj.mesh.length) (root_init obj) i = (b : Int))) := e
    rw [e2, List.countP_eq_zero]
    intro i hi
    simp only [decide_eq_true_eq]
    rcases hcover i (List.mem_range.1 hi) with h | h
    · rw [kA i h]; omega
    · rw [kB i h]; omega
  -- areas and counts at boundary 0
  have aL := left_sweep_area_zero P (root_bins P obj) c0
  have aR := right_sweep_area_zero P (root_bins P obj) c15 hmid
  have nL := node_left_count_eq P hp obj (List.range obj.mesh.length) (root_init obj) 0
    (by norm_num)
  have nR := node_right_count_eq P hp obj (List.range obj.mesh.length) (root_init obj) 0
    (by norm_num)
  have nsum : (left_sweep P (root_bins P obj)).count.getD 0 0
      + (right_sweep P (root_bins P obj)).count.getD 0 0 = obj.mesh.length := by
    have e1 : (left_sweep P (root_bins P obj)).count.getD 0 0
        = List.countP (fun i => decide
          (node_bin P obj (List.range obj.mesh.length) (root_init obj) i ≤ ((0 : Nat) : Int)))
          (List.range obj.mesh.length) := nL
    have e2 : (right_sweep P (root_bins P obj)).count.getD 0 0
        = List.countP (fun i => decide
          (¬ node_bin P obj (List.range obj.mesh.length) (root_init obj) i ≤ ((0 : Nat) : Int)))
          (List.range obj.mesh.length) := nR
    rw [e1, e2]
    have := List.length_eq_countP_add_countP
      (fun i => decide (node_bin P obj (List.range obj.mesh.length) (root_init obj) i
        ≤ ((0 : Nat) : Int))) (List.range obj.mesh.length)
    rw [List.length_range] at this
    have e3 : List.countP (fun a => decide ¬decide
        (node_bin P obj (List.range obj.mesh.length) (root_init obj) a ≤ ((0 : Nat) : Int))
          = true) (List.range obj.mesh.length)
        = List.countP (fun i => decide
          (¬ node_bin P obj (List.range obj.mesh.length) (root_init obj) i ≤ ((0 : Nat) : Int)))
          (List.range obj.mesh.length) := by
      apply List.countP_congr
      intro i _
      simp
    rw [e3] at this
    omega
  -- the exact areas
  have hW := mesh_hull_le obj (by omega)
  have hGA := hull_pts_le (tri_points obj A) (tri_points_ne_nil obj A hA)
  have hGB := hull_pts_le (tri_points obj B) (tri_points_ne_nil obj B hB)
  obtain ⟨_, wPu, wPl⟩ := get_surface_area_bounds P hm h0 herr _ _ hW
  obtain ⟨_, wAu, _⟩ := get_surface_area_bounds P hm h0 herr (group_hull obj A).1
    (group_hull obj A).2 hGA
  obtain ⟨_, wBu, _⟩ := get_surface_area_bounds P hm h0 herr (group_hull obj B).1
    (group_hull obj B).2 hGB
  obtain ⟨bL0, _, _⟩ := get_surface_area_bounds P hm h0 herr _ _ l2
  obtain ⟨bR0, _, _⟩ := get_surface_area_bounds P hm h0 herr _ _ r2
  have mL := get_surface_area_mono P hm _ _ _ _ l0 l1 l2
  have mR := get_surface_area_mono P hm _ _ _ _ r0 r1 r2
  have hS1 : (1 : ℚ) ≤ (box_area (mesh_hull obj).1 (mesh_hull obj).2 : ℚ) := by
    have : (1 : Int) ≤ box_area (mesh_hull obj).1 (mesh_hull obj).2 := by omega
    exact_mod_cast this
  have hS2 : (box_area (mesh_hull obj).1 (mesh_hull obj).2 : ℚ) ≤ 2 ^ 35 := by
    have := box_area_le _ _ hW
    exact_mod_cast this
  have hSA : (box_area (group_hull obj A).1 (group_hull obj A).2 : ℚ)
      ≤ (box_area (mesh_hull obj).1 (mesh_hull obj).2 : ℚ) / 2 := by
    have : (2 : ℚ) * (box_area (group_hull obj A).1 (group_hull obj A).2 : ℚ)
        ≤ (box_area (mesh_hull obj).1 (mesh_hull obj).2 : ℚ) := by exact_mod_cast hareaA
    linarith only [this]
  have hSB : (box_area (group_hull obj B).1 (group_hull obj B).2 : ℚ)
      ≤ (box_area (mesh_hull obj).1 (mesh_hull obj).2 : ℚ) / 2 := by
    have : (2 : ℚ) * (box_area (group_hull obj B).1 (group_hull obj B).2 : ℚ)
        ≤ (box_area (mesh_hull obj).1 (mesh_hull obj).2 : ℚ) := by exact_mod_cast hareaB
    linarith only [this]
  have uA : get_surface_area P (bin_box ((root_bins P obj).getD 0 Bin.init)).1
        (bin_box ((root_bins P obj).getD 0 Bin.init)).2
      ≤ (1 + 1 / 2 ^ 21) * ((box_area (mesh_hull obj).1 (mesh_hull obj).2 : ℚ) / 2)
        + 1 / 2 ^ 140 := by
    have c : (0 : ℚ) ≤ 1 + 1 / 2 ^ 21 := by norm_num
    have := mul_le_mul_of_nonneg_left hSA c
    have mL2 : get_surface_area P (bin_box ((root_bins P obj).getD 0 Bin.init)).1
        (bin_box ((root_bins P obj).getD 0 Bin.init)).2
        ≤ get_surface_area P (group_hull obj A).1 (group_hull obj A).2 := mL
    linarith only [this, mL2, wAu]
  have uB : get_surface_area P (bin_box ((root_bins P obj).getD 15 Bin.init)).1
        (bin_box ((root_bins P obj).getD 15 Bin.init)).2
      ≤ (1 + 1 / 2 ^ 21) * ((box_area (mesh_hull obj).1 (mesh_hull obj).2 : ℚ) / 2)
        + 1 / 2 ^ 140 := by
    have c : (0 : ℚ) ≤ 1 + 1 / 2 ^ 21 := by norm_num
    have := mul_le_mul_of_nonneg_left hSB c
    have mR2 : get_surface_area P (bin_box ((root_bins P obj).getD 15 Bin.init)).1
        (bin_box ((root_bins P obj).getD 15 Bin.init)).2
        ≤ get_surface_area P (group_hull obj B).1 (group_hull obj B).2 := mR
    linarith only [this, mR2, wBu]
  have haP0 : 0 ≤ get_surface_area P (mesh_hull obj).1 (mesh_hull obj).2 :=
    (get_surface_area_bounds P hm h0 herr _ _ hW).1
  -- the comparison
  have hcost := cost_lt_leaf P hm h0 herr
    ((left_sweep P (root_bins P obj)).count.getD 0 0)
    ((right_sweep P (root_bins P obj)).count.getD 0 0)
    (get_surface_area P (bin_box ((root_bins P obj).getD 0 Bin.init)).1
      (bin_box ((root_bins P obj).getD 0 Bin.init)).2)
    (get_surface_area P (bin_box ((root_bins P obj).getD 15 Bin.init)).1
      (bin_box ((root_bins P obj).getD 15 Bin.init)).2)
    (get_surface_area P (mesh_hull obj).1 (mesh_hull obj).2)
    (box_area (mesh_hull obj).1 (mesh_hull obj).2 : ℚ)
    (by rw [nsum]; exact hn) (by rw [nsum]; exact hsize) hS1 hS2 bL0 uA bR0 uB wPl
  rw [nsum, ← aL, ← aR] at hcost
  have hleaf : root_leaf_cost P obj
      = P.rnd (P.rnd (obj.mesh.length : ℚ)
          * get_surface_area P (mesh_hull obj).1 (mesh_hull obj).2) := by
    unfold root_leaf_cost
    rw [root_box_eq]
  have hbest : (root_best P obj).1
      ≤ split_cost P (left_sweep P (root_bins P obj)) (right_sweep P (root_bins P obj)) 0 :=
    best_split_le P _ _ 0 (by norm_num)
  rw [hleaf]
  refine ⟨lt_of_le_of_lt hbest hcost, ?_⟩
  exact leaf_cost_finite P hm h0 herr obj.mesh.length _ _ hsize hS2 haP0 wPu

/-! ## The claims -/

/-- C1: for a mesh of `n ≥ 1` cached triangles, whatever `out_indices` and `out_nodes`
held before, `build_bvh` returns with `out_indices` of length `n`, a permutation of the
identity sequence `0 .. n-1` (each index occurs exactly once), and with the object's mesh
unchanged. -/
theorem build_bvh_indices_permutation (P : Platform) (obj : Object) (out_indices : List Nat)
    (out_nodes : List BVHNode) (hn : 1 ≤ obj.mesh.length) :
    ∃ r, build_bvh P obj out_indices out_nodes = some r ∧
      r.out_indices.length = obj.mesh.length ∧
      r.out_indices.Perm (List.range obj.mesh.length) ∧
      (∀ k, k < obj.mesh.length → r.out_indices.count k = 1) ∧
      (∀ k, obj.mesh.length ≤ k → k ∉ r.out_indices) ∧
      r.obj.mesh = obj.mesh := by
  obtain ⟨r, h1, h2, h3, h4, _⟩ := build_spec P obj out_indices out_nodes (mesh_ne_nil obj hn)
  refine ⟨r, h1 _ (Nat.le_refl _), h3, h4, ?_, ?_, by rw [h2]⟩
  · intro k hk
    rw [h4.count_eq]
    exact List.count_eq_one_of_mem (List.nodup_range _) (List.mem_range.2 hk)
  · intro k hk hmem
    have := (h4.mem_iff.1 hmem)
    rw [List.mem_range] at this
    omega

/-- C1 (witness): the four-triangle cache `demoObj`, starting from stale arrays. -/
theorem build_bvh_indices_permutation_witness :
    1 ≤ demoObj.mesh.length ∧
    ∃ r, build_bvh exactPlatform demoObj [9, 9] [BVHNode.fresh] = some r ∧
      r.out_indices.length = demoObj.mesh.length ∧
      r.out_indices.Perm (List.range demoObj.mesh.length) ∧
      (∀ k, k < demoObj.mesh.length → r.out_indices.count k = 1) ∧
      (∀ k, demoObj.mesh.length ≤ k → k ∉ r.out_indices) ∧
      r.obj.mesh = demoObj.mesh :=
  ⟨by decide!, build_bvh_indices_permutation exactPlatform demoObj [9, 9] [BVHNode.fresh]
    (by decide!)⟩

/-- C2: after `build_bvh` on a mesh of `n ≥ 1` triangles, the span of the root is
`[0, n)`; spans are well defined (a node has at most one span); for every interior node
the spans of its two children are non-empty, disjoint and adjacent intervals
(`[a, b)` and `[b, c)` with `a < b < c`); and every position of `out_indices` lies in
the range of exactly one leaf. -/
theorem build_bvh_spans_partition (P : Platform) (obj : Object) (out_indices : List Nat)
    (out_nodes : List BVHNode) (hn : 1 ≤ obj.mesh.length) :
    ∃ r, build_bvh P obj out_indices out_nodes = some r ∧
      r.out_indices.length = obj.mesh.length ∧
      HasSpan r.out_nodes 0 (Finset.range obj.mesh.length) ∧
      (∀ i s t, HasSpan r.out_nodes i s → HasSpan r.out_nodes i t → s = t) ∧
      (∀ i, i < r.out_nodes.length → (nodeAt r.out_nodes i).triCount = 0 →
        ∃ a b c, a < b ∧ b < c ∧
          HasSpan r.out_nodes (nodeAt r.out_nodes i).leftFirst (Finset.Ico a b) ∧
          HasSpan r.out_nodes ((nodeAt r.out_nodes i).leftFirst + 1) (Finset.Ico b c) ∧
          HasSpan r.out_nodes i (Finset.Ico a c) ∧
          (Finset.Ico a b).Nonempty ∧ (Finset.Ico b c).Nonempty ∧
          Disjoint (Finset.Ico a b) (Finset.Ico b c)) ∧
      (∀ p, p < obj.mesh.length →
        ∃ j, j < r.out_nodes.length ∧ 0 < (nodeAt r.out_nodes j).triCount ∧
          (nodeAt r.out_nodes j).leftFirst ≤ p ∧
          p < (nodeAt r.out_nodes j).leftFirst + (nodeAt r.out_nodes j).triCount ∧
          ∀ q, q < r.out_nodes.length → 0 < (nodeAt r.out_nodes q).triCount →
            (nodeAt r.out_nodes q).leftFirst ≤ p →
            p < (nodeAt r.out_nodes q).leftFirst + (nodeAt r.out_nodes q).triCount →
            q = j) := by
  obtain ⟨r, h1, _, h3, _, t⟩ := build_spec P obj out_indices out_nodes (mesh_ne_nil obj hn)
  have hb := t.block_le
  refine ⟨r, h1 _ (Nat.le_refl _), h3, ?_, fun i s t hs ht => hs.unique ht, ?_, ?_⟩
  · have := t.hasSpan
    rw [Finset.range_eq_Ico]
    simpa using this
  · intro i hi hz
    obtain ⟨lo', len', d', a, b, s, _, _, _⟩ := root_sub t i hi
    obtain ⟨e1, _, _, _, _, k, m, k0, k1, sl, sr⟩ := s.interior hz
    have hl := sl.hasSpan
    have hr := sr.hasSpan
    have hs := s.hasSpan
    have e : lo' + k + (len' - k) = lo' + len' := by omega
    rw [e] at hr
    rw [e1]
    refine ⟨lo', lo' + k, lo' + len', by omega, by omega, hl, hr, hs, ?_, ?_, ?_⟩
    · rw [Finset.nonempty_Ico]; omega
    · rw [Finset.nonempty_Ico]; omega
    · rw [Finset.disjoint_left]
      intro x hx hx2
      rw [Finset.mem_Ico] at hx hx2
      omega
  · intro p hp
    obtain ⟨j, hj, hjz, hj1, hj2, hu⟩ := t.unique_leaf p (by omega) (by omega)
    exact ⟨j, by omega, hjz, hj1, hj2, fun q hq hqz hq1 hq2 => hu q (by omega) hqz hq1 hq2⟩

/-- C2 (witness): the four-triangle cache `demoObj`. -/
theorem build_bvh_spans_partition_witness :
    1 ≤ demoObj.mesh.length ∧
    ∃ r, build_bvh exactPlatform demoObj [] [] = some r ∧
      r.out_indices.length = demoObj.mesh.length ∧
      HasSpan r.out_nodes 0 (Finset.range demoObj.mesh.length) ∧
      (∀ i s t, HasSpan r.out_nodes i s → HasSpan r.out_nodes i t → s = t) ∧
      (∀ i, i < r.out_nodes.length → (nodeAt r.out_nodes i).triCount = 0 →
        ∃ a b c, a < b ∧ b < c ∧
          HasSpan r.out_nodes (nodeAt r.out_nodes i).leftFirst (Finset.Ico a b) ∧
          HasSpan r.out_nodes ((nodeAt r.out_nodes i).leftFirst + 1) (Finset.Ico b c) ∧
          HasSpan r.out_nodes i (Finset.Ico a c) ∧
          (Finset.Ico a b).Nonempty ∧ (Finset.Ico b c).Nonempty ∧
          Disjoint (Finset.Ico a b) (Finset.Ico b c)) ∧
      (∀ p, p < demoObj.mesh.length →
        ∃ j, j < r.out_nodes.length ∧ 0 < (nodeAt r.out_nodes j).triCount ∧
          (nodeAt r.out_nodes j).leftFirst ≤ p ∧
          p < (nodeAt r.out_nodes j).leftFirst + (nodeAt r.out_nodes j).triCount ∧
          ∀ q, q < r.out_nodes.length → 0 < (nodeAt r.out_nodes q).triCount →
            (nodeAt r.out_nodes q).leftFirst ≤ p →
            p < (nodeAt r.out_nodes q).leftFirst + (nodeAt r.out_nodes q).triCount →
            q = j) :=
  ⟨by decide!, build_bvh_spans_partition exactPlatform demoObj [] [] (by decide!)⟩

/-- C3: after `build_bvh` on a non-empty mesh the node array is non-empty (the root is
node 0); for every interior node `i` (`triCount = 0`) both `leftFirst` and
`leftFirst + 1` are valid node indices greater than `i`; and every node other than node 0
is the left or right child of exactly one interior node. -/
theorem build_bvh_node_array_is_tree (P : Platform) (obj : Object) (out_indices : List Nat)
    (out_nodes : List BVHNode) (hn : 1 ≤ obj.mesh.length) :
    ∃ r, build_bvh P obj out_indices out_nodes = some r ∧
      0 < r.out_nodes.length ∧
      (∀ i, i < r.out_nodes.length → (nodeAt r.out_nodes i).triCount = 0 →
        i < (nodeAt r.out_nodes i).leftFirst ∧
        (nodeAt r.out_nodes i).leftFirst < r.out_nodes.length ∧
        (nodeAt r.out_nodes i).leftFirst + 1 < r.out_nodes.length) ∧
      (∀ j, 0 < j → j < r.out_nodes.length →
        ∃ p, p < r.out_nodes.length ∧ (nodeAt r.out_nodes p).triCount = 0 ∧
          ((nodeAt r.out_nodes p).leftFirst = j ∨ (nodeAt r.out_nodes p).leftFirst + 1 = j) ∧
          ∀ q, q < r.out_nodes.length → (nodeAt r.out_nodes q).triCount = 0 →
            ((nodeAt r.out_nodes q).leftFirst = j ∨ (nodeAt r.out_nodes q).leftFirst + 1 = j) →
            q = p) := by
  obtain ⟨r, h1, _, _, _, t⟩ := build_spec P obj out_indices out_nodes (mesh_ne_nil obj hn)
  have hb := t.block_le
  refine ⟨r, h1 _ (Nat.le_refl _), by omega, ?_, ?_⟩
  · intro i hi hz
    have := t.children_in_block i (by omega) hz
    omega
  · intro j hj1 hj2
    obtain ⟨p, hp, hpz, hpc, hu⟩ := t.unique_parent j hj1 hj2
    exact ⟨p, by omega, hpz, hpc, fun q hq hqz hqc => hu q (by omega) hqz hqc⟩

/-- C3 (witness): the four-triangle cache `demoObj`. -/
theorem build_bvh_node_array_is_tree_witness :
    1 ≤ demoObj.mesh.length ∧
    ∃ r, build_bvh exactPlatform demoObj [] [] = some r ∧
      0 < r.out_nodes.length ∧
      (∀ i, i < r.out_nodes.length → (nodeAt r.out_nodes i).triCount = 0 →
        i < (nodeAt r.out_nodes i).leftFirst ∧
        (nodeAt r.out_nodes i).leftFirst < r.out_nodes.length ∧
        (nodeAt r.out_nodes i).leftFirst + 1 < r.out_nodes.length) ∧
      (∀ j, 0 < j → j < r.out_nodes.length →
        ∃ p, p < r.out_nodes.length ∧ (nodeAt r.out_nodes p).triCount = 0 ∧
          ((nodeAt r.out_nodes p).leftFirst = j ∨ (nodeAt r.out_nodes p).leftFirst + 1 = j) ∧
          ∀ q, q < r.out_nodes.length → (nodeAt r.out_nodes q).triCount = 0 →
            ((nodeAt r.out_nodes q).leftFirst = j ∨ (nodeAt r.out_nodes q).leftFirst + 1 = j) →
            q = p) :=
  ⟨by decide!, build_bvh_node_array_is_tree exactPlatform demoObj [] [] (by decide!)⟩

/-- C4: after `build_bvh` on a non-empty mesh, every leaf (`triCount > 0`) has
`triCount ≥ 1`, its range lies inside the index array, and for every position `j` of the
range the triangle `obj.mesh[out_indices[j]]` has its local min and max inside the stored
box: `aabbMin ≤ tri.min` and `tri.max ≤ aabbMax` componentwise, in the final arrays. -/
theorem build_bvh_leaf_box_contains (P : Platform) (obj : Object) (out_indices : List Nat)
    (out_nodes : List BVHNode) (hn : 1 ≤ obj.mesh.length) :
    ∃ r, build_bvh P obj out_indices out_nodes = some r ∧
      ∀ i, i < r.out_nodes.length → 0 < (nodeAt r.out_nodes i).triCount →
        1 ≤ (nodeAt r.out_nodes i).triCount ∧
        (nodeAt r.out_nodes i).leftFirst + (nodeAt r.out_nodes i).triCount
          ≤ r.out_indices.length ∧
        ∀ j, (nodeAt r.out_nodes i).leftFirst ≤ j →
          j < (nodeAt r.out_nodes i).leftFirst + (nodeAt r.out_nodes i).triCount →
          u16vec3.le (nodeAt r.out_nodes i).aabbMin (triAt obj r.out_indices j).min ∧
          u16vec3.le (triAt obj r.out_indices j).max (nodeAt r.out_nodes i).aabbMax := by
  obtain ⟨r, h1, _, _, _, t⟩ := build_spec P obj out_indices out_nodes (mesh_ne_nil obj hn)
  refine ⟨r, h1 _ (Nat.le_refl _), ?_⟩
  intro i hi hz
  obtain ⟨lo', len', d', a, b, s, _, _, _⟩ := root_sub t i hi
  obtain ⟨e1, e2, _⟩ := s.isLeaf hz
  obtain ⟨_, b2, _, _, b5⟩ := s.basic
  rw [e1, e2]
  refine ⟨by omega, b2, ?_⟩
  intro j hj1 hj2
  exact isHull_contains obj _ _ _ _ b5 (mem_slice_of_pos _ _ _ _ b2 hj1 hj2)

/-- C4 (witness): the four-triangle cache `demoObj`. -/
theorem build_bvh_leaf_box_contains_witness :
    1 ≤ demoObj.mesh.length ∧
    ∃ r, build_bvh exactPlatform demoObj [] [] = some r ∧
      ∀ i, i < r.out_nodes.length → 0 < (nodeAt r.out_nodes i).triCount →
        1 ≤ (nodeAt r.out_nodes i).triCount ∧
        (nodeAt r.out_nodes i).leftFirst + (nodeAt r.out_nodes i).triCount
          ≤ r.out_indices.length ∧
        ∀ j, (nodeAt r.out_nodes i).leftFirst ≤ j →
          j < (nodeAt r.out_nodes i).leftFirst + (nodeAt r.out_nodes i).triCount →
          u16vec3.le (nodeAt r.out_nodes i).aabbMin (triAt demoObj r.out_indices j).min ∧
          u16vec3.le (triAt demoObj r.out_indices j).max (nodeAt r.out_nodes i).aabbMax :=
  ⟨by decide!, build_bvh_leaf_box_contains exactPlatform demoObj [] [] (by decide!)⟩

/-- C5: for a rounding that is monotone (as every IEEE rounding mode is;
`f32_round_mono` shows it for binary32), after `build_bvh` on a non-empty mesh the
surface area `get_surface_area(aabbMin, aabbMax)` of the root node is at least the
surface area of the stored box of every node of `out_nodes`. -/
theorem build_bvh_root_area_largest (P : Platform) (hm : Monotone P.rnd) (obj : Object)
    (out_indices : List Nat) (out_nodes : List BVHNode) (hn : 1 ≤ obj.mesh.length) :
    ∃ r, build_bvh P obj out_indices out_nodes = some r ∧
      ∀ i, i < r.out_nodes.length →
        get_surface_area P (nodeAt r.out_nodes i).aabbMin (nodeAt r.out_nodes i).aabbMax
          ≤ get_surface_area P (nodeAt r.out_nodes 0).aabbMin (nodeAt r.out_nodes 0).aabbMax := by
  obtain ⟨r, h1, _, _, _, t⟩ := build_spec P obj out_indices out_nodes (mesh_ne_nil obj hn)
  refine ⟨r, h1 _ (Nat.le_refl _), ?_⟩
  intro i hi
  obtain ⟨lo', len', d', a, b, s, q1, q2, _, _, _⟩ := t.sub i (by have := t.block_le; omega)
  obtain ⟨_, _, _, _, hull_i⟩ := s.basic
  obtain ⟨_, _, _, _, hull_0⟩ := t.basic
  obtain ⟨n1, n2, n3⟩ := isHull_nested _ _ _ _ _ _ hull_i hull_0
    (tri_points_subset obj _ _ (slice_subset r.out_indices 0 obj.mesh.length lo' len' q1 q2))
  exact get_surface_area_mono P hm _ _ _ _ n1 n2 n3

/-- C5 (witness): the four-triangle cache `demoObj` under binary32 rounding, which is
monotone. -/
theorem build_bvh_root_area_largest_witness :
    Monotone f32Platform.rnd ∧ 1 ≤ demoObj.mesh.length ∧
    ∃ r, build_bvh f32Platform demoObj [] [] = some r ∧
      ∀ i, i < r.out_nodes.length →
        get_surface_area f32Platform (nodeAt r.out_nodes i).aabbMin
            (nodeAt r.out_nodes i).aabbMax
          ≤ get_surface_area f32Platform (nodeAt r.out_nodes 0).aabbMin
            (nodeAt r.out_nodes 0).aabbMax :=
  ⟨f32_round_mono, by decide!,
    build_bvh_root_area_largest f32Platform f32_round_mono demoObj [] [] (by decide!)⟩

/-- C6 (counterexample): two inputs made of two clusters separated along `x`, under exact
arithmetic and under binary32 rounding alike.  `mixedClusters` has one cluster inside the
unit cube at `(0,0,0)` (triangles 0 and 1) and one inside the unit cube at `(100,0,0)`
(triangles 2 and 3): after quantization the centroids extend over 64886 units along `x`
but over 65535 along `z`, the root splits on `z` (axis 2), and although the root is
interior its left child is the leaf over positions `[0, 2)` holding triangles 0 and 2 and
its right child the leaf over `[2, 4)` holding triangles 1 and 3, so each child mixes the
two clusters.  `collinearClusters` has three triangles on the `x` axis, two within
`[0, 3]` and one within `[100, 102]`: the root axis is `x`, the two near centroids fall
into bin 0 and the far one into bin 15, but the box of the mesh has surface area 0, and
the root stays a single leaf over all three triangles. -/
theorem separated_clusters_mixed_or_merged :
    (∀ t ∈ mixedClusters.take 2, ∀ v ∈ t.verts, 0 ≤ v.x ∧ v.x ≤ 1) ∧
    (∀ t ∈ mixedClusters.drop 2, ∀ v ∈ t.verts, 100 ≤ v.x ∧ v.x ≤ 101) ∧
    (∀ t ∈ mixedClusters, ∀ v ∈ t.verts, 0 ≤ v.y ∧ v.y ≤ 1 ∧ 0 ≤ v.z ∧ v.z ≤ 1) ∧
    (List.range 3).map (fun a => centroid_extent a
        (centroid_hull (cache_of f32Platform mixedClusters)).1
        (centroid_hull (cache_of f32Platform mixedClusters)).2) = [64886, 0, 65535] ∧
    root_axis (cache_of exactPlatform mixedClusters) = 2 ∧
    (load_and_build exactPlatform mixedClusters).map BuildResult.shape
      = some ([0, 2, 1, 3], [(1, 0), (0, 2), (2, 2)]) ∧
    root_axis (cache_of f32Platform mixedClusters) = 2 ∧
    (load_and_build f32Platform mixedClusters).map BuildResult.shape
      = some ([0, 2, 1, 3], [(1, 0), (0, 2), (2, 2)]) ∧
    collinearClusters.length = 3 ∧
    (∀ t ∈ collinearClusters.take 2, ∀ v ∈ t.verts, 0 ≤ v.x ∧ v.x ≤ 3) ∧
    (∀ t ∈ collinearClusters.drop 2, ∀ v ∈ t.verts, 100 ≤ v.x ∧ v.x ≤ 102) ∧
    (∀ t ∈ collinearClusters, ∀ v ∈ t.verts, v.y = 0 ∧ v.z = 0) ∧
    root_axis (cache_of f32Platform collinearClusters) = 0 ∧
    (List.range 3).map (root_bin f32Platform (cache_of f32Platform collinearClusters))
      = [0, 0, 15] ∧
    box_area (mesh_hull (cache_of f32Platform collinearClusters)).1
      (mesh_hull (cache_of f32Platform collinearClusters)).2 = 0 ∧
    (load_and_build exactPlatform collinearClusters).map BuildResult.shape
      = some ([0, 1, 2], [(0, 3)]) ∧
    (load_and_build f32Platform collinearClusters).map BuildResult.shape
      = some ([0, 1, 2], [(0, 3)]) := by
  refine ⟨?_, ?_, ?_, ?_, ?_, ?_, ?_, ?_, ?_, ?_, ?_, ?_, ?_, ?_, ?_, ?_, ?_⟩ <;> decide!

/-- C6 (amended): let the float operations round monotonically, keep 0, and err by at
most `2^-24` relatively plus `2^-150` (as binary32 and exact arithmetic do).  Take at
least 3 and fewer than `2^31` triangles that form two clusters `A` and `B` in the cache
built by `load_bounds` and `load_cache` (`TwoClusters`): `A` and `B` are non-empty and
hold all triangles between them, `a` is the lowest axis of largest quantized centroid
extent, that extent is at least 32, the centroids of `A` lie in the lowest and those of
`B` in the highest thirty-second of the centroid range on `a`, the box of each cluster
has at most half the surface area of the box of the mesh, and that area is positive.
Then `build_bvh` splits the root on axis `a`: the root is interior (`triCount = 0`) with
children 1 and 2, the left child covers the positions `[0, |A|)`, the right child
`[|A|, n)`, every index stored under the left child is a triangle of `A` and every index
stored under the right child is a triangle of `B`. -/
theorem two_clusters_split_at_root (P : Platform) (hm : Monotone P.rnd) (h0 : P.rnd 0 = 0)
    (herr : ∀ x, |P.rnd x - x| ≤ 1 / 2 ^ 24 * |x| + 1 / 2 ^ 150)
    (triangles : List Triangle) (A B : List Nat) (a : Nat)
    (hn : 3 ≤ triangles.length) (hsize : triangles.length < 2 ^ 31)
    (hc : TwoClusters (cache_of P triangles) A B a) :
    ∃ r, load_and_build P triangles = some r ∧
      root_axis (cache_of P triangles) = a ∧
      (nodeAt r.out_nodes 0).triCount = 0 ∧ (nodeAt r.out_nodes 0).leftFirst = 1 ∧
      HasSpan r.out_nodes 1 (Finset.Ico 0 A.length) ∧
      HasSpan r.out_nodes 2 (Finset.Ico A.length triangles.length) ∧
      (∀ p, p < A.length → r.out_indices.getD p 0 ∈ A) ∧
      (∀ p, A.length ≤ p → p < triangles.length → r.out_indices.getD p 0 ∈ B) := by
  have hne : triangles ≠ [] := by
    intro h; rw [h] at hn; simp at hn
  have hl := cache_of_mesh_length P triangles hne
  obtain ⟨hax, hext, binA, binB⟩ := root_bins_of_groups P hm h0 herr (cache_of P triangles)
    A B hc.groups_cover a hc.axis_valid hc.axis_largest hc.axis_lowest hc.axis_extent
    hc.left_low hc.right_high
  obtain ⟨hcost, hfin⟩ := root_cost_of_groups P hm h0 herr (cache_of P triangles) A B
    (by omega) (by omega) hc.left_nonempty hc.right_nonempty hc.groups_cover binA binB
    hc.left_spread hc.right_spread hc.area_positive
  have := build_two_groups P (cache_of P triangles) A B [] [] (by omega)
    hc.left_nonempty hc.right_nonempty hc.groups_cover hext binA binB hcost hfin
  rw [hl] at this
  obtain ⟨r, hr, rest⟩ := this
  exact ⟨r, hr, hax, rest⟩

/-- C6 (witness of the amended claim): the two clusters of `demoClusters`, with
`A = [0, 1]`, `B = [2, 3]` and the axis `x`, under binary32 rounding. -/
theorem two_clusters_split_at_root_witness :
    TwoClusters (cache_of f32Platform demoClusters) [0, 1] [2, 3] 0 ∧
    ∃ r, load_and_build f32Platform demoClusters = some r ∧
      root_axis (cache_of f32Platform demoClusters) = 0 ∧
      (nodeAt r.out_nodes 0).triCount = 0 ∧ (nodeAt r.out_nodes 0).leftFirst = 1 ∧
      HasSpan r.out_nodes 1 (Finset.Ico 0 [0, 1].length) ∧
      HasSpan r.out_nodes 2 (Finset.Ico [0, 1].length demoClusters.length) ∧
      (∀ p, p < [0, 1].length → r.out_indices.getD p 0 ∈ [0, 1]) ∧
      (∀ p, [0, 1].length ≤ p → p < demoClusters.length
        → r.out_indices.getD p 0 ∈ [2, 3]) := by
  have hc : TwoClusters (cache_of f32Platform demoClusters) [0, 1] [2, 3] 0 :=
    ⟨by decide, by decide, List.Perm.refl _, by decide, by decide!, by decide!, by decide!,
      by decide!, by decide!, by decide!, by decide!, by decide!⟩
  exact ⟨hc, two_clusters_split_at_root f32Platform f32_round_mono (by decide!)
    f32_round_error demoClusters [0, 1] [2, 3] 0 (by decide) (by decide) hc⟩

/-- C7: for a mesh of `n` cached triangles with `1 ≤ n ≤ 2`, `build_bvh` produces exactly
one node, a leaf root with `leftFirst = 0` and `triCount = n` whose box is the hull of the
local min/max corners of the triangles; `out_indices` is the identity sequence; and the
same result is reached with fuel 1, that is by the root call alone, without any
recursive call. -/
theorem build_bvh_small_mesh_single_leaf (P : Platform) (obj : Object)
    (out_indices : List Nat) (out_nodes : List BVHNode)
    (h1 : 1 ≤ obj.mesh.length) (h2 : obj.mesh.length ≤ 2) :
    ∃ r, build_bvh P obj out_indices out_nodes = some r ∧
      build_bvh_fuel P 1 obj out_indices out_nodes = some r ∧
      r.out_indices = List.range obj.mesh.length ∧
      r.out_nodes.length = 1 ∧
      (nodeAt r.out_nodes 0).leftFirst = 0 ∧
      (nodeAt r.out_nodes 0).triCount = obj.mesh.length ∧
      IsHull (mesh_points obj) (nodeAt r.out_nodes 0).aabbMin (nodeAt r.out_nodes 0).aabbMax := by
  have he : obj.mesh.isEmpty = false := by
    cases hm : obj.mesh with
    | nil => rw [hm] at h1; simp at h1
    | cons a l => rfl
  have hs : ∀ fuel, split_bvh_node P obj (fuel + 1) 0
      ⟨List.range obj.mesh.length,
        [BVHNode.fresh].set 0
          { nodeAt [BVHNode.fresh] 0 with leftFirst := 0, triCount := obj.mesh.length }, 0⟩ 0
      = some ⟨List.range obj.mesh.length,
          [refit_node obj (List.range obj.mesh.length)
            { BVHNode.fresh with leftFirst := 0, triCount := obj.mesh.length }], 0⟩ := by
    intro fuel
    rw [split_small P obj fuel 0 _ 0 (by exact h2)]
    rfl
  have hb : ∀ fuel, build_bvh_fuel P (fuel + 1) obj out_indices out_nodes
      = some ⟨obj, List.range obj.mesh.length,
          [refit_node obj (List.range obj.mesh.length)
            { BVHNode.fresh with leftFirst := 0, triCount := obj.mesh.length }], 0⟩ := by
    intro fuel
    unfold build_bvh_fuel
    rw [he]
    simp only [Bool.false_eq_true, if_false]
    rw [hs fuel]
  refine ⟨_, hb MAX_DEPTH, hb 0, rfl, rfl, rfl, rfl, ?_⟩
  have := node_bounds_isHull obj (List.range obj.mesh.length) 0 obj.mesh.length (by simp) h1
  have e : slice (List.range obj.mesh.length) 0 obj.mesh.length
      = List.range obj.mesh.length := by simp [slice]
  rw [e, tri_points_range] at this
  exact this

/-- C7 (witness): a mesh with a single triangle. -/
theorem build_bvh_small_mesh_single_leaf_witness :
    ∃ r, build_bvh exactPlatform ⟨[CachedTriangle.zero], ⟨⟨0, 0, 0⟩, ⟨0, 0, 0⟩⟩⟩ [] [] = some r ∧
      build_bvh_fuel exactPlatform 1 ⟨[CachedTriangle.zero], ⟨⟨0, 0, 0⟩, ⟨0, 0, 0⟩⟩⟩ [] []
        = some r ∧
      r.out_indices = List.range 1 ∧
      r.out_nodes.length = 1 ∧
      (nodeAt r.out_nodes 0).leftFirst = 0 ∧
      (nodeAt r.out_nodes 0).triCount = 1 ∧
      IsHull (mesh_points ⟨[CachedTriangle.zero], ⟨⟨0, 0, 0⟩, ⟨0, 0, 0⟩⟩⟩)
        (nodeAt r.out_nodes 0).aabbMin (nodeAt r.out_nodes 0).aabbMax :=
  build_bvh_small_mesh_single_leaf exactPlatform
    ⟨[CachedTriangle.zero], ⟨⟨0, 0, 0⟩, ⟨0, 0, 0⟩⟩⟩ [] [] (by decide) (by decide)

/-- C8 (counterexample): on an empty mesh, `build_bvh` called with non-empty arrays
returns with those arrays still non-empty. -/
theorem build_bvh_empty_mesh_keeps_stale_output :
    ∃ r, build_bvh exactPlatform ⟨[], ⟨⟨0, 0, 0⟩, ⟨0, 0, 0⟩⟩⟩ [7] [BVHNode.fresh] = some r ∧
      r.out_indices = [7] ∧ r.out_nodes = [BVHNode.fresh] ∧
      ¬ (r.out_indices = [] ∧ r.out_nodes = []) :=
  ⟨_, rfl, rfl, rfl, by simp⟩

/-- C8 (amended): on an empty mesh `build_bvh` returns at once and leaves `out_indices`
and `out_nodes` exactly as they were; in particular both are empty when they were empty
before the call. -/
theorem build_bvh_empty_mesh_unchanged (P : Platform) (obj : Object) (out_indices : List Nat)
    (out_nodes : List BVHNode) (h : obj.mesh = []) :
    ∃ r, build_bvh P obj out_indices out_nodes = some r ∧
      r.out_indices = out_indices ∧ r.out_nodes = out_nodes ∧
      (out_indices = [] → out_nodes = [] → r.out_indices = [] ∧ r.out_nodes = []) := by
  refine ⟨⟨obj, out_indices, out_nodes, 0⟩, ?_, rfl, rfl, fun a b => ⟨a, b⟩⟩
  unfold build_bvh build_bvh_fuel
  rw [h]
  rfl

/-- C8 (witness of the amended claim): empty mesh, empty arrays. -/
theorem build_bvh_empty_mesh_unchanged_witness :
    ∃ r, build_bvh exactPlatform ⟨[], ⟨⟨0, 0, 0⟩, ⟨0, 0, 0⟩⟩⟩ [] [] = some r ∧
      r.out_indices = [] ∧ r.out_nodes = [] ∧
      (([] : List Nat) = [] → ([] : List BVHNode) = [] →
        r.out_indices = [] ∧ r.out_nodes = []) :=
  build_bvh_empty_mesh_unchanged exactPlatform ⟨[], ⟨⟨0, 0, 0⟩, ⟨0, 0, 0⟩⟩⟩ [] [] rfl

/-- C9: `build_bvh` returns on every non-empty mesh, with the same result for every
recursion fuel of at least `MAX_DEPTH + 1`; every node of `out_nodes` is reached from the
root and no node lies deeper than 32 levels below it; a node at depth 32 is a leaf (it
was not split); and each child of an interior node covers a non-empty range strictly
shorter than its parent's range. -/
theorem build_bvh_terminates (P : Platform) (obj : Object) (out_indices : List Nat)
    (out_nodes : List BVHNode) (hn : 1 ≤ obj.mesh.length) :
    ∃ r, build_bvh P obj out_indices out_nodes = some r ∧
      (∀ fuel, MAX_DEPTH + 1 ≤ fuel →
        build_bvh_fuel P fuel obj out_indices out_nodes = some r) ∧
      (∀ j, j < r.out_nodes.length → ∃ d, d ≤ 32 ∧ AtDepth r.out_nodes j d) ∧
      (∀ j d, AtDepth r.out_nodes j d →
        d ≤ 32 ∧ (d = 32 → 0 < (nodeAt r.out_nodes j).triCount)) ∧
      (∀ i, i < r.out_nodes.length → (nodeAt r.out_nodes i).triCount = 0 →
        ∀ s c t, HasSpan r.out_nodes i s →
          (c = (nodeAt r.out_nodes i).leftFirst ∨ c = (nodeAt r.out_nodes i).leftFirst + 1) →
          HasSpan r.out_nodes c t → 0 < t.card ∧ t.card < s.card) := by
  obtain ⟨r, h1, _, _, _, t⟩ := build_spec P obj out_indices out_nodes (mesh_ne_nil obj hn)
  have hb := t.block_le
  have depth_le : ∀ j d, AtDepth r.out_nodes j d →
      d ≤ 32 ∧ (d = 32 → 0 < (nodeAt r.out_nodes j).triCount) := by
    intro j d hd
    obtain ⟨lo', len', a, b, s⟩ := hd.subtree t
    obtain ⟨_, _, b3, _, _⟩ := s.basic
    refine ⟨b3, fun h32 => ?_⟩
    by_contra hz
    obtain ⟨_, _, _, _, e5, _⟩ := s.interior (by omega)
    have : MAX_DEPTH = 32 := rfl
    omega
  refine ⟨r, h1 _ (Nat.le_refl _), h1, ?_, depth_le, ?_⟩
  · intro j hj
    obtain ⟨d, hd⟩ := t.all_depth AtDepth.root j (by omega)
    exact ⟨d, (depth_le j d hd).1, hd⟩
  · intro i hi hz s c u hs hc hu
    obtain ⟨lo', len', d', a, b, st, _, _, _⟩ := root_sub t i hi
    obtain ⟨e1, _, _, _, _, k, m, k0, k1, sl, sr⟩ := st.interior hz
    have es := hs.unique st.hasSpan
    rw [e1] at hc
    subst es
    rcases hc with hc | hc
    · subst hc
      have eu := hu.unique sl.hasSpan
      subst eu
      simp only [Nat.card_Ico]
      omega
    · subst hc
      have eu := hu.unique sr.hasSpan
      subst eu
      simp only [Nat.card_Ico]
      omega

/-- C9 (witness): the four-triangle cache `demoObj`. -/
theorem build_bvh_terminates_witness :
    1 ≤ demoObj.mesh.length ∧
    ∃ r, build_bvh exactPlatform demoObj [] [] = some r ∧
      (∀ fuel, MAX_DEPTH + 1 ≤ fuel → build_bvh_fuel exactPlatform fuel demoObj [] [] = some r) ∧
      (∀ j, j < r.out_nodes.length → ∃ d, d ≤ 32 ∧ AtDepth r.out_nodes j d) ∧
      (∀ j d, AtDepth r.out_nodes j d →
        d ≤ 32 ∧ (d = 32 → 0 < (nodeAt r.out_nodes j).triCount)) ∧
      (∀ i, i < r.out_nodes.length → (nodeAt r.out_nodes i).triCount = 0 →
        ∀ s c t, HasSpan r.out_nodes i s →
          (c = (nodeAt r.out_nodes i).leftFirst ∨ c = (nodeAt r.out_nodes i).leftFirst + 1) →
          HasSpan r.out_nodes c t → 0 < t.card ∧ t.card < s.card) :=
  ⟨by decide!, build_bvh_terminates exactPlatform demoObj [] [] (by decide!)⟩

/-- C10: for every non-empty sequence of triangles (coordinates are rationals, hence
finite), `load_bounds` returns true and the resulting box contains every input vertex,
`minPos ≤ v ≤ maxPos` componentwise for each of the three vertices of each triangle; in
particular `minPos ≤ maxPos` componentwise. -/
theorem load_bounds_contains_vertices (triangles : List Triangle) (bounds : MeshBounds)
    (hne : triangles ≠ []) :
    (load_bounds triangles bounds).1 = true ∧
    (∀ tri ∈ triangles, ∀ v ∈ [tri.v1, tri.v2, tri.v3],
      vec3.le (load_bounds triangles bounds).2.minPos v ∧
      vec3.le v (load_bounds triangles bounds).2.maxPos) ∧
    vec3.le (load_bounds triangles bounds).2.minPos (load_bounds triangles bounds).2.maxPos := by
  have he : triangles.isEmpty = false := by
    cases triangles with
    | nil => exact absurd rfl hne
    | cons a l => rfl
  unfold load_bounds
  rw [he]
  simp only [Bool.false_eq_true, if_false]
  obtain ⟨_, _, h3⟩ := foldl_triangles_spec triangles
    ⟨⟨FLT_MAX, FLT_MAX, FLT_MAX⟩, ⟨-FLT_MAX, -FLT_MAX, -FLT_MAX⟩⟩
  refine ⟨trivial, h3, ?_⟩
  cases triangles with
  | nil => exact absurd rfl hne
  | cons a l =>
    have := h3 a (by simp) a.v1 (by simp [Triangle.verts])
    unfold vec3.le at *
    exact ⟨by linarith, by linarith, by linarith⟩

/-- C10 (witness): the four triangles of `demoClusters`. -/
theorem load_bounds_contains_vertices_witness :
    demoClusters ≠ [] ∧
    (load_bounds demoClusters ⟨⟨0, 0, 0⟩, ⟨0, 0, 0⟩⟩).1 = true ∧
    (∀ tri ∈ demoClusters, ∀ v ∈ [tri.v1, tri.v2, tri.v3],
      vec3.le (load_bounds demoClusters ⟨⟨0, 0, 0⟩, ⟨0, 0, 0⟩⟩).2.minPos v ∧
      vec3.le v (load_bounds demoClusters ⟨⟨0, 0, 0⟩, ⟨0, 0, 0⟩⟩).2.maxPos) ∧
    vec3.le (load_bounds demoClusters ⟨⟨0, 0, 0⟩, ⟨0, 0, 0⟩⟩).2.minPos
      (load_bounds demoClusters ⟨⟨0, 0, 0⟩, ⟨0, 0, 0⟩⟩).2.maxPos :=
  ⟨by decide, load_bounds_contains_vertices demoClusters ⟨⟨0, 0, 0⟩, ⟨0, 0, 0⟩⟩ (by decide)⟩

/-- C11: for every non-empty sequence of triangles with finite coordinates, the box
returned by `load_bounds` does not depend on what `bounds` held before the call, contains
every input vertex, and each of its six bounds is attained: on each axis `minPos` is the
coordinate of some input vertex and so is `maxPos` (the coordinate itself, no rounding),
hence `minPos` is the smallest and `maxPos` the largest coordinate among all input
vertices. -/
theorem load_bounds_exact (triangles : List Triangle) (b1 b2 : MeshBounds)
    (hne : triangles ≠ [])
    (hfin : ∀ tri ∈ triangles, ∀ v ∈ [tri.v1, tri.v2, tri.v3], vec3.finite v) :
    load_bounds triangles b1 = load_bounds triangles b2 ∧
    (∀ tri ∈ triangles, ∀ v ∈ [tri.v1, tri.v2, tri.v3],
      vec3.le (load_bounds triangles b1).2.minPos v ∧
      vec3.le v (load_bounds triangles b1).2.maxPos) ∧
    (∃ tri ∈ triangles, ∃ v ∈ [tri.v1, tri.v2, tri.v3],
      (load_bounds triangles b1).2.minPos.x = v.x) ∧
    (∃ tri ∈ triangles, ∃ v ∈ [tri.v1, tri.v2, tri.v3],
      (load_bounds triangles b1).2.minPos.y = v.y) ∧
    (∃ tri ∈ triangles, ∃ v ∈ [tri.v1, tri.v2, tri.v3],
      (load_bounds triangles b1).2.minPos.z = v.z) ∧
    (∃ tri ∈ triangles, ∃ v ∈ [tri.v1, tri.v2, tri.v3],
      (load_bounds triangles b1).2.maxPos.x = v.x) ∧
    (∃ tri ∈ triangles, ∃ v ∈ [tri.v1, tri.v2, tri.v3],
      (load_bounds triangles b1).2.maxPos.y = v.y) ∧
    (∃ tri ∈ triangles, ∃ v ∈ [tri.v1, tri.v2, tri.v3],
      (load_bounds triangles b1).2.maxPos.z = v.z) := by
  have he : triangles.isEmpty = false := by
    cases triangles with
    | nil => exact absurd rfl hne
    | cons a l => rfl
  unfold load_bounds
  rw [he]
  simp only [Bool.false_eq_true, if_false]
  obtain ⟨_, _, h3⟩ := foldl_triangles_spec triangles
    ⟨⟨FLT_MAX, FLT_MAX, FLT_MAX⟩, ⟨-FLT_MAX, -FLT_MAX, -FLT_MAX⟩⟩
  generalize hres : triangles.foldl (fun b tri => tri.verts.foldl load_bounds_vertex b)
    ⟨⟨FLT_MAX, FLT_MAX, FLT_MAX⟩, ⟨-FLT_MAX, -FLT_MAX, -FLT_MAX⟩⟩ = res at h3
  obtain ⟨a, l, rfl⟩ : ∃ a l, triangles = a :: l := by
    cases triangles with
    | nil => exact absurd rfl hne
    | cons a l => exact ⟨a, l, rfl⟩
  have c0 := h3 a (by simp) a.v1 (by simp [Triangle.verts])
  have f0 := hfin a (by simp) a.v1 (by simp)
  unfold vec3.le at c0
  unfold vec3.finite at f0
  have key : ∀ (π : MeshBounds → ℚ) (κ : vec3 → ℚ),
      (∀ b v, π (load_bounds_vertex b v) = π b ∨ π (load_bounds_vertex b v) = κ v) →
      (π res = π ⟨⟨FLT_MAX, FLT_MAX, FLT_MAX⟩, ⟨-FLT_MAX, -FLT_MAX, -FLT_MAX⟩⟩ →
        π res = κ a.v1) →
      ∃ tri ∈ a :: l, ∃ v ∈ [tri.v1, tri.v2, tri.v3], π res = κ v := by
    intro π κ hstep hinit
    rcases foldl_triangles_attained π κ hstep (a :: l)
      ⟨⟨FLT_MAX, FLT_MAX, FLT_MAX⟩, ⟨-FLT_MAX, -FLT_MAX, -FLT_MAX⟩⟩ with h | h
    · rw [hres] at h
      exact ⟨a, by simp, a.v1, by simp, hinit h⟩
    · rw [hres] at h
      exact h
  refine ⟨trivial, h3, ?_, ?_, ?_, ?_, ?_, ?_⟩
  · exact key (fun b => b.minPos.x) (fun v => v.x)
      (fun b v => (load_bounds_vertex_attained b v).1)
      (fun h => by simp only [] at h ⊢; linarith [c0.1.1, f0.1.2])
  · exact key (fun b => b.minPos.y) (fun v => v.y)
      (fun b v => (load_bounds_vertex_attained b v).2.1)
      (fun h => by simp only [] at h ⊢; linarith [c0.1.2.1, f0.2.1.2])
  · exact key (fun b => b.minPos.z) (fun v => v.z)
      (fun b v => (load_bounds_vertex_attained b v).2.2.1)
      (fun h => by simp only [] at h ⊢; linarith [c0.1.2.2, f0.2.2.2])
  · exact key (fun b => b.maxPos.x) (fun v => v.x)
      (fun b v => (load_bounds_vertex_attained b v).2.2.2.1)
      (fun h => by simp only [] at h ⊢; linarith [c0.2.1, f0.1.1])
  · exact key (fun b => b.maxPos.y) (fun v => v.y)
      (fun b v => (load_bounds_vertex_attained b v).2.2.2.2.1)
      (fun h => by simp only [] at h ⊢; linarith [c0.2.2.1, f0.2.1.1])
  · exact key (fun b => b.maxPos.z) (fun v => v.z)
      (fun b v => (load_bounds_vertex_attained b v).2.2.2.2.2)
      (fun h => by simp only [] at h ⊢; linarith [c0.2.2.2, f0.2.2.1])

/-- C11 (witness): the single triangle `(-1,0,0), (1,0,0), (0,1,0)`, with two different
prior values of `bounds`; it gives `minPos.x = -1`, `maxPos.x = 1` and `maxPos.y = 1`. -/
theorem load_bounds_exact_witness :
    ([⟨⟨-1, 0, 0⟩, ⟨1, 0, 0⟩, ⟨0, 1, 0⟩⟩] : List Triangle) ≠ [] ∧
    (load_bounds [⟨⟨-1, 0, 0⟩, ⟨1, 0, 0⟩, ⟨0, 1, 0⟩⟩] ⟨⟨0, 0, 0⟩, ⟨0, 0, 0⟩⟩
      = load_bounds [⟨⟨-1, 0, 0⟩, ⟨1, 0, 0⟩, ⟨0, 1, 0⟩⟩] ⟨⟨5, 5, 5⟩, ⟨-5, -5, -5⟩⟩) ∧
    (load_bounds [⟨⟨-1, 0, 0⟩, ⟨1, 0, 0⟩, ⟨0, 1, 0⟩⟩] ⟨⟨0, 0, 0⟩, ⟨0, 0, 0⟩⟩).2
      = ⟨⟨-1, 0, 0⟩, ⟨1, 1, 0⟩⟩ ∧
    (∃ tri ∈ ([⟨⟨-1, 0, 0⟩, ⟨1, 0, 0⟩, ⟨0, 1, 0⟩⟩] : List Triangle),
      ∃ v ∈ [tri.v1, tri.v2, tri.v3],
        (load_bounds [⟨⟨-1, 0, 0⟩, ⟨1, 0, 0⟩, ⟨0, 1, 0⟩⟩] ⟨⟨0, 0, 0⟩, ⟨0, 0, 0⟩⟩).2.minPos.x
          = v.x) :=
  ⟨by decide, (load_bounds_exact [⟨⟨-1, 0, 0⟩, ⟨1, 0, 0⟩, ⟨0, 1, 0⟩⟩] ⟨⟨0, 0, 0⟩, ⟨0, 0, 0⟩⟩
      ⟨⟨5, 5, 5⟩, ⟨-5, -5, -5⟩⟩ (by decide) (by decide!)).1,
    by decide!,
    (load_bounds_exact [⟨⟨-1, 0, 0⟩, ⟨1, 0, 0⟩, ⟨0, 1, 0⟩⟩] ⟨⟨0, 0, 0⟩, ⟨0, 0, 0⟩⟩
      ⟨⟨5, 5, 5⟩, ⟨-5, -5, -5⟩⟩ (by decide) (by decide!)).2.2.1⟩

/-- C12: on an empty sequence of triangles `load_bounds` returns false and leaves `bounds`
exactly as it was, `minPos` and `maxPos` alike. -/
theorem load_bounds_empty (bounds : MeshBounds) :
    load_bounds [] bounds = (false, bounds) ∧
    (load_bounds [] bounds).1 = false ∧
    (load_bounds [] bounds).2.minPos = bounds.minPos ∧
    (load_bounds [] bounds).2.maxPos = bounds.maxPos :=
  ⟨rfl, rfl, rfl, rfl⟩

/-- C13: for every non-empty sequence of triangles and every object, `load_cache` returns
true, keeps the bounds of the object, and replaces its mesh (whatever it held) by one
record per input triangle, in input order; the record of a triangle is made of that
triangle alone: `v1`, `v2`, `v3` are `quantize_position` of its vertices, `centroid` is
`quantize_position` of `(v1 + v2 + v3) / 3` computed in float arithmetic on the
unquantized vertices, and `min` and `max` are `quantize_position` of the componentwise
minimum and maximum of the three unquantized vertices, all relative to `bounds.minPos`
and the clamped extent. -/
theorem load_cache_records (P : Platform) (triangles : List Triangle) (cache : Object)
    (hne : triangles ≠ []) :
    (load_cache P triangles cache).1 = true ∧
    (load_cache P triangles cache).2.mesh.length = triangles.length ∧
    (load_cache P triangles cache).2.bounds = cache.bounds ∧
    (load_cache P triangles cache).2.mesh = triangles.map (fun tri =>
      { v1 := quantize_position P tri.v1 cache.bounds.minPos (cache_extent P cache.bounds),
        v2 := quantize_position P tri.v2 cache.bounds.minPos (cache_extent P cache.bounds),
        v3 := quantize_position P tri.v3 cache.bounds.minPos (cache_extent P cache.bounds),
        centroid := quantize_position P (div P (add P (add P tri.v1 tri.v2) tri.v3) 3)
          cache.bounds.minPos (cache_extent P cache.bounds),
        min := quantize_position P (vec3.cmin (vec3.cmin tri.v1 tri.v2) tri.v3)
          cache.bounds.minPos (cache_extent P cache.bounds),
        max := quantize_position P (vec3.cmax (vec3.cmax tri.v1 tri.v2) tri.v3)
          cache.bounds.minPos (cache_extent P cache.bounds),
        normal := P.encodedNormal (sub P tri.v2 tri.v1) (sub P tri.v3 tri.v1) }) := by
  have he : triangles.isEmpty = false := by
    cases triangles with
    | nil => exact absurd rfl hne
    | cons a l => rfl
  unfold load_cache
  rw [he]
  simp only [Bool.false_eq_true, if_false, List.length_map, true_and]
  apply List.map_congr_left
  intro tri _
  unfold cache_triangle
  simp only [update_min_max_val]

/-- C13 (witness): the four triangles of `demoClusters` loaded into an object that
already holds a record. -/
theorem load_cache_records_witness :
    demoClusters ≠ [] ∧
    (load_cache exactPlatform demoClusters usedObj).1 = true ∧
    (load_cache exactPlatform demoClusters usedObj).2.mesh.length = demoClusters.length ∧
    (load_cache exactPlatform demoClusters usedObj).2.bounds = usedObj.bounds :=
  ⟨by decide,
    (load_cache_records exactPlatform demoClusters usedObj (by decide)).1,
    (load_cache_records exactPlatform demoClusters usedObj (by decide)).2.1,
    (load_cache_records exactPlatform demoClusters usedObj (by decide)).2.2.1⟩

/-- C14 (counterexample): `load_cache` called with no triangles on an object whose mesh
holds a record returns false and the mesh still holds that record; it is not empty. -/
theorem load_cache_empty_keeps_stale_mesh :
    (load_cache exactPlatform [] usedObj).1 = false ∧
    (load_cache exactPlatform [] usedObj).2.mesh = [CachedTriangle.zero] ∧
    (load_cache exactPlatform [] usedObj).2.mesh ≠ [] :=
  ⟨rfl, rfl, by decide⟩

/-- C14 (amended): on an empty sequence of triangles `load_cache` returns false and the
mesh of the object is what it was before the call; it is empty after the call exactly
when it was empty before. -/
theorem load_cache_empty_mesh_kept (P : Platform) (cache : Object) :
    (load_cache P [] cache).1 = false ∧
    (load_cache P [] cache).2.mesh = cache.mesh ∧
    ((load_cache P [] cache).2.mesh = [] ↔ cache.mesh = []) :=
  ⟨rfl, rfl, Iff.rfl⟩

/-- C14 (witness of the amended claim): a fresh object, whose mesh is empty. -/
theorem load_cache_empty_mesh_kept_witness :
    (load_cache exactPlatform [] ⟨[], ⟨⟨0, 0, 0⟩, ⟨1, 1, 1⟩⟩⟩).1 = false ∧
    (load_cache exactPlatform [] ⟨[], ⟨⟨0, 0, 0⟩, ⟨1, 1, 1⟩⟩⟩).2.mesh = [] ∧
    ((load_cache exactPlatform [] ⟨[], ⟨⟨0, 0, 0⟩, ⟨1, 1, 1⟩⟩⟩).2.mesh = [] ↔
      ([] : List CachedTriangle) = []) :=
  load_cache_empty_mesh_kept exactPlatform ⟨[], ⟨⟨0, 0, 0⟩, ⟨1, 1, 1⟩⟩⟩

/-- C15: on an empty sequence of triangles `load_cache` returns false and leaves the
object unmodified: its mesh and its bounds are what they were before the call. -/
theorem load_cache_empty_unmodified (P : Platform) (cache : Object) :
    load_cache P [] cache = (false, cache) ∧
    (load_cache P [] cache).1 = false ∧
    (load_cache P [] cache).2.mesh = cache.mesh ∧
    (load_cache P [] cache).2.bounds = cache.bounds :=
  ⟨rfl, rfl, rfl, rfl⟩

/-- C16: for every `MeshBounds`, zero-size and inverted boxes included, the extent
`load_cache` hands to `quantize_position` is strictly positive on every axis: on each
axis it is the float difference `maxPos - minPos` where that difference is at least
`1e-6f`, and `1` otherwise; so the divisor of the quantization is never zero. -/
theorem cache_extent_positive (P : Platform) (bounds : MeshBounds) :
    (0 < (cache_extent P bounds).x ∧ 0 < (cache_extent P bounds).y ∧
      0 < (cache_extent P bounds).z) ∧
    (cache_extent P bounds).x =
      (if lit_1em6 ≤ (sub P bounds.maxPos bounds.minPos).x
        then (sub P bounds.maxPos bounds.minPos).x else 1) ∧
    (cache_extent P bounds).y =
      (if lit_1em6 ≤ (sub P bounds.maxPos bounds.minPos).y
        then (sub P bounds.maxPos bounds.minPos).y else 1) ∧
    (cache_extent P bounds).z =
      (if lit_1em6 ≤ (sub P bounds.maxPos bounds.minPos).z
        then (sub P bounds.maxPos bounds.minPos).z else 1) := by
  have hl : (0 : ℚ) < lit_1em6 := by unfold lit_1em6; norm_num
  unfold cache_extent
  simp only []
  generalize sub P bounds.maxPos bounds.minPos = d
  obtain ⟨dx, dy, dz⟩ := d
  simp only []
  have key : ∀ q : ℚ, 0 < (if q < lit_1em6 then (1 : ℚ) else q) ∧
      (if q < lit_1em6 then (1 : ℚ) else q) = (if lit_1em6 ≤ q then q else 1) := by
    intro q
    by_cases h : q < lit_1em6
    · rw [if_pos h, if_neg (not_le.mpr h)]; exact ⟨one_pos, rfl⟩
    · rw [if_neg h, if_pos (not_lt.mp h)]; exact ⟨lt_of_lt_of_le hl (not_lt.mp h), rfl⟩
  have ex : ∀ (c : Prop) [Decidable c] (a b : vec3), (if c then a else b).x
      = if c then a.x else b.x := by intros; split_ifs <;> rfl
  have ey : ∀ (c : Prop) [Decidable c] (a b : vec3), (if c then a else b).y
      = if c then a.y else b.y := by intros; split_ifs <;> rfl
  have ez : ∀ (c : Prop) [Decidable c] (a b : vec3), (if c then a else b).z
      = if c then a.z else b.z := by intros; split_ifs <;> rfl
  simp only [ex, ey, ez, ite_self]
  exact ⟨⟨(key dx).1, (key dy).1, (key dz).1⟩, (key dx).2, (key dy).2, (key dz).2⟩

/-- C17: quantization round trip, for the formula
`q = round(clamp((p − min) / extent, 0, 1) × 65535)` evaluated in float arithmetic whose
rounding has relative error at most `ε ≤ 2 ^ -24` and absolute error at most
`δ ≤ 2 ^ -20`, and whose subtraction `p − min` has relative error at most `ε` (exact
arithmetic is `ε = δ = 0`; binary32 is `ε = 2 ^ -24`, `δ = 2 ^ -150`, and the difference
of two binary32 values meets the bound): for every box with positive extent and every
point `p` with `min ≤ p ≤ min + extent` componentwise, on each axis the rounded integer
lies in `[0, 65535]`, so that `quantize_position` stores it unchanged, and the dequantized
value `min + q / 65535 × extent` differs from `p` by at most `extent / 65535`. -/
theorem quantize_position_round_trip (P : Platform) (ε δ : ℚ) (hε : ε ≤ 1 / 2 ^ 24)
    (hδ : δ * 2 ^ 20 ≤ 1) (hrel : ∀ x, |P.rnd x - x| ≤ ε * |x| + δ)
    (mn ext p : vec3)
    (hext : 0 < ext.x ∧ 0 < ext.y ∧ 0 < ext.z)
    (hsub : |P.rnd (p.x - mn.x) - (p.x - mn.x)| ≤ ε * |p.x - mn.x| ∧
      |P.rnd (p.y - mn.y) - (p.y - mn.y)| ≤ ε * |p.y - mn.y| ∧
      |P.rnd (p.z - mn.z) - (p.z - mn.z)| ≤ ε * |p.z - mn.z|)
    (hlo : vec3.le mn p) (hhi : vec3.le p ⟨mn.x + ext.x, mn.y + ext.y, mn.z + ext.z⟩) :
    (0 ≤ quantize_round P p.x mn.x ext.x ∧ quantize_round P p.x mn.x ext.x ≤ 65535 ∧
      ((quantize_position P p mn ext).x.val : Int) = quantize_round P p.x mn.x ext.x ∧
      |mn.x + ((quantize_position P p mn ext).x.val : ℚ) / 65535 * ext.x - p.x|
        ≤ ext.x / 65535) ∧
    (0 ≤ quantize_round P p.y mn.y ext.y ∧ quantize_round P p.y mn.y ext.y ≤ 65535 ∧
      ((quantize_position P p mn ext).y.val : Int) = quantize_round P p.y mn.y ext.y ∧
      |mn.y + ((quantize_position P p mn ext).y.val : ℚ) / 65535 * ext.y - p.y|
        ≤ ext.y / 65535) ∧
    (0 ≤ quantize_round P p.z mn.z ext.z ∧ quantize_round P p.z mn.z ext.z ≤ 65535 ∧
      ((quantize_position P p mn ext).z.val : Int) = quantize_round P p.z mn.z ext.z ∧
      |mn.z + ((quantize_position P p mn ext).z.val : ℚ) / 65535 * ext.z - p.z|
        ≤ ext.z / 65535) := by
  have key : ∀ v m e : ℚ, 0 < e → |P.rnd (v - m) - (v - m)| ≤ ε * |v - m| → m ≤ v →
      v ≤ m + e →
      0 ≤ quantize_round P v m e ∧ quantize_round P v m e ≤ 65535 ∧
      ((quantize_axis P v m e).val : Int) = quantize_round P v m e ∧
      |m + ((quantize_axis P v m e).val : ℚ) / 65535 * e - v| ≤ e / 65535 := by
    intro v m e h1 h2 h3 h4
    obtain ⟨q0, q1, q2⟩ := quantize_round_bound P ε δ hε hδ hrel v m e h1 h2 h3 h4
    have hv := toU16_val (quantize_round P v m e) q0 q1
    rw [← quantize_axis_eq] at hv
    refine ⟨q0, q1, hv, ?_⟩
    have hc : ((quantize_axis P v m e).val : ℚ) = (quantize_round P v m e : ℚ) := by
      rw [← hv]
      push_cast
      rfl
    rw [hc]
    exact q2
  unfold vec3.le at hlo hhi
  exact ⟨key _ _ _ hext.1 hsub.1 hlo.1 hhi.1, key _ _ _ hext.2.1 hsub.2.1 hlo.2.1 hhi.2.1,
    key _ _ _ hext.2.2 hsub.2.2 hlo.2.2 hhi.2.2⟩

/-- C17 (witness): under binary32 rounding, `min = (0,0,0)`, `extent = (10,10,10)` and
`p = (5,5,5)` give `q = (32768, 32768, 32768)`, each component within 5 of 32767. -/
theorem quantize_position_round_trip_witness :
    quantize_position f32Platform ⟨5, 5, 5⟩ ⟨0, 0, 0⟩ ⟨10, 10, 10⟩ = ⟨32768, 32768, 32768⟩ ∧
    (0 ≤ quantize_round f32Platform 5 0 10 ∧ quantize_round f32Platform 5 0 10 ≤ 65535 ∧
      ((quantize_position f32Platform ⟨5, 5, 5⟩ ⟨0, 0, 0⟩ ⟨10, 10, 10⟩).x.val : Int)
        = quantize_round f32Platform 5 0 10 ∧
      |(0 : ℚ) + ((quantize_position f32Platform ⟨5, 5, 5⟩ ⟨0, 0, 0⟩ ⟨10, 10, 10⟩).x.val : ℚ)
        / 65535 * 10 - 5| ≤ 10 / 65535) :=
  ⟨by decide!,
    (quantize_position_round_trip f32Platform (1 / 2 ^ 24) (1 / 2 ^ 150) (le_refl _)
      (by norm_num) f32_round_error ⟨0, 0, 0⟩ ⟨10, 10, 10⟩ ⟨5, 5, 5⟩
      ⟨by norm_num, by norm_num, by norm_num⟩
      ⟨f32_sub_error 5 0 (by decide!) (by decide!), f32_sub_error 5 0 (by decide!) (by decide!),
        f32_sub_error 5 0 (by decide!) (by decide!)⟩
      ⟨by norm_num, by norm_num, by norm_num⟩
      ⟨by norm_num, by norm_num, by norm_num⟩).1⟩

/-- C18 (failing input): in the root call on `staleBinObj` the binning loop is reached
(three triangles, centroid extent 64858), triangles 0 and 1 are both mapped to bin 0, and
after the loop bin 0 holds count 2 and the corner `max = (720, 24030, 0)`, which is the
`max` corner of triangle 1 alone; the `max` corner of triangle 0 is `(1964, 65535, 0)`,
so `tri.max ≤ bins[0].max` fails for triangle 0. -/
theorem bin_max_misses_earlier_triangle :
    staleBinObj.mesh.length = 3 ∧
    lit_1em4 ≤ root_extent staleBinObj ∧
    root_bin_index f32Platform staleBinObj 0 = 0 ∧
    root_bin_index f32Platform staleBinObj 1 = 0 ∧
    root_bin_index f32Platform staleBinObj 2 = 15 ∧
    (root_bins f32Platform staleBinObj).getD 0 Bin.init = ⟨⟨0, 0, 0⟩, ⟨720, 24030, 0⟩, 2⟩ ∧
    (staleBinObj.mesh.getD 0 CachedTriangle.zero).max = ⟨1964, 65535, 0⟩ ∧
    (staleBinObj.mesh.getD 1 CachedTriangle.zero).max = ⟨720, 24030, 0⟩ ∧
    ¬ u16vec3.le (staleBinObj.mesh.getD 0 CachedTriangle.zero).max
        ((root_bins f32Platform staleBinObj).getD 0 Bin.init).max := by
  decide!

/-- C19: the split axis computed on lines 69-74 is an axis of largest centroid extent,
and every axis before it has a strictly smaller extent (ties go to the lowest axis): `y`
is chosen exactly when `extentY > extentX` and `z` is not chosen, and `z` is chosen
exactly when `extentZ` is strictly greater than both `extentX` and `extentY`. -/
theorem choose_axis_largest_extent (cMin cMax : u16vec3) :
    choose_axis cMin cMax ≤ 2 ∧
    (∀ a, a ≤ 2 → centroid_extent a cMin cMax
      ≤ centroid_extent (choose_axis cMin cMax) cMin cMax) ∧
    (∀ a, a < choose_axis cMin cMax → centroid_extent a cMin cMax
      < centroid_extent (choose_axis cMin cMax) cMin cMax) ∧
    (choose_axis cMin cMax = 1 ↔
      centroid_extent 1 cMin cMax > centroid_extent 0 cMin cMax ∧
      ¬ (centroid_extent 2 cMin cMax > centroid_extent 0 cMin cMax ∧
        centroid_extent 2 cMin cMax > centroid_extent 1 cMin cMax)) ∧
    (choose_axis cMin cMax = 2 ↔
      centroid_extent 2 cMin cMax > centroid_extent 0 cMin cMax ∧
      centroid_extent 2 cMin cMax > centroid_extent 1 cMin cMax) := by
  have v0 : ∀ v, axis_val 0 v = (v.x.val : Int) := fun v => rfl
  have v1 : ∀ v, axis_val 1 v = (v.y.val : Int) := fun v => rfl
  have v2 : ∀ v, axis_val 2 v = (v.z.val : Int) := fun v => rfl
  unfold choose_axis centroid_extent
  simp only [v0, v1, v2]
  refine ⟨?_, ?_, ?_, ?_, ?_⟩
  · split_ifs <;> omega
  · intro a ha
    interval_cases a <;> simp only [v0, v1, v2] <;> split_ifs <;>
      simp only [v0, v1, v2] <;> omega
  · intro a ha
    split_ifs at ha ⊢ <;> interval_cases a <;> simp only [v0, v1, v2] <;> omega
  · split_ifs <;> constructor <;> intro h <;> first | omega | exact h.elim
  · split_ifs <;> constructor <;> intro h <;> first | omega | exact h.elim

/-- C20: for every mesh of `n ≥ 1` cached triangles that all have the same quantized
centroid, the centroid box of the root call is that single point (extent 0 on every
axis), and `build_bvh` yields exactly one node, a leaf root with `leftFirst = 0` and
`triCount = n`, with `out_indices` the identity sequence.  The test of line 77 stops a
node exactly when its integer centroid extent on the chosen axis is not positive: no
positive integer is below `1e-4f`. -/
theorem build_bvh_identical_centroids (P : Platform) (obj : Object)
    (out_indices : List Nat) (out_nodes : List BVHNode) (c : u16vec3)
    (hn : 1 ≤ obj.mesh.length) (hc : ∀ t ∈ obj.mesh, t.centroid = c) :
    (∀ axis, centroid_extent axis (root_centroids obj).1 (root_centroids obj).2 = 0) ∧
    (∀ axis cMin cMax, axis_extent axis cMin cMax < lit_1em4 ↔
      centroid_extent axis cMin cMax ≤ 0) ∧
    ∃ r, build_bvh P obj out_indices out_nodes = some r ∧
      r.out_indices = List.range obj.mesh.length ∧
      r.out_nodes.length = 1 ∧
      (nodeAt r.out_nodes 0).leftFirst = 0 ∧
      (nodeAt r.out_nodes 0).triCount = obj.mesh.length := by
  obtain ⟨hcb, hs⟩ := root_call_leaf P obj c hn hc
  refine ⟨fun axis => ?_, fun axis cMin cMax => ?_, ?_⟩
  · rw [hcb]
    exact sub_self _
  · rw [axis_extent_small]
    unfold centroid_extent
    omega
  · have he : obj.mesh.isEmpty = false := by
      cases hm : obj.mesh with
      | nil => rw [hm] at hn; simp at hn
      | cons a l => rfl
    obtain ⟨md, hs⟩ := hs MAX_DEPTH
    refine ⟨⟨obj, List.range obj.mesh.length,
      [refit_node obj (List.range obj.mesh.length)
        { BVHNode.fresh with leftFirst := 0, triCount := obj.mesh.length }], md⟩,
      ?_, rfl, rfl, rfl, rfl⟩
    unfold build_bvh build_bvh_fuel
    rw [he]
    simp only [Bool.false_eq_true, if_false]
    rw [hs]

/-- C20 (witness): the three triangles of `sameCentroidTriangles`, whose quantized
centroids are all `(32768, 32768, 0)`. -/
theorem build_bvh_identical_centroids_witness :
    1 ≤ sameCentroidObj.mesh.length ∧
    (∀ t ∈ sameCentroidObj.mesh, t.centroid = ⟨32768, 32768, 0⟩) ∧
    ∃ r, build_bvh f32Platform sameCentroidObj [] [] = some r ∧
      r.out_indices = List.range sameCentroidObj.mesh.length ∧
      r.out_nodes.length = 1 ∧
      (nodeAt r.out_nodes 0).leftFirst = 0 ∧
      (nodeAt r.out_nodes 0).triCount = sameCentroidObj.mesh.length :=
  ⟨by decide!, by decide!,
    (build_bvh_identical_centroids f32Platform sameCentroidObj [] [] ⟨32768, 32768, 0⟩
      (by decide!) (by decide!)).2.2⟩

/-- C21: after `build_bvh` on a non-empty mesh the boxes are nested: both children of
every interior node are nodes of the array and the stored box of each child lies inside
the stored box of the node (`aabbMin` of the node is below `aabbMin` of the child and
`aabbMax` of the child below `aabbMax` of the node, componentwise); and the stored box of
every node contains the local `min` and `max` corners of every triangle in the range of
every leaf below it. -/
theorem build_bvh_boxes_nested (P : Platform) (obj : Object) (out_indices : List Nat)
    (out_nodes : List BVHNode) (hn : 1 ≤ obj.mesh.length) :
    ∃ r, build_bvh P obj out_indices out_nodes = some r ∧
      (∀ i, i < r.out_nodes.length → (nodeAt r.out_nodes i).triCount = 0 →
        ∀ c, (c = (nodeAt r.out_nodes i).leftFirst ∨
            c = (nodeAt r.out_nodes i).leftFirst + 1) →
          c < r.out_nodes.length ∧
          u16vec3.le (nodeAt r.out_nodes i).aabbMin (nodeAt r.out_nodes c).aabbMin ∧
          u16vec3.le (nodeAt r.out_nodes c).aabbMax (nodeAt r.out_nodes i).aabbMax) ∧
      (∀ i j, i < r.out_nodes.length → Below r.out_nodes i j →
        0 < (nodeAt r.out_nodes j).triCount →
        ∀ p, (nodeAt r.out_nodes j).leftFirst ≤ p →
          p < (nodeAt r.out_nodes j).leftFirst + (nodeAt r.out_nodes j).triCount →
          u16vec3.le (nodeAt r.out_nodes i).aabbMin (triAt obj r.out_indices p).min ∧
          u16vec3.le (triAt obj r.out_indices p).max (nodeAt r.out_nodes i).aabbMax) := by
  obtain ⟨r, h1, _, _, _, t⟩ := build_spec P obj out_indices out_nodes (mesh_ne_nil obj hn)
  have hb := t.block_le
  refine ⟨r, h1 _ (Nat.le_refl _), ?_, ?_⟩
  · intro i hi hz c hc
    obtain ⟨lo', len', d', a, b, s, _, _, _, _, q5⟩ := t.sub i (by omega)
    obtain ⟨e1, _, e3, _, _⟩ := s.interior hz
    obtain ⟨n1, n2⟩ := s.children_nested hz c hc
    exact ⟨by rw [e1] at hc; omega, n1, n2⟩
  · intro i j hi hbelow hz p hp1 hp2
    obtain ⟨lo', len', d', a, b, s, _⟩ := t.sub i (by omega)
    exact s.contains_below hbelow hz p hp1 hp2

/-- C21 (witness): the four-triangle cache `demoObj` under binary32 rounding. -/
theorem build_bvh_boxes_nested_witness :
    1 ≤ demoObj.mesh.length ∧
    ∃ r, build_bvh f32Platform demoObj [] [] = some r ∧
      (∀ i, i < r.out_nodes.length → (nodeAt r.out_nodes i).triCount = 0 →
        ∀ c, (c = (nodeAt r.out_nodes i).leftFirst ∨
            c = (nodeAt r.out_nodes i).leftFirst + 1) →
          c < r.out_nodes.length ∧
          u16vec3.le (nodeAt r.out_nodes i).aabbMin (nodeAt r.out_nodes c).aabbMin ∧
          u16vec3.le (nodeAt r.out_nodes c).aabbMax (nodeAt r.out_nodes i).aabbMax) ∧
      (∀ i j, i < r.out_nodes.length → Below r.out_nodes i j →
        0 < (nodeAt r.out_nodes j).triCount →
        ∀ p, (nodeAt r.out_nodes j).leftFirst ≤ p →
          p < (nodeAt r.out_nodes j).leftFirst + (nodeAt r.out_nodes j).triCount →
          u16vec3.le (nodeAt r.out_nodes i).aabbMin (triAt demoObj r.out_indices p).min ∧
          u16vec3.le (triAt demoObj r.out_indices p).max (nodeAt r.out_nodes i).aabbMax) :=
  ⟨by decide!, build_bvh_boxes_nested f32Platform demoObj [] [] (by decide!)⟩

/-- C22: in a call of `split_bvh_node` on a node whose range lies inside the index array,
for a rounding that keeps non-negative values non-negative (as every IEEE rounding
does): the bin index computed by the partition predicate (lines 140-141) for a triangle
of the node equals the bin index the binning loop computed for it (line 86); whenever
the partition runs with a boundary `splitIdx ≥ 0`, the first group it produces has
`leftCount[splitIdx]` elements and the second `rightCount[splitIdx]`; and whenever the
node is split into a left child of `k` triangles, `splitIdx` lies in `[0, 14]`,
`k = leftCount[splitIdx]` and `triCount - k = rightCount[splitIdx]`. -/
theorem partition_agrees_with_binning (P : Platform) (hpos : ∀ x, 0 ≤ x → 0 ≤ P.rnd x)
    (obj : Object) (indices : List Nat) (node : BVHNode)
    (hlen : node.leftFirst + node.triCount ≤ indices.length) :
    (∀ i, i < node.triCount →
      node_pred_bin P obj indices node (indices.getD (node.leftFirst + i) 0)
        = node_bin P obj indices node i) ∧
    (∀ pred, split_candidate P obj indices node = some pred →
      0 ≤ (node_best P obj indices node).2 →
      (partition_range P pred indices node.leftFirst node.triCount).2
        = (node_left_count P obj indices node).getD (node_best P obj indices node).2.toNat 0 ∧
      node.triCount - (partition_range P pred indices node.leftFirst node.triCount).2
        = (node_right_count P obj indices node).getD
            (node_best P obj indices node).2.toNat 0) ∧
    (∀ md depth ind md1 k,
      split_decide P obj indices md node depth = (ind, md1, some k) →
      0 ≤ (node_best P obj indices node).2 ∧ (node_best P obj indices node).2 ≤ 14 ∧
      k = (node_left_count P obj indices node).getD (node_best P obj indices node).2.toNat 0 ∧
      node.triCount - k
        = (node_right_count P obj indices node).getD
            (node_best P obj indices node).2.toNat 0) := by
  have hbest : (node_best P obj indices node).2 ≤ 14 := by
    rcases best_split_spec P (left_sweep P (node_bins P obj indices node))
      (right_sweep P (node_bins P obj indices node)) with h | h
    · have : (node_best P obj indices node).2 = -1 := h.1
      omega
    · exact h.2.1
  have hpred : ∀ pred, split_candidate P obj indices node = some pred →
      pred = partition_pred P obj (node_axis obj indices node)
        (node_centroids obj indices node).1 (node_scale P obj indices node)
        (node_best P obj indices node).2 := by
    intro pred hc
    rw [split_candidate_eq] at hc
    by_cases h1 : node_extent obj indices node < lit_1em4
    · rw [if_pos h1] at hc; simp at hc
    · rw [if_neg h1] at hc
      by_cases h2 : (node_best P obj indices node).1 ≥ node_leaf_cost P node
      · rw [if_pos h2] at hc; simp at hc
      · rw [if_neg h2] at hc
        simp only [Option.some.injEq] at hc
        exact hc.symm
  have hrun : ∀ pred, split_candidate P obj indices node = some pred →
      0 ≤ (node_best P obj indices node).2 →
      (partition_range P pred indices node.leftFirst node.triCount).2
        = (node_left_count P obj indices node).getD (node_best P obj indices node).2.toNat 0 ∧
      node.triCount - (partition_range P pred indices node.leftFirst node.triCount).2
        = (node_right_count P obj indices node).getD
            (node_best P obj indices node).2.toNat 0 := by
    intro pred hc h0
    have hs := partition_lengths P hpos obj indices node hlen
      (node_best P obj indices node).2.toNat (by omega)
    rw [Int.toNat_of_nonneg h0, ← hpred pred hc] at hs
    exact hs
  refine ⟨fun i hi => (node_bin_range P hpos obj indices node i hi).2.2, hrun, ?_⟩
  intro md depth ind md1 k h
  obtain ⟨pred, hc, hk, _, k0, _⟩ := split_decide_some P obj indices md node depth ind md1 k h
  have h0 : 0 ≤ (node_best P obj indices node).2 := by
    by_contra hneg
    apply k0
    rw [hk, hpred pred hc, partition_left_length P obj indices node _ hlen,
      List.countP_eq_zero]
    intro i _
    simp only [decide_eq_true_eq]
    have : 0 ≤ node_pred_bin P obj indices node (indices.getD (node.leftFirst + i) 0) := by
      unfold node_pred_bin
      have hb : (BVH_BINS : Int) = 16 := rfl
      rw [hb]
      exact le_min (by norm_num) (le_max_left _ _)
    omega
  obtain ⟨a, b⟩ := hrun pred hc h0
  rw [← hk] at a b
  exact ⟨h0, hbest, a, b⟩

/-- C22 (witness): the root call on `staleBinObj` under binary32 rounding: the node is
split with a left group of 2 triangles at boundary `splitIdx = 0`, and
`leftCount[0] = 2`, `rightCount[0] = 1`. -/
theorem partition_agrees_with_binning_witness :
    staleBinRoot.leftFirst + staleBinRoot.triCount ≤ (List.range 3).length ∧
    split_decide f32Platform staleBinObj (List.range 3) 0 staleBinRoot 0
      = (List.range 3, 0, some 2) ∧
    (node_best f32Platform staleBinObj (List.range 3) staleBinRoot).2 = 0 ∧
    (0 ≤ (node_best f32Platform staleBinObj (List.range 3) staleBinRoot).2 ∧
      (node_best f32Platform staleBinObj (List.range 3) staleBinRoot).2 ≤ 14 ∧
      2 = (node_left_count f32Platform staleBinObj (List.range 3) staleBinRoot).getD
        (node_best f32Platform staleBinObj (List.range 3) staleBinRoot).2.toNat 0 ∧
      staleBinRoot.triCount - 2
        = (node_right_count f32Platform staleBinObj (List.range 3) staleBinRoot).getD
          (node_best f32Platform staleBinObj (List.range 3) staleBinRoot).2.toNat 0) :=
  ⟨by decide!, by decide!, by decide!,
    (partition_agrees_with_binning f32Platform f32_round_nonneg staleBinObj (List.range 3)
      staleBinRoot (by decide!)).2.2 0 0 (List.range 3) 0 2 (by decide!)⟩

/-- C23: in a call of `split_bvh_node` on a non-empty node, for a rounding that keeps
non-negative values non-negative and leaves zero unchanged (as every IEEE rounding does):
the test of line 77 lets the call reach the binning loop exactly when the integer
centroid extent on the chosen axis is at least 1; the bin array has 16 elements and the
index `binIdx` of line 86 lies in `[0, 15]` for every triangle of the node, so
`bins[binIdx]` is in bounds; a triangle whose centroid coordinate on the chosen axis
equals that of `cMin` gets index 0, and the node has such a triangle. -/
theorem bin_index_in_bounds (P : Platform) (hpos : ∀ x, 0 ≤ x → 0 ≤ P.rnd x)
    (h0 : P.rnd 0 = 0) (obj : Object) (indices : List Nat) (node : BVHNode)
    (hn : 1 ≤ node.triCount) :
    (¬ node_extent obj indices node < lit_1em4 ↔
      1 ≤ centroid_extent (node_axis obj indices node) (node_centroids obj indices node).1
        (node_centroids obj indices node).2) ∧
    (node_bins P obj indices node).length = 16 ∧
    (∀ i, i < node.triCount →
      0 ≤ node_bin P obj indices node i ∧ node_bin P obj indices node i ≤ 15 ∧
      (node_bin P obj indices node i).toNat < (node_bins P obj indices node).length) ∧
    (∀ i, i < node.triCount →
      axis_val (node_axis obj indices node) (triAt obj indices (node.leftFirst + i)).centroid
        = axis_val (node_axis obj indices node) (node_centroids obj indices node).1 →
      node_bin P obj indices node i = 0) ∧
    (∃ i, i < node.triCount ∧
      axis_val (node_axis obj indices node) (triAt obj indices (node.leftFirst + i)).centroid
        = axis_val (node_axis obj indices node) (node_centroids obj indices node).1 ∧
      node_bin P obj indices node i = 0) := by
  have hlen : (node_bins P obj indices node).length = 16 :=
    (bins_fold_spec
      (fun i => bin_index P (node_axis obj indices node) (node_centroids obj indices node).1
        (node_scale P obj indices node) (triAt obj indices (node.leftFirst + i)))
      (fun i => triAt obj indices (node.leftFirst + i)) (List.range node.triCount)
      (List.replicate BVH_BINS Bin.init) (by simp [BVH_BINS]) 0 (by norm_num)).1
  have hzero : ∀ i, i < node.triCount →
      axis_val (node_axis obj indices node) (triAt obj indices (node.leftFirst + i)).centroid
        = axis_val (node_axis obj indices node) (node_centroids obj indices node).1 →
      node_bin P obj indices node i = 0 := by
    intro i _ he
    unfold node_bin bin_index bin_raw
    simp only [he, sub_self, Int.cast_zero, zero_mul, h0]
    unfold truncToInt
    simp [BVH_BINS]
  refine ⟨?_, hlen, ?_, hzero, ?_⟩
  · unfold node_extent
    rw [axis_extent_small]
    unfold centroid_extent
    omega
  · intro i hi
    obtain ⟨a, b, _⟩ := node_bin_range P hpos obj indices node i hi
    exact ⟨a, b, by rw [hlen]; omega⟩
  · obtain ⟨_, hx, hy, hz, _, _, _⟩ :=
      centroid_bounds_isHull obj indices node.leftFirst node.triCount hn
    obtain ⟨p, hp, e⟩ := axis_val_attained (node_axis obj indices node) _
      (centroid_bounds obj indices node.leftFirst node.triCount).1 hx hy hz
    obtain ⟨i, hi, rfl⟩ := List.mem_map.1 hp
    have hi := List.mem_range.1 hi
    exact ⟨i, hi, e, hzero i hi e⟩

/-- C23 (witness): the root call on the four-triangle cache `demoObj` under binary32
rounding; the four bin indices are 0, 0, 15, 15. -/
theorem bin_index_in_bounds_witness :
    1 ≤ (root_init demoObj).triCount ∧
    (List.range 4).map (node_bin f32Platform demoObj (List.range 4) (root_init demoObj))
      = [0, 0, 15, 15] ∧
    (node_bins f32Platform demoObj (List.range 4) (root_init demoObj)).length = 16 ∧
    (∀ i, i < (root_init demoObj).triCount →
      0 ≤ node_bin f32Platform demoObj (List.range 4) (root_init demoObj) i ∧
      node_bin f32Platform demoObj (List.range 4) (root_init demoObj) i ≤ 15 ∧
      (node_bin f32Platform demoObj (List.range 4) (root_init demoObj) i).toNat
        < (node_bins f32Platform demoObj (List.range 4) (root_init demoObj)).length) :=
  ⟨by decide!, by decide!,
    (bin_index_in_bounds f32Platform f32_round_nonneg (by decide!) demoObj (List.range 4)
      (root_init demoObj) (by decide!)).2.1,
    (bin_index_in_bounds f32Platform f32_round_nonneg (by decide!) demoObj (List.range 4)
      (root_init demoObj) (by decide!)).2.2.1⟩

/-- C24: after `build_bvh` on a mesh of `n ≥ 1` triangles the number of nodes is odd, it
is `2 L - 1` for `L` the number of leaves, `L` is at most `n`, and so the number of nodes
is at most `2 n - 1`, below the capacity `2 n` reserved on line 182; moreover no call of
`split_bvh_node` ever shortens the node array, so its length stays at most the final one
during the whole build. -/
theorem build_bvh_node_count (P : Platform) (obj : Object) (out_indices : List Nat)
    (out_nodes : List BVHNode) (hn : 1 ≤ obj.mesh.length) :
    (∀ fuel nodeIdx st depth st1,
      split_bvh_node P obj fuel nodeIdx st depth = some st1 →
      st.nodes.length ≤ st1.nodes.length) ∧
    ∃ r, build_bvh P obj out_indices out_nodes = some r ∧
      r.out_nodes.length % 2 = 1 ∧
      r.out_nodes.length + 1 = 2 * leaf_count r.out_nodes ∧
      1 ≤ leaf_count r.out_nodes ∧
      leaf_count r.out_nodes ≤ obj.mesh.length ∧
      r.out_nodes.length ≤ 2 * obj.mesh.length - 1 ∧
      r.out_nodes.length < obj.mesh.length * 2 := by
  obtain ⟨r, h1, _, _, _, t⟩ := build_spec P obj out_indices out_nodes (mesh_ne_nil obj hn)
  have hb := t.block_le
  obtain ⟨c1, c2, c3⟩ := t.count
  have e : leaves_in r.out_nodes 0 (0 + 1) + leaves_in r.out_nodes 1 r.out_nodes.length
      = leaf_count r.out_nodes := by
    rw [← leaves_in_all, leaves_in_split r.out_nodes 0 1 r.out_nodes.length (by omega) hb]
  rw [e] at c1 c2 c3
  refine ⟨split_nodes_mono P obj, r, h1 _ (Nat.le_refl _), ?_, ?_, c2, c3, ?_, ?_⟩ <;> omega

/-- C24 (witness): the four-triangle cache `demoObj` under binary32 rounding, which
yields 3 nodes, 2 of them leaves. -/
theorem build_bvh_node_count_witness :
    1 ≤ demoObj.mesh.length ∧
    (build_bvh f32Platform demoObj [] []).map (fun r => r.out_nodes.length) = some 3 ∧
    ∃ r, build_bvh f32Platform demoObj [] [] = some r ∧
      r.out_nodes.length % 2 = 1 ∧
      r.out_nodes.length + 1 = 2 * leaf_count r.out_nodes ∧
      1 ≤ leaf_count r.out_nodes ∧
      leaf_count r.out_nodes ≤ demoObj.mesh.length ∧
      r.out_nodes.length ≤ 2 * demoObj.mesh.length - 1 ∧
      r.out_nodes.length < demoObj.mesh.length * 2 :=
  ⟨by decide!, by decide!, (build_bvh_node_count f32Platform demoObj [] [] (by decide!)).2⟩

end Core
